import Mathlib

/-!
# A verification development for the `csvt` library (CSV with Types)

This file gives a shallow embedding, in Lean 4, of the parse/validate/convert
engine of the `csvt` TypeScript library, together with theorems about it.

JavaScript strings are modelled as `List Char` (`Str`).  JavaScript numbers are
modelled exactly, as rationals extended with the two infinities; the IEEE-754
rounding of a parsed literal and the shortest-representation algorithm used by
`String(number)` are outside the model (every numeric value actually exercised
by a theorem below is an integer or a short terminating decimal, where the
double semantics are exact).  Fallible operations (`splitCsvLine` throwing on an
unterminated quote, `JSON.parse` throwing on bad input) are modelled with
`Option`/`Except`.

The embedded functions keep the names of the source functions:
`splitCsvLine`, `cleanCsvField`, `escapeCsvField` (src/utils.ts),
`parseHeaderLine` (src/parser.ts), `validateAndConvert` (src/validator.ts),
`parseCsvt` (src/index.ts), `parseCsvtStream`, `writeCsvtStream`
(src/stream.ts) and `writeCsvt`, `serializeValue`, `escapeHeaderName`
(src/writer.ts).
-/

namespace Csvt

/-- JavaScript strings are modelled as lists of characters. -/
abbrev Str := List Char

/-- The error taxonomy of `CsvtError.type` in src/types.ts:
`'format' | 'type' | 'constraint'`. -/
inductive ErrKind where
  | format
  | typeMismatch
  | constraint
deriving DecidableEq, Repr

/-- Model of the `CsvtError` interface of src/types.ts (the optional `code`
field is never set by the library and is omitted). -/
structure CsvtError where
  kind : ErrKind
  message : Str
  row : Nat
  column : Option Nat := none
  columnName : Option Str := none
  value : Option Str := none
deriving DecidableEq, Repr

/-- Model of the `CsvtHeader` interface of src/types.ts. -/
structure CsvtHeader where
  name : Str
  type : Str
  isNonNull : Bool
  columnIndex : Nat
deriving DecidableEq, Repr

/-- JavaScript number values: exact rationals extended with the infinities.
`NaN` never appears as a stored value (a `NaN` conversion result is reported
as a type error instead), so it is represented by `Option.none` at the site
of the conversion. -/
inductive JsNumV where
  | finite (q : ℚ)
  | posInf
  | negInf
deriving DecidableEq, Repr

mutual
/-- The JavaScript values a parsed cell can hold (and the values a row given
to the writer can hold): `null`, booleans, numbers, strings, JSON arrays,
JSON objects, plus `undefined` and `Date` objects (a `Date` is modelled by
the string its `toISOString()` returns), which occur only on the writer
side.  Arrays and objects carry their elements through the auxiliary mutual
types `JList`/`JPairs` (isomorphic to `List JValue` and
`List (Str × JValue)`) so that equality stays decidable. -/
inductive JValue where
  | jnull
  | jundefined
  | jbool (b : Bool)
  | jnum (n : JsNumV)
  | jstr (s : Str)
  | jdate (iso : Str)
  | jarr (elems : JList)
  | jobj (fields : JPairs)
deriving DecidableEq, Repr

/-- A list of JSON values (element list of a JSON array). -/
inductive JList where
  | nil
  | cons (hd : JValue) (tl : JList)
deriving DecidableEq, Repr

/-- A list of key/value pairs (member list of a JSON object). -/
inductive JPairs where
  | nil
  | cons (k : Str) (v : JValue) (tl : JPairs)
deriving DecidableEq, Repr
end

/-- Build a `JList` from a `List JValue`. -/
def JList.ofList : List JValue → JList
  | [] => .nil
  | v :: rest => .cons v (JList.ofList rest)

/-- Build a `JPairs` from a `List (Str × JValue)`. -/
def JPairs.ofList : List (Str × JValue) → JPairs
  | [] => .nil
  | (k, v) :: rest => .cons k v (JPairs.ofList rest)

/-- A parsed data row: the `Record<string, unknown>` built by the parser, as
the association list of its assignments in assignment (= column) order. -/
abbrev Row := List (Str × JValue)

/-- Left brace character (written by code point to keep braces out of
literals). -/
def lbrace : Char := Char.ofNat 123

/-- Right brace character. -/
def rbrace : Char := Char.ofNat 125

/-- The whitespace class used by the JavaScript string functions the library
relies on (`trim`, `Number(...)` whitespace stripping), restricted to the
ASCII whitespace characters that can actually reach them here. -/
def isJsWs (c : Char) : Bool :=
  c = ' ' || c = '\t' || c = '\n' || c = '\r' || c = '\x0b' || c = '\x0c'

/-- Model of JavaScript `String.prototype.trim`. -/
def jsTrim (s : Str) : Str :=
  ((s.dropWhile isJsWs).reverse.dropWhile isJsWs).reverse

/-- Model of JavaScript `String.prototype.toLowerCase` on the ASCII range. -/
def jsToLower (s : Str) : Str := s.map Char.toLower

/-- Does `hay` contain `needle` as a contiguous substring
(JavaScript `String.prototype.includes`)? -/
def strContains (hay needle : Str) : Bool :=
  match hay with
  | [] => decide (needle = [])
  | _ :: rest => needle.isPrefixOf hay || strContains rest needle

/-- The decimal digit character for `d`. -/
def digitChar (d : Nat) : Char := Char.ofNat (48 + d)

/-- The numeric value the base-aware digit reader assigns to a character
(the folding step of `digitsToNat` below, named for the proofs). -/
def digitVal (c : Char) : Nat :=
  c.toNat - 48 - (if c.toNat ≥ 97 then 39 else if c.toNat ≥ 65 then 7 else 0)

/-- The big-endian decimal digits of `n / 1`, most significant first,
prepended to `acc` (fuelled by the number itself). -/
def natToStrGo : Nat → Nat → Str → Str
  | 0, _, acc => acc
  | _, 0, acc => acc
  | fuel + 1, n + 1, acc =>
    natToStrGo fuel ((n + 1) / 10) (digitChar ((n + 1) % 10) :: acc)

/-- Decimal digits of a natural number (model of JavaScript number-to-string
for naturals). -/
def natToStr (n : Nat) : Str := if n = 0 then ['0'] else natToStrGo n n []

/-- Decimal digits of an integer. -/
def intToStr (n : Int) : Str := (Int.repr n).data

/-!
## src/utils.ts — Field Splitter

`splitCsvLine` is the loop of src/utils.ts: state `inQuotes`, the field built
so far (kept reversed in `cur`), and the fields already produced (kept
reversed in `acc`).  The source tracks `startIndex` and tests
`i === startIndex` to decide whether a quote opens a quoted field; since
characters are only ever appended to `currentField` and `startIndex` is reset
exactly when `currentField` is reset, `i === startIndex` holds if and only if
`currentField` is empty, which is how the state is expressed here.
A `none` result models the `throw` on an unterminated quote.
-/

def splitCsvLineGo (delim : Char) : Bool → Str → Str → List Str → Option (List Str)
  | false, [], cur, acc => some ((cur.reverse :: acc).reverse)
  | true, [], _, _ => none
  | true, '"' :: '"' :: rest, cur, acc =>
      splitCsvLineGo delim true rest ('"' :: '"' :: cur) acc
  | true, '"' :: rest, cur, acc =>
      splitCsvLineGo delim false rest ('"' :: cur) acc
  | true, c :: rest, cur, acc =>
      splitCsvLineGo delim true rest (c :: cur) acc
  | false, c :: rest, cur, acc =>
      if c = delim then splitCsvLineGo delim false rest [] (cur.reverse :: acc)
      else if c = '"' && cur.isEmpty then splitCsvLineGo delim true rest ['"'] acc
      else splitCsvLineGo delim false rest (c :: cur) acc

/-- Model of `splitCsvLine` (src/utils.ts).  Returns the raw fields, quotes
included; `none` models the thrown `'Unterminated quoted field in CSV line'`
error. -/
def splitCsvLine (line : Str) (delim : Char := ',') : Option (List Str) :=
  splitCsvLineGo delim false line [] []

/-- Replace every doubled quote `""` by a single `"` (the
`.replace(/""/g, '"')` step of `cleanCsvField`). -/
def unescapeQuotes : Str → Str
  | '"' :: '"' :: rest => '"' :: unescapeQuotes rest
  | c :: rest => c :: unescapeQuotes rest
  | [] => []

/-- Model of `cleanCsvField` (src/utils.ts): strip one layer of surrounding
quotes and unescape doubled quotes; no whitespace trimming. -/
def cleanCsvField (field : Str) : Str :=
  if field.head? = some '"' && field.getLast? = some '"' && field.length ≥ 2 then
    unescapeQuotes (field.drop 1).dropLast
  else field

/-- Model of `escapeCsvField` (src/utils.ts): quote and double internal
quotes whenever the value contains the delimiter, a quote, or a line
break. -/
def escapeCsvField (value : Str) (delim : Str) : Str :=
  let needsQuoting :=
    strContains value delim || strContains value ['"'] ||
    strContains value ['\n'] || strContains value ['\r']
  if needsQuoting then
    '"' :: (value.flatMap fun c => if c = '"' then ['"', '"'] else [c]) ++ ['"']
  else value

/-!
## JavaScript `Number(...)` — model

`validateAndConvert` converts `number` cells with `Number(cleanedValue)` and
tests the result with `isNaN`.  `Number` on a string trims whitespace, maps
the empty remainder to `0`, and otherwise recognises a numeric literal: an
optionally signed decimal literal (with optional fraction and exponent) or
`Infinity`, or an unsigned hexadecimal (`0x`), octal (`0o`) or binary (`0b`)
integer literal.  Anything else is `NaN`, modelled as `none`.  Values are
exact rationals (no IEEE rounding, no overflow to infinity). -/

/-- Numeric value of a list of digits in the given base (digits assumed
valid). -/
def digitsToNat (base : Nat) (ds : Str) : Nat :=
  ds.foldl (fun acc c => acc * base + (c.toNat - 48 -
    (if c.toNat ≥ 97 then 39 else if c.toNat ≥ 65 then 7 else 0))) 0

/-- Is `c` a decimal digit? -/
def isDigitC (c : Char) : Bool := '0' ≤ c && c ≤ '9'

/-- Is `c` a hexadecimal digit? -/
def isHexC (c : Char) : Bool :=
  isDigitC c || ('a' ≤ c && c ≤ 'f') || ('A' ≤ c && c ≤ 'F')

/-- Is `c` an octal digit? -/
def isOctC (c : Char) : Bool := '0' ≤ c && c ≤ '7'

/-- Is `c` a binary digit? -/
def isBinC (c : Char) : Bool := c = '0' || c = '1'

/-- Parse the exponent tail of a decimal literal: either nothing (exponent
`0`) or `e`/`E`, an optional sign, and at least one digit, consuming the
whole remaining input. -/
def parseExpTail (s : Str) : Option Int :=
  match s with
  | [] => some 0
  | e :: r =>
    if e = 'e' || e = 'E' then
      let (sign, r') : Int × Str :=
        match r with
        | '+' :: r2 => (1, r2)
        | '-' :: r2 => (-1, r2)
        | _ => (1, r)
      let ds := r'.takeWhile isDigitC
      if ds = [] || r'.dropWhile isDigitC ≠ [] then none
      else some (sign * (digitsToNat 10 ds : Int))
    else none

/-- Negation on `ℚ` written through `mkRat` (so that it evaluates inside
the kernel). -/
def ratNeg (q : ℚ) : ℚ := mkRat (-q.num) q.den

/-- The exact value of the decimal literal with integer digits `ip`,
fraction digits `fp` and exponent `e`:
`(ip.fp) × 10 ^ e = mantissa × 10 ^ (e - |fp|)`, built through `mkRat`. -/
def decValue (ip fp : Str) (e : Int) : ℚ :=
  let mantissa : Nat := digitsToNat 10 (ip ++ fp)
  let expon : Int := e - fp.length
  if 0 ≤ expon then mkRat (mantissa * 10 ^ expon.toNat) 1
  else mkRat mantissa (10 ^ (-expon).toNat)

/-- Parse an unsigned decimal literal (`digits [. digits] [exp]`,
`. digits [exp]`), consuming the whole input; returns its exact value. -/
def parseUnsignedDec (s : Str) : Option ℚ :=
  let ip := s.takeWhile isDigitC
  let r1 := s.dropWhile isDigitC
  if ip ≠ [] then
    match r1 with
    | '.' :: r2 =>
      let fp := r2.takeWhile isDigitC
      let r3 := r2.dropWhile isDigitC
      (parseExpTail r3).map fun e => decValue ip fp e
    | _ => (parseExpTail r1).map fun e => decValue ip [] e
  else
    match s with
    | '.' :: r2 =>
      let fp := r2.takeWhile isDigitC
      let r3 := r2.dropWhile isDigitC
      if fp = [] then none
      else (parseExpTail r3).map fun e => decValue [] fp e
    | _ => none

/-- Parse an unsigned decimal literal or `Infinity`. -/
def parseUnsignedDecOrInf (s : Str) : Option JsNumV :=
  if s = "Infinity".data then some .posInf
  else (parseUnsignedDec s).map .finite

/-- Negation on JavaScript numbers. -/
def JsNumV.neg : JsNumV → JsNumV
  | .finite q => .finite (ratNeg q)
  | .posInf => .negInf
  | .negInf => .posInf

/-- Parse a non-decimal (`0x`/`0o`/`0b`) integer literal, consuming the
whole input. -/
def parseRadixTail (p : Char → Bool) (base : Nat) (r : Str) : Option JsNumV :=
  let ds := r.takeWhile p
  if ds = [] || r.dropWhile p ≠ [] then none
  else some (.finite (mkRat (digitsToNat base ds) 1))

/-- Model of JavaScript `Number(s)` for a string argument; `none` is `NaN`.
Whitespace is trimmed; an empty remainder is `0`; a `0x`/`0o`/`0b` prefix
selects an unsigned non-decimal integer literal; otherwise an optionally
signed decimal literal or `Infinity`. -/
def jsStrToNumber (s : Str) : Option JsNumV :=
  let t := jsTrim s
  if t = [] then some (.finite (mkRat 0 1))
  else if t.take 2 = "0x".data || t.take 2 = "0X".data then
    parseRadixTail isHexC 16 (t.drop 2)
  else if t.take 2 = "0o".data || t.take 2 = "0O".data then
    parseRadixTail isOctC 8 (t.drop 2)
  else if t.take 2 = "0b".data || t.take 2 = "0B".data then
    parseRadixTail isBinC 2 (t.drop 2)
  else if t.head? = some '+' then parseUnsignedDecOrInf (t.drop 1)
  else if t.head? = some '-' then (parseUnsignedDecOrInf (t.drop 1)).map JsNumV.neg
  else parseUnsignedDecOrInf t

/-!
## JavaScript `JSON.parse` — model

Enough of `JSON.parse` to classify and carry array/object cell values:
the full JSON value grammar with strings (including escapes), exact rational
numbers, arrays, objects, and the three literals.  `none` models a thrown
`SyntaxError`.  The recursion is by fuel; the callers pass the input length
plus one, which bounds the nesting depth. -/

/-- Skip JSON insignificant whitespace. -/
def jsonSkipWs (s : Str) : Str :=
  s.dropWhile fun c => c = ' ' || c = '\t' || c = '\n' || c = '\r'

/-- Parse the body of a JSON string after the opening quote; returns the
string and the rest of the input after the closing quote. -/
def jsonStrBody : Nat → Str → Option (Str × Str)
  | 0, _ => none
  | _, [] => none
  | fuel + 1, c :: r =>
    if c = '"' then some ([], r)
    else if c = '\\' then
      match r with
      | [] => none
      | e :: r2 =>
        let dec : Option (Char × Str) :=
          if e = '"' then some ('"', r2)
          else if e = '\\' then some ('\\', r2)
          else if e = '/' then some ('/', r2)
          else if e = 'b' then some ('\x08', r2)
          else if e = 'f' then some ('\x0c', r2)
          else if e = 'n' then some ('\n', r2)
          else if e = 'r' then some ('\r', r2)
          else if e = 't' then some ('\t', r2)
          else if e = 'u' then
            match r2 with
            | h1 :: h2 :: h3 :: h4 :: r3 =>
              if isHexC h1 && isHexC h2 && isHexC h3 && isHexC h4 then
                some (Char.ofNat (digitsToNat 16 [h1, h2, h3, h4]), r3)
              else none
            | _ => none
          else none
        match dec with
        | none => none
        | some (ch, r') =>
          (jsonStrBody fuel r').map fun (tl, rest) => (ch :: tl, rest)
    else if c.toNat < 32 then none
    else (jsonStrBody fuel r).map fun (tl, rest) => (c :: tl, rest)

/-- Parse a JSON number (integer part without leading zeros, optional
fraction, optional exponent); returns its exact value and the rest. -/
def jsonNum (s : Str) : Option (ℚ × Str) :=
  let (neg, s1) : Bool × Str := match s with
    | '-' :: r => (true, r)
    | _ => (false, s)
  let ipOk : Option (Str × Str) :=
    match s1 with
    | '0' :: r => some (['0'], r)
    | c :: r =>
      if isDigitC c && c ≠ '0' then some (c :: r.takeWhile isDigitC, r.dropWhile isDigitC)
      else none
    | [] => none
  match ipOk with
  | none => none
  | some (ip, r1) =>
    -- fraction part: a dot must be followed by at least one digit
    let fr : Option (Str × Str) :=
      match r1 with
      | '.' :: rf =>
        let fp := rf.takeWhile isDigitC
        if fp = [] then none
        else some (fp, rf.dropWhile isDigitC)
      | _ => some ([], r1)
    match fr with
    | none => none
    | some (fp, r2) =>
      let (eq', r3) : Option Int × Str :=
        match r2 with
        | e :: re =>
          if e = 'e' || e = 'E' then
            let (es, re2) : Int × Str := match re with
              | '+' :: r4 => (1, r4)
              | '-' :: r4 => (-1, r4)
              | _ => (1, re)
            let ds := re2.takeWhile isDigitC
            if ds = [] then (none, r2)
            else (some (es * (digitsToNat 10 ds : Int)), re2.dropWhile isDigitC)
          else (some 0, r2)
        | [] => (some 0, r2)
      match eq' with
      | none => none
      | some e =>
        some ((if neg then ratNeg else id) (decValue ip fp e), r3)


mutual

/-- Parse one JSON value at the head of the (whitespace-skipped) input. -/
def jsonVal : Nat → Str → Option (JValue × Str)
  | 0, _ => none
  | fuel + 1, s =>
    match s with
    | 'n' :: 'u' :: 'l' :: 'l' :: r => some (.jnull, r)
    | 't' :: 'r' :: 'u' :: 'e' :: r => some (.jbool true, r)
    | 'f' :: 'a' :: 'l' :: 's' :: 'e' :: r => some (.jbool false, r)
    | '"' :: r => (jsonStrBody (r.length + 1) r).map fun (str, rest) => (.jstr str, rest)
    | '[' :: r =>
      let r' := jsonSkipWs r
      match r' with
      | ']' :: rest => some (.jarr .nil, rest)
      | _ => (jsonArrItems fuel r').map fun (elems, rest) => (.jarr elems, rest)
    | c :: r =>
      if c = lbrace then
        let r' := jsonSkipWs r
        if r'.head? = some rbrace then some (.jobj .nil, r'.drop 1)
        else (jsonObjItems fuel r').map fun (fields, rest) => (.jobj fields, rest)
      else (jsonNum s).map fun (q, rest) => (.jnum (.finite q), rest)
    | [] => none

/-- Parse the comma-separated items of a JSON array, up to and including the
closing bracket. -/
def jsonArrItems : Nat → Str → Option (JList × Str)
  | 0, _ => none
  | fuel + 1, s =>
    match jsonVal fuel s with
    | none => none
    | some (v, r) =>
      match jsonSkipWs r with
      | ',' :: r2 => (jsonArrItems fuel (jsonSkipWs r2)).map fun (tl, rest) =>
          (.cons v tl, rest)
      | ']' :: r2 => some (.cons v .nil, r2)
      | _ => none

/-- Parse the comma-separated members of a JSON object, up to and including
the closing brace. -/
def jsonObjItems : Nat → Str → Option (JPairs × Str)
  | 0, _ => none
  | fuel + 1, s =>
    match s with
    | '"' :: r =>
      match jsonStrBody (r.length + 1) r with
      | none => none
      | some (key, r1) =>
        match jsonSkipWs r1 with
        | ':' :: r2 =>
          match jsonVal fuel (jsonSkipWs r2) with
          | none => none
          | some (v, r3) =>
            match jsonSkipWs r3 with
            | ',' :: r4 => (jsonObjItems fuel (jsonSkipWs r4)).map fun (tl, rest) =>
                (.cons key v tl, rest)
            | c :: r4 => if c = rbrace then some (.cons key v .nil, r4) else none
            | [] => none
        | _ => none
    | _ => none

end

/-- Model of `JSON.parse(s)`; `none` models a thrown `SyntaxError`. -/
def jsonParse (s : Str) : Option JValue :=
  match jsonVal (s.length + 1) (jsonSkipWs s) with
  | none => none
  | some (v, r) => if jsonSkipWs r = [] then some v else none

/-!
## src/validator.ts — Type Validator / Converter
-/

/-- The `^\d{4}-\d{2}-\d{2}$` test of the `date` branch. -/
def matchIsoDate (s : Str) : Bool :=
  match s with
  | [a, b, c, d, h1, e, f, h2, g, h] =>
    isDigitC a && isDigitC b && isDigitC c && isDigitC d && h1 = '-' &&
    isDigitC e && isDigitC f && h2 = '-' && isDigitC g && isDigitC h
  | _ => false

/-- The timezone part `(Z|([+-])\d{2}:\d{2})$` of the datetime regular
expression. -/
def matchTz (s : Str) : Bool :=
  match s with
  | ['Z'] => true
  | [sg, a, b, c, d, e] =>
    (sg = '+' || sg = '-') && isDigitC a && isDigitC b && c = ':' &&
    isDigitC d && isDigitC e
  | _ => false

/-- The optional seconds and fraction parts `(:\d{2})?(\.\d+)?` followed by
the timezone, of the datetime regular expression. -/
def matchSecsFracTz (s : Str) : Bool :=
  let afterSecs : Str :=
    match s with
    | ':' :: a :: b :: r => if isDigitC a && isDigitC b then r else s
    | _ => s
  let afterFrac : Str :=
    match afterSecs with
    | '.' :: r =>
      if (r.takeWhile isDigitC) = [] then afterSecs else r.dropWhile isDigitC
    | _ => afterSecs
  matchTz afterFrac

/-- The `isoDateTimeRegex` test of src/validator.ts:
`^\d{4}-\d{2}-\d{2}T\d{2}:\d{2}(:\d{2})?(\.\d+)?(Z|([+-])\d{2}:\d{2})$`. -/
def matchIsoDateTime (s : Str) : Bool :=
  match s with
  | y1 :: y2 :: y3 :: y4 :: d1 :: m1 :: m2 :: d2 :: dd1 :: dd2 :: t :: h1 :: h2 :: c1 :: mi1 :: mi2 :: rest =>
    isDigitC y1 && isDigitC y2 && isDigitC y3 && isDigitC y4 && d1 = '-' &&
    isDigitC m1 && isDigitC m2 && d2 = '-' && isDigitC dd1 && isDigitC dd2 &&
    t = 'T' && isDigitC h1 && isDigitC h2 && c1 = ':' && isDigitC mi1 &&
    isDigitC mi2 && matchSecsFracTz rest
  | _ => false

/-- Placeholder for the host-defined message of a `SyntaxError` thrown by
`JSON.parse` (the library interpolates `e.message`, whose exact text is
engine-specific and not part of the library's behaviour). -/
def jsonSyntaxErrorMessage : Str := "SyntaxError".data

/-- The constraint-violation error built by `validateAndConvert` for an
empty cleaned value on a non-null column. -/
def nonNullViolation (header : CsvtHeader) (rowNumber : Nat) (rawValue : Str) : CsvtError :=
  { kind := .constraint
    message := "Non-null constraint violation: Field '".data ++ header.name ++
      "' cannot be empty.".data
    row := rowNumber
    column := some header.columnIndex
    columnName := some header.name
    value := some rawValue }

/-- A type error of `validateAndConvert`, with the given message body. -/
def typeError (header : CsvtHeader) (rowNumber : Nat) (rawValue : Str) (message : Str) : CsvtError :=
  { kind := .typeMismatch
    message := message
    row := rowNumber
    column := some header.columnIndex
    columnName := some header.name
    value := some rawValue }

/-- Model of `validateAndConvert` (src/validator.ts): clean the raw field,
check the empty/null case, then dispatch on the declared type. -/
def validateAndConvert (rawValue : Str) (header : CsvtHeader) (rowNumber : Nat) :
    Except CsvtError JValue :=
  let cleanedValue := cleanCsvField rawValue
  if cleanedValue = [] then
    if header.isNonNull then .error (nonNullViolation header rowNumber rawValue)
    else .ok .jnull
  else if header.type = "string".data then .ok (.jstr cleanedValue)
  else if header.type = "number".data then
    match jsStrToNumber cleanedValue with
    | none => .error (typeError header rowNumber rawValue
        ("Invalid number format for field '".data ++ header.name ++
         "'. Expected a number, got '".data ++ cleanedValue ++ "'.".data))
    | some n => .ok (.jnum n)
  else if header.type = "bool".data then
    let lowerValue := jsToLower cleanedValue
    if lowerValue = "true".data || cleanedValue = "1".data then .ok (.jbool true)
    else if lowerValue = "false".data || cleanedValue = "0".data then .ok (.jbool false)
    else .error (typeError header rowNumber rawValue
        ("Invalid boolean format for field '".data ++ header.name ++
         "'. Expected 'true', 'false', '1', or '0', got '".data ++ cleanedValue ++ "'.".data))
  else if header.type = "date".data then
    if matchIsoDate cleanedValue then .ok (.jstr cleanedValue)
    else .error (typeError header rowNumber rawValue
        ("Invalid date format for field '".data ++ header.name ++
         "'. Expected YYYY-MM-DD, got '".data ++ cleanedValue ++ "'.".data))
  else if header.type = "datetime".data then
    if matchIsoDateTime cleanedValue then .ok (.jstr cleanedValue)
    else .error (typeError header rowNumber rawValue
        ("Invalid datetime format for field '".data ++ header.name ++
         "'. Expected basic ISO 8601 format (e.g., YYYY-MM-DDTHH:MM:SSZ), got '".data ++
         cleanedValue ++ "'.".data))
  else if header.type = "array".data then
    match jsonParse cleanedValue with
    | some (.jarr elems) => .ok (.jarr elems)
    | some _ => .error (typeError header rowNumber rawValue
        ("Invalid array format for field '".data ++ header.name ++
         "'. Failed to parse as JSON array: Parsed value is not an array.. Got '".data ++
         cleanedValue ++ "'.".data))
    | none => .error (typeError header rowNumber rawValue
        ("Invalid array format for field '".data ++ header.name ++
         "'. Failed to parse as JSON array: ".data ++ jsonSyntaxErrorMessage ++
         ". Got '".data ++ cleanedValue ++ "'.".data))
  else if header.type = "object".data then
    match jsonParse cleanedValue with
    | some (.jobj fields) => .ok (.jobj fields)
    | some _ => .error (typeError header rowNumber rawValue
        ("Invalid object format for field '".data ++ header.name ++
         "'. Failed to parse as JSON object: Parsed value is not a valid object.. Got '".data ++
         cleanedValue ++ "'.".data))
    | none => .error (typeError header rowNumber rawValue
        ("Invalid object format for field '".data ++ header.name ++
         "'. Failed to parse as JSON object: ".data ++ jsonSyntaxErrorMessage ++
         ". Got '".data ++ cleanedValue ++ "'.".data))
  else
    .error
      { kind := .format
        message := "Unknown data type '".data ++ header.type ++
          "' specified for column '".data ++ header.name ++ "'.".data
        row := 1
        column := some header.columnIndex
        columnName := some header.name }

/-!
## src/parser.ts — Header Parser (`parseHeaderLine_revised`)
-/

/-- The seven known type tokens. -/
def knownTypes : List Str :=
  ["string".data, "number".data, "bool".data, "date".data, "datetime".data,
   "array".data, "object".data]

/-- Split `s` at its last colon (`lastIndexOf(':')`): the part before and
the part after.  `none` when `s` has no colon. -/
def splitAtLastColon (s : Str) : Option (Str × Str) :=
  match s.reverse.findIdx? (· = ':') with
  | none => none
  | some j =>
    let i := s.length - 1 - j
    some (s.take i, s.drop (i + 1))

/-- Process one raw header field (index `i`, 0-based), as in the loop body
of `parseHeaderLine_revised`. -/
def parseHeaderField (i : Nat) (rawField : Str) : Except CsvtError CsvtHeader :=
  let trimmedField := jsTrim rawField
  if trimmedField = [] || trimmedField = ['"', '"'] then
    .error { kind := .format
             message := "Header name at index ".data ++ natToStr i ++
               " is effectively empty".data
             row := 1, column := some (i + 1) }
  else
    let afterColon : Except CsvtError (Str × Str × Bool) :=
      match splitAtLastColon trimmedField with
      | some (namePartRaw, tpRaw0) =>
        let name := jsTrim (cleanCsvField namePartRaw)
        let tpRaw1 := jsTrim tpRaw0
        let (isNonNull, typePartRaw) : Bool × Str :=
          if tpRaw1.getLast? = some '!' then (true, jsTrim tpRaw1.dropLast)
          else (false, tpRaw1)
        if typePartRaw = [] then
          .error { kind := .format
                   message := "Type specification is missing after colon for header '".data ++
                     (if name = [] then "(empty name part)".data else name) ++ "'".data
                   row := 1, column := some (i + 1), value := some rawField }
        else if strContains typePartRaw ['"'] || strContains typePartRaw [':'] then
          .error { kind := .format
                   message := "Invalid characters found in type specification '".data ++
                     typePartRaw ++ "' for header '".data ++ name ++ "'".data
                   row := 1, column := some (i + 1), value := some rawField }
        else
          let ty := jsToLower typePartRaw
          if knownTypes.contains ty then .ok (name, ty, isNonNull)
          else
            .error { kind := .format
                     message := "Unknown data type '".data ++ ty ++
                       "' for header '".data ++ name ++ "'".data
                     row := 1, column := some (i + 1) }
      | none =>
        let (isNonNull, potentialNameRaw) : Bool × Str :=
          if trimmedField.getLast? = some '!' && trimmedField.length > 1 then
            (true, trimmedField.dropLast)
          else (false, trimmedField)
        .ok (jsTrim (cleanCsvField potentialNameRaw), "string".data, isNonNull)
    match afterColon with
    | .error e => .error e
    | .ok (name, ty, isNonNull) =>
      if name = [] then
        .error { kind := .format
                 message := "Header name is missing or became empty after cleaning at index ".data ++
                   natToStr i
                 row := 1, column := some (i + 1) }
      else .ok { name := name, type := ty, isNonNull := isNonNull, columnIndex := i + 1 }

/-- Process all raw header fields in order, failing at the first bad one. -/
def parseHeaderFields (i : Nat) : List Str → Except CsvtError (List CsvtHeader)
  | [] => .ok []
  | f :: rest =>
    match parseHeaderField i f with
    | .error e => .error e
    | .ok h =>
      match parseHeaderFields (i + 1) rest with
      | .error e => .error e
      | .ok hs => .ok (h :: hs)

/-- The duplicate-name scan at the end of `parseHeaderLine_revised`: first
header whose name was already seen, in column order. -/
def findDuplicateName (seen : List Str) : List CsvtHeader → Option Str
  | [] => none
  | h :: rest =>
    if seen.contains h.name then some h.name
    else findDuplicateName (h.name :: seen) rest

/-- Model of `parseHeaderLine` (src/parser.ts, `parseHeaderLine_revised`).
`Except.error` models the `error` field of the returned record being set
(in which case the source returns an empty `headers` array). -/
def parseHeaderLine (headerLine : Str) : Except CsvtError (List CsvtHeader) :=
  if jsTrim headerLine = [] then
    .error { kind := .format, message := "Header line is empty".data, row := 1 }
  else
    match splitCsvLine headerLine with
    | none =>
      .error { kind := .format
               message := "Unterminated quoted field in CSV line".data, row := 1 }
    | some rawFields =>
      match parseHeaderFields 0 rawFields with
      | .error e => .error e
      | .ok headers =>
        match findDuplicateName [] headers with
        | some dup =>
          .error { kind := .format
                   message := "Duplicate header name found: '".data ++ dup ++ "'".data
                   row := 1 }
        | none => .ok headers

/-!
## src/index.ts — `parseCsvt`
-/

/-- The `errorMode` option of `CsvtParseOptions`. -/
inductive ErrorMode where
  | strict
  | collect
  | substituteNull
deriving DecidableEq, Repr

/-- Model of the `CsvtParsedResult` record. -/
structure ParsedResult where
  data : List Row
  headers : List CsvtHeader
  errors : List CsvtError
deriving DecidableEq, Repr

/-- The `csvtString.replace(/\r\n|\r/g, '\n')` normalisation. -/
def normalizeNewlines : Str → Str
  | [] => []
  | '\r' :: '\n' :: rest => '\n' :: normalizeNewlines rest
  | '\r' :: rest => '\n' :: normalizeNewlines rest
  | c :: rest => c :: normalizeNewlines rest

/-- JavaScript `String.prototype.split` with a single-character separator
(always returns at least one piece). -/
def splitOnChar (sep : Char) : Str → List Str
  | [] => [[]]
  | c :: rest =>
    match splitOnChar sep rest with
    | f :: pieces => if c = sep then [] :: f :: pieces else (c :: f) :: pieces
    | [] => [[c]]

/-- The format error pushed when `splitCsvLine` throws on a data line
(src/index.ts wraps the exception's message unchanged). -/
def lineSplitError (rowNumber : Nat) : CsvtError :=
  { kind := .format
    message := "Unterminated quoted field in CSV line".data
    row := rowNumber }

/-- The field-count-mismatch format error of src/index.ts. -/
def fieldCountError (expected found rowNumber : Nat) : CsvtError :=
  { kind := .format
    message := "Expected ".data ++ natToStr expected ++
      " fields, but found ".data ++ natToStr found
    row := rowNumber }

/-- Phase 1 of `parseCsvt` (the first data loop): split each data line into
raw fields, check the field count, and either record the fields or record a
format error and skip the line.  A final empty line is silently skipped.
In strict mode the first error aborts everything (`Except.error` models the
`throw`).  `rowNumber` is the 1-based row number of the first line of the
list. -/
def phase1 (mode : ErrorMode) (nHeaders : Nat) :
    List Str → Nat → Except CsvtError (List CsvtError × List (List Str))
  | [], _ => .ok ([], [])
  | line :: rest, rowNumber =>
    -- skip an empty line only when it is the very last one
    if line = [] && rest = [] then .ok ([], [])
    else
      let step : Except CsvtError (Option CsvtError × Option (List Str)) :=
        match splitCsvLine line with
        | none =>
          if mode = .strict then .error (lineSplitError rowNumber)
          else .ok (some (lineSplitError rowNumber), none)
        | some fields =>
          if fields.length ≠ nHeaders then
            if mode = .strict then .error (fieldCountError nHeaders fields.length rowNumber)
            else .ok (some (fieldCountError nHeaders fields.length rowNumber), none)
          else .ok (none, some fields)
      match step with
      | .error e => .error e
      | .ok (errOpt, rowOpt) =>
        match phase1 mode nHeaders rest (rowNumber + 1) with
        | .error e => .error e
        | .ok (errs, rows) => .ok (errOpt.toList ++ errs, rowOpt.toList ++ rows)

/-- The per-row validation loop of `parseCsvt` (phase 3 & 4): validate each
field against its header; under `collect` any error ends the row (it is
skipped); under `substituteNull` a constraint violation on a non-null column
ends the row, a type error substitutes `null`, and anything else leaves the
column unassigned.  Returns the errors pushed for this row and the assembled
row object (`none` when the row is skipped). -/
def processRow (mode : ErrorMode) :
    List CsvtHeader → List Str → Nat → List CsvtError → Row →
    Except CsvtError (List CsvtError × Option Row)
  | [], _, _, errs, obj => .ok (errs.reverse, some obj.reverse)
  | _ :: _, [], _, errs, obj =>
    -- unreachable in the composition: phase 1 guarantees matching lengths
    .ok (errs.reverse, some obj.reverse)
  | header :: hs, rawValue :: fs, rowNumber, errs, obj =>
    match validateAndConvert rawValue header rowNumber with
    | .ok v => processRow mode hs fs rowNumber errs ((header.name, v) :: obj)
    | .error e =>
      if mode = .strict then .error e
      else if mode = .substituteNull then
        if header.isNonNull && e.kind = .constraint then
          .ok ((e :: errs).reverse, none)
        else if e.kind = .typeMismatch then
          processRow mode hs fs rowNumber (e :: errs) ((header.name, .jnull) :: obj)
        else
          processRow mode hs fs rowNumber (e :: errs) obj
      else -- collect
        .ok ((e :: errs).reverse, none)

/-- Phase 2 of `parseCsvt`: validate every surviving raw row.  The row
number passed to the validator is `rowIndex + 2` over the *compacted* raw
data (`// Data rows start from line 2`). -/
def phase2 (mode : ErrorMode) (headers : List CsvtHeader) :
    List (List Str) → Nat → Except CsvtError (List CsvtError × List Row)
  | [], _ => .ok ([], [])
  | fields :: rest, rowIndex =>
    match processRow mode headers fields (rowIndex + 2) [] [] with
    | .error e => .error e
    | .ok (errs, rowOpt) =>
      match phase2 mode headers rest (rowIndex + 1) with
      | .error e => .error e
      | .ok (errs', rows) => .ok (errs ++ errs', rowOpt.toList ++ rows)

/-- The core of `parseCsvt` after newline splitting: empty-input check,
header parse, phase 1 and phase 2, and result assembly.  `Except.error`
models the `throw` of strict mode. -/
def parseLines (mode : ErrorMode) (lines : List Str) : Except CsvtError ParsedResult :=
  if lines = [] || lines = [[]] then
    let e : CsvtError := { kind := .format, message := "Input is empty".data, row := 1 }
    if mode = .strict then .error e
    else .ok { data := [], headers := [], errors := [e] }
  else
    match lines with
    | [] => .ok { data := [], headers := [], errors := [] } -- unreachable
    | headerLine :: dataLines =>
      match parseHeaderLine headerLine with
      | .error e =>
        if mode = .strict then .error e
        else .ok { data := [], headers := [], errors := [e] }
      | .ok headers =>
        match phase1 mode headers.length dataLines 2 with
        | .error e => .error e
        | .ok (fmtErrs, rawData) =>
          match phase2 mode headers rawData 0 with
          | .error e => .error e
          | .ok (valErrs, rows) =>
            .ok { data := rows, headers := headers, errors := fmtErrs ++ valErrs }

/-- Model of `parseCsvt` (src/index.ts). -/
def parseCsvt (mode : ErrorMode) (csvtString : Str) : Except CsvtError ParsedResult :=
  parseLines mode (splitOnChar '\n' (normalizeNewlines csvtString))

/-!
## src/stream.ts — `parseCsvtStream`

The streaming parser keeps one growing text buffer.  On each chunk arrival
it appends the chunk and repeatedly extracts the first logical line — the
prefix before the first newline that `findUnquotedNewlineIndex` finds while
outside quotes — and feeds it to the header parser or the row pipeline.  On
end of source the non-empty remainder is treated as one final line.

`splitFirstLine` below fuses `findUnquotedNewlineIndex` with the two
`substring` slices of the source (it returns the part before the first
unquoted newline and the part after it), so that the quote scanning is the
source's scan verbatim.  Since per-line processing never influences line
extraction (a header failure or a strict-mode throw only stops the session),
the loop of the source is modelled as: extract all currently available
lines, then fold the per-line processing over them, stopping at a halt or a
throw. -/

/-- The quote-tracking state of `findUnquotedNewlineIndex`, one character
at a time.  The source skips an escaped pair `""` inside quotes with a
lookahead; expressed per character that is: seeing a quote inside quotes
moves to `pending`, and the next character resolves it — another quote
means the pair was an escaped literal (back to `inside`), anything else
means that quote had closed the field (`outside`, so a newline right after
it is a line break). -/
inductive QState where
  | outside
  | inside
  | pending
deriving DecidableEq, Repr

/-- Split the buffer at the first newline found outside quotes, using the
quote tracking of `findUnquotedNewlineIndex`.  Returns the text before the
newline and the text after it, or `none` if every newline is inside
quotes. -/
def splitFirstLine : Str → QState → Option (Str × Str)
  | [], _ => none
  | c :: rest, .outside =>
    if c = '"' then (splitFirstLine rest .inside).map fun p => (c :: p.1, p.2)
    else if c = '\n' then some ([], rest)
    else (splitFirstLine rest .outside).map fun p => (c :: p.1, p.2)
  | c :: rest, .inside =>
    if c = '"' then (splitFirstLine rest .pending).map fun p => (c :: p.1, p.2)
    else (splitFirstLine rest .inside).map fun p => (c :: p.1, p.2)
  | c :: rest, .pending =>
    if c = '"' then (splitFirstLine rest .inside).map fun p => (c :: p.1, p.2)
    else if c = '\n' then some ([], rest)
    else (splitFirstLine rest .outside).map fun p => (c :: p.1, p.2)

/-- Strip one trailing carriage return (the `line.endsWith('\r')` slice). -/
def stripTrailingCR (s : Str) : Str :=
  if s.getLast? = some '\r' then s.dropLast else s

/-- The extraction loop over the buffer, fuelled (each extracted line
consumes at least the newline character, so `buffer.length + 1` steps
always suffice; `extractLines_eq` below gives the fuel-free unfolding).
When `done` is set, a non-empty remainder is emitted as one final line (with
no carriage-return stripping, as in the source). -/
def extractLinesGo : Nat → Bool → Str → List Str × Str
  | 0, _, buffer => ([], buffer)
  | fuel + 1, done, buffer =>
    match splitFirstLine buffer .outside with
    | some (l, r) =>
      let (ls, rem) := extractLinesGo fuel done r
      (stripTrailingCR l :: ls, rem)
    | none => if done && buffer ≠ [] then ([buffer], []) else ([], buffer)

/-- All logical lines currently extractable from the buffer, plus the
remaining buffer. -/
def extractLines (done : Bool) (buffer : Str) : List Str × Str :=
  extractLinesGo (buffer.length + 1) done buffer

/-- The mutable locals of the `parseCsvtStream` generator other than the
buffer. -/
structure PState where
  headers : Option (List CsvtHeader)
  rowNumber : Nat
  headerYielded : Bool
deriving DecidableEq, Repr

/-- What processing one line does to the session: continue with a new
state, stop the generator (header failure in a non-strict mode), or throw
(strict mode). -/
inductive StepRes where
  | cont (st : PState)
  | halt
  | thrown (e : CsvtError)
deriving DecidableEq, Repr

/-- The per-column validation loop of the stream's data-row branch: returns
the assembled row data, the errors pushed for the row, and the
`hasFatalErrorForRow` flag; `Except.error` models the strict-mode throw of
the first error. -/
def streamProcessRow (mode : ErrorMode) :
    List CsvtHeader → List Str → Nat → Except CsvtError (Row × List CsvtError × Bool)
  | [], _, _ => .ok ([], [], false)
  | _ :: _, [], _ => .ok ([], [], false) -- unreachable: field counts match
  | header :: hs, rawValue :: fs, rowNumber =>
    match validateAndConvert rawValue header rowNumber with
    | .ok v =>
      match streamProcessRow mode hs fs rowNumber with
      | .error e => .error e
      | .ok (row, errs, fatal) => .ok ((header.name, v) :: row, errs, fatal)
    | .error e =>
      if mode = .strict then .error e
      else
        let fatal :=
          (e.kind = .constraint) ||
          (if mode = .substituteNull && e.kind = .typeMismatch && !header.isNonNull then false
           else if mode ≠ .substituteNull then true
           else mode = .substituteNull && e.kind = .typeMismatch && header.isNonNull)
        let assignNull := mode = .substituteNull && e.kind = .typeMismatch && !header.isNonNull
        match streamProcessRow mode hs fs rowNumber with
        | .error e' => .error e'
        | .ok (row, errs, fatal') =>
          .ok ((if assignNull then [(header.name, JValue.jnull)] else []) ++ row,
               e :: errs, fatal || fatal')

/-- The headers attached to an emission: the parsed headers on the first
emission, the empty list afterwards. -/
def emitHeaders (st : PState) (hs : List CsvtHeader) : List CsvtHeader :=
  if st.headerYielded then [] else hs

/-- Process one extracted logical line, as in the body of the inner loop of
`parseCsvtStream`: the header branch, the blank-line skip, the two format
errors, and the validation branch with its three emission cases. -/
def streamProcessLine (mode : ErrorMode) (st : PState) (line : Str) :
    List ParsedResult × StepRes :=
  match st.headers with
  | none =>
    match parseHeaderLine line with
    | .error e =>
      if mode = .strict then ([], .thrown e)
      else ([{ data := [], headers := [], errors := [e] }], .halt)
    | .ok hs =>
      ([], .cont { headers := some hs, rowNumber := st.rowNumber + 1,
                   headerYielded := st.headerYielded })
  | some hs =>
    if jsTrim line = [] then
      ([], .cont { st with rowNumber := st.rowNumber + 1 })
    else
      match splitCsvLine line with
      | none =>
        let e : CsvtError :=
          { kind := .format
            message := "Failed to parse CSV row: Unterminated quoted field in CSV line".data
            row := st.rowNumber
            value := some line }
        if mode = .strict then ([], .thrown e)
        else ([{ data := [], headers := emitHeaders st hs, errors := [e] }],
              .cont { st with rowNumber := st.rowNumber + 1, headerYielded := true })
      | some rawFields =>
        if rawFields.length ≠ hs.length then
          let e : CsvtError :=
            { kind := .format
              message := "Incorrect number of fields. Expected ".data ++
                natToStr hs.length ++ ", got ".data ++ natToStr rawFields.length ++ ".".data
              row := st.rowNumber
              value := some line }
          if mode = .strict then ([], .thrown e)
          else ([{ data := [], headers := emitHeaders st hs, errors := [e] }],
                .cont { st with rowNumber := st.rowNumber + 1, headerYielded := true })
        else
          match streamProcessRow mode hs rawFields st.rowNumber with
          | .error e => ([], .thrown e)
          | .ok (rowData, rowErrors, fatal) =>
            if rowErrors ≠ [] && fatal then
              ([{ data := [], headers := emitHeaders st hs, errors := rowErrors }],
               .cont { st with rowNumber := st.rowNumber + 1, headerYielded := true })
            else if rowErrors ≠ [] && mode = .substituteNull && !fatal then
              ([{ data := [rowData], headers := emitHeaders st hs, errors := rowErrors }],
               .cont { st with rowNumber := st.rowNumber + 1, headerYielded := true })
            else if rowErrors = [] then
              ([{ data := [rowData], headers := emitHeaders st hs, errors := [] }],
               .cont { st with rowNumber := st.rowNumber + 1, headerYielded := true })
            else
              ([], .cont { st with rowNumber := st.rowNumber + 1 })

/-- Process a list of extracted lines in order, stopping at a halt or a
throw. -/
def streamProcessLines (mode : ErrorMode) (st : PState) :
    List Str → List ParsedResult × StepRes
  | [] => ([], .cont st)
  | l :: rest =>
    match streamProcessLine mode st l with
    | (ems, .cont st') =>
      let (ems2, r) := streamProcessLines mode st' rest
      (ems ++ ems2, r)
    | (ems, .halt) => (ems, .halt)
    | (ems, .thrown e) => (ems, .thrown e)

/-- The observable outcome of a streaming session: the sequence of yielded
results and, when strict mode throws, the thrown error. -/
structure StreamRun where
  emitted : List ParsedResult
  thrown : Option CsvtError
deriving DecidableEq, Repr

/-- The chunk loop of `parseCsvtStream`: append each chunk to the buffer
and process every complete line; after the last chunk, process the
remaining buffer with `done` set. -/
def runChunks (mode : ErrorMode) (buffer : Str) (st : PState) :
    List Str → StreamRun
  | [] =>
    let (ls, _) := extractLines true buffer
    let (ems, r) := streamProcessLines mode st ls
    { emitted := ems
      thrown := match r with | .thrown e => some e | _ => none }
  | c :: rest =>
    let (ls, rem) := extractLines false (buffer ++ c)
    let (ems, r) := streamProcessLines mode st ls
    match r with
    | .cont st' =>
      let out := runChunks mode rem st' rest
      { emitted := ems ++ out.emitted, thrown := out.thrown }
    | .halt => { emitted := ems, thrown := none }
    | .thrown e => { emitted := ems, thrown := some e }

/-- Model of `parseCsvtStream` (src/stream.ts) on a chunked text source. -/
def parseCsvtStream (mode : ErrorMode) (chunks : List Str) : StreamRun :=
  runChunks mode [] { headers := none, rowNumber := 1, headerYielded := false } chunks

/-!
## src/writer.ts — `writeCsvt` and the streaming writer

JavaScript rows are modelled as association lists of `JValue`s; a missing
key reads as `undefined`.  `String(number)` is modelled exactly for
integers and decimal-terminating rationals (every number a theorem below
serialises is of that form); the shortest-double-representation algorithm
and the exponent form for very large magnitudes are outside the model. -/

/-- Left-pad a string with zeros to length `k`. -/
def padZeros (s : Str) (k : Nat) : Str :=
  List.replicate (k - s.length) '0' ++ s

/-- Smallest `k ≤ 1100` with `den ∣ 10 ^ k` (any rational a double can hold
terminates within 1075 decimal digits). -/
def decExponent (den : Nat) : Option Nat :=
  (List.range 1100).find? fun k => den ∣ 10 ^ k

/-- Model of JavaScript `String(n)` for a finite number, exact on
decimal-terminating rationals. -/
def ratToDecStr (q : ℚ) : Str :=
  let sign : Str := if q < 0 then ['-'] else []
  let n := q.num.natAbs
  let d := q.den
  if d = 1 then sign ++ natToStr n
  else
    match decExponent d with
    | some k =>
      let m := n * 10 ^ k / d
      sign ++ natToStr (m / 10 ^ k) ++ ['.'] ++ padZeros (natToStr (m % 10 ^ k)) k
    | none => sign ++ natToStr (n / d)

/-- Model of JavaScript `String(n)` on numbers. -/
def jsNumToStr : JsNumV → Str
  | .finite q => ratToDecStr q
  | .posInf => "Infinity".data
  | .negInf => "-Infinity".data

/-- The lowercase hexadecimal digit character for `d`. -/
def hexDigitChar (d : Nat) : Char :=
  if d < 10 then Char.ofNat (48 + d) else Char.ofNat (87 + d)

/-- How `JSON.stringify` escapes one character inside a string literal:
shorthand escapes for the common control characters, a lowercase
`\u00..` hexadecimal escape for the remaining control characters, and
everything else verbatim. -/
def jsonEscChar (c : Char) : Str :=
  if c = '"' then ['\\', '"']
  else if c = '\\' then ['\\', '\\']
  else if c = '\n' then ['\\', 'n']
  else if c = '\r' then ['\\', 'r']
  else if c = '\t' then ['\\', 't']
  else if c = '\x08' then ['\\', 'b']
  else if c = '\x0c' then ['\\', 'f']
  else if c.toNat < 32 then
    ['\\', 'u', '0', '0', hexDigitChar (c.toNat / 16), hexDigitChar (c.toNat % 16)]
  else [c]

/-- JSON string quoting as performed by `JSON.stringify`. -/
def jsonQuote (s : Str) : Str :=
  '"' :: s.flatMap jsonEscChar ++ ['"']

mutual

/-- Model of `JSON.stringify` on a JavaScript value; `none` is the
`undefined` result (for an `undefined` argument). -/
def jsonStringifyV : JValue → Option Str
  | .jnull => some "null".data
  | .jundefined => none
  | .jbool b => some (if b then "true".data else "false".data)
  | .jnum n =>
    some (match n with
      | .finite q => ratToDecStr q
      | _ => "null".data)
  | .jstr s => some (jsonQuote s)
  | .jdate iso => some (jsonQuote iso)
  | .jarr elems => some ('[' :: jsonStringifyList elems ++ [']'])
  | .jobj fields => some (lbrace :: jsonStringifyPairs fields ++ [rbrace])

/-- Serialise the elements of a JSON array (`undefined` becomes `null`). -/
def jsonStringifyList : JList → Str
  | .nil => []
  | .cons v .nil => (jsonStringifyV v).getD "null".data
  | .cons v tl => (jsonStringifyV v).getD "null".data ++ ',' :: jsonStringifyList tl

/-- Serialise the members of a JSON object (`undefined` members are
omitted). -/
def jsonStringifyPairs : JPairs → Str
  | .nil => []
  | .cons k v tl =>
    match jsonStringifyV v with
    | none => jsonStringifyPairs tl
    | some s =>
      let entry := jsonQuote k ++ ':' :: s
      match jsonStringifyPairs tl with
      | [] => entry
      | rest => entry ++ ',' :: rest

end

/-- Model of `serializeValue` (src/writer.ts). -/
def serializeValue : JValue → Str
  | .jnull => []
  | .jundefined => []
  | .jdate iso => iso
  | .jstr s => s
  | .jnum n => jsNumToStr n
  | .jbool b => if b then "true".data else "false".data
  | .jarr elems => (jsonStringifyV (.jarr elems)).getD []
  | .jobj fields => (jsonStringifyV (.jobj fields)).getD []

/-- Model of `escapeHeaderName` (src/writer.ts). -/
def escapeHeaderName (name : Str) (delim : Str) : Str :=
  let needsQuoting :=
    strContains name delim || strContains name [':'] ||
    strContains name [' '] || strContains name ['"'] ||
    strContains name ['\n'] || strContains name ['\r']
  if needsQuoting then
    '"' :: (name.flatMap fun c => if c = '"' then ['"', '"'] else [c]) ++ ['"']
  else name

/-- Model of the `ExplicitColumnHeader` interface. -/
structure ExplicitColumnHeader where
  name : Str
  type : Str
deriving DecidableEq, Repr

/-- Model of the `WriteOptions` record (defaults as in the source). -/
structure WriteOptions where
  headers : Option (List ExplicitColumnHeader) := none
  lineBreak : Str := ['\n']
  delimiter : Str := [',']
deriving DecidableEq, Repr

/-- The `InternalHeader` of src/writer.ts: an explicit header plus the data
key it reads. -/
structure InternalHeader where
  name : Str
  type : Str
  key : Str
deriving DecidableEq, Repr

/-- The type-inference step of `determineHeaders` (and of the streaming
writer): map a sample value's shape to a type token. -/
def inferType (v : JValue) : Str :=
  match v with
  | .jnum _ => "number".data
  | .jbool _ => "bool".data
  | .jdate _ => "datetime".data
  | .jarr _ => "array".data
  | .jobj _ => "object".data
  | _ => "string".data

/-- Read `row[key]`; a missing key is `undefined`. -/
def rowGet (row : Row) (key : Str) : JValue :=
  match row.lookup key with
  | some v => v
  | none => .jundefined

/-- Model of `determineHeaders` (src/writer.ts). -/
def determineHeaders (data : List Row) (explicit : Option (List ExplicitColumnHeader)) :
    List InternalHeader :=
  match explicit with
  | some hs => hs.map fun h => { name := h.name, type := h.type, key := h.name }
  | none =>
    match data with
    | [] => []
    | r0 :: _ =>
      r0.map fun (key, v) => { name := key, type := inferType v, key := key }

/-- JavaScript `Array.prototype.join`. -/
def joinWith (sep : Str) : List Str → Str
  | [] => []
  | [s] => s
  | s :: rest => s ++ sep ++ joinWith sep rest

/-- The header row of the written output. -/
def generateHeaderRow (headers : List InternalHeader) (delim : Str) : Str :=
  joinWith delim (headers.map fun h => escapeHeaderName h.name delim ++ ':' :: h.type)

/-- One written data row. -/
def generateDataRow (row : Row) (headers : List InternalHeader) (delim : Str) : Str :=
  joinWith delim (headers.map fun h => escapeCsvField (serializeValue (rowGet row h.key)) delim)

/-- Model of `writeCsvt` (src/writer.ts). -/
def writeCsvt (data : List Row) (options : WriteOptions := {}) : Str :=
  if data = [] then []
  else
    let headers := determineHeaders data options.headers
    let headerRow := generateHeaderRow headers options.delimiter
    let dataRows := data.map fun row => generateDataRow row headers options.delimiter
    joinWith options.lineBreak (headerRow :: dataRows)

/-- The header line emitted by the streaming writer (name and raw type
token joined by a colon). -/
def streamHeaderLine (hs : List ExplicitColumnHeader) (delim : Str) : Str :=
  joinWith delim (hs.map fun h => escapeHeaderName h.name delim ++ ':' :: h.type)

/-- The transform loop of `writeCsvtStream`: define (or re-attempt to
infer) headers on each incoming row until they are defined, emitting the
header line once, then emit one line per row. -/
def writeStreamGo (explicit : Option (List ExplicitColumnHeader)) (delim lineBreak : Str)
    (headersDefined : Bool) (hsToWrite : List ExplicitColumnHeader) :
    List Row → Str
  | [] =>
    -- the flush step: emit an explicit header line if nothing was emitted
    match explicit with
    | some hs => if !headersDefined && hs ≠ [] then streamHeaderLine hs delim ++ lineBreak else []
    | none => []
  | row :: rest =>
    let hs := if headersDefined then hsToWrite else
      match explicit with
      | some hs => hs
      | none => row.map fun (key, v) => { name := key, type := inferType v }
    let headerPart : Str :=
      if !headersDefined && hs ≠ [] then streamHeaderLine hs delim ++ lineBreak else []
    let defined := headersDefined || hs ≠ []
    let rowPart : Str :=
      if hs ≠ [] then
        joinWith delim (hs.map fun h => escapeCsvField (serializeValue (rowGet row h.name)) delim) ++ lineBreak
      else []
    headerPart ++ rowPart ++ writeStreamGo explicit delim lineBreak defined hs rest

/-- Model of `writeCsvtStream` (src/stream.ts) on a finite synchronous row
source: the concatenation of every text chunk it produces. -/
def writeCsvtStreamText (data : List Row) (options : WriteOptions := {}) : Str :=
  writeStreamGo options.headers options.delimiter options.lineBreak false [] data

/-- Decidable equality of `Except` results. -/
instance {ε α : Type _} [DecidableEq ε] [DecidableEq α] : DecidableEq (Except ε α) := fun x y =>
  match x, y with
  | .error e, .error e' =>
    if h : e = e' then .isTrue (by rw [h]) else .isFalse (fun hh => h (Except.error.inj hh))
  | .ok a, .ok b =>
    if h : a = b then .isTrue (by rw [h]) else .isFalse (fun hh => h (Except.ok.inj hh))
  | .error _, .ok _ => .isFalse (fun hh => Except.noConfusion hh)
  | .ok _, .error _ => .isFalse (fun hh => Except.noConfusion hh)

/-!
## Theorems

### C10 — `writeCsvt` on an empty data array
-/

/-- C10: for every options value, `writeCsvt` applied to an empty data array
returns the empty string — no header line is emitted even when
`options.headers` supplies an explicit column schema — unlike the streaming
writer, which emits the explicit header line on flush. -/
theorem writeCsvt_empty_data (opts : WriteOptions) :
    writeCsvt [] opts = [] ∧
    (∀ hs, opts.headers = some hs → hs ≠ [] →
      writeCsvtStreamText [] opts = streamHeaderLine hs opts.delimiter ++ opts.lineBreak) := by
  refine ⟨rfl, fun hs hh hne => ?_⟩
  simp [writeCsvtStreamText, writeStreamGo, hh, hne]

/-- A concrete options value with an explicit one-column schema. -/
def exOpts : WriteOptions :=
  { headers := some [{ name := "a".data, type := "number!".data }] }

/-- Witness for C10 at a concrete options value with an explicit one-column
schema. -/
theorem writeCsvt_empty_data_witness :
    writeCsvt [] exOpts = [] ∧
    writeCsvtStreamText [] exOpts = "a:number!\n".data := by
  have h := writeCsvt_empty_data exOpts
  refine ⟨h.1, ?_⟩
  have h2 := h.2 [{ name := "a".data, type := "number!".data }] rfl (by decide)
  rw [h2]; decide

/-!
### C7 — empty cleaned value short-circuits `validateAndConvert`
-/

/-- C7: for every raw field, every column schema entry of any declared type
(including `string`), and every row number: if cleaning the raw field yields
the empty string, `validateAndConvert` returns a constraint error when the
column is non-null and the value `null` (with no error) when it is nullable;
type-specific validation is never reached. -/
theorem validateAndConvert_empty_cleaned (raw : Str) (header : CsvtHeader) (rowNumber : Nat)
    (hclean : cleanCsvField raw = []) :
    validateAndConvert raw header rowNumber =
      if header.isNonNull then .error (nonNullViolation header rowNumber raw)
      else .ok .jnull := by
  unfold validateAndConvert
  rw [hclean]
  simp

/-- Witness for C7: the quoted empty field `""` cleans to the empty string;
on a non-null `date` column it yields the constraint error, on a nullable
`object` column it yields `null` — the type validators are never consulted. -/
theorem validateAndConvert_empty_cleaned_witness :
    cleanCsvField "\"\"".data = [] ∧
    validateAndConvert "\"\"".data ⟨"d".data, "date".data, true, 1⟩ 5 =
      .error (nonNullViolation ⟨"d".data, "date".data, true, 1⟩ 5 "\"\"".data) ∧
    validateAndConvert "\"\"".data ⟨"o".data, "object".data, false, 2⟩ 7 = .ok .jnull := by
  refine ⟨by decide, ?_, ?_⟩
  · rw [validateAndConvert_empty_cleaned _ _ _ (by decide)]; decide
  · rw [validateAndConvert_empty_cleaned _ _ _ (by decide)]; decide

/-!
### C1 — `substituteNull` on a non-null column (code bug)

The claim (and §4.3.3 of the repository's own CSVT specification: a type
mismatch in a non-null column "MUST be treated as an error even in this
mode", which the streaming implementation honours by excluding the row)
says a type error on a non-null column excludes the row.  `parseCsvt`
instead substitutes `null` — its `substituteNull` branch checks
`isNonNull` only for constraint errors — and keeps the row, leaving a
`null` in a column declared non-null.
-/

/-- C1: evaluating `parseCsvt` in `substituteNull` mode on a type error in
the non-null column `a:number!` — the row is kept with `a = null`, where
the claim (and the repository's own specification and streaming
implementation) require it to be excluded. -/
theorem parseCsvt_substituteNull_nonNull_type_error :
    parseCsvt .substituteNull "a:number!\nx".data =
      .ok { data := [[("a".data, .jnull)]],
            headers := [⟨"a".data, "number".data, true, 1⟩],
            errors := [{ kind := .typeMismatch,
                         message := "Invalid number format for field 'a'. Expected a number, got 'x'.".data,
                         row := 2, column := some 1, columnName := some "a".data,
                         value := some "x".data }] } ∧
    (parseCsvtStream .substituteNull ["a:number!\nx".data]).emitted.map ParsedResult.data =
      [[]] := by
  exact ⟨by decide, by decide⟩

/-!
### C4 — row numbers after rows excluded by format errors (code bug)

Phase 2 of `parseCsvt` recomputes row numbers as `rowIndex + 2` over the
*compacted* array of surviving rows, so when an earlier data line was
excluded by a format error, every later validation error carries a row
number smaller than the line it occurred on — contradicting the claim and
the `CsvtError.row` documentation ("the 1-based row number where the error
occurred").
-/

/-- C4: on `a:number\nx,y\nz`, line 2 is excluded with a field-count format
error, and the type error for the value `z` — which occurs on logical line
3 — is reported with `row = 2`. -/
theorem parseCsvt_row_number_shift :
    parseCsvt .collect "a:number\nx,y\nz".data =
      .ok { data := [],
            headers := [{ name := "a".data, type := "number".data,
                          isNonNull := false, columnIndex := 1 }],
            errors := [fieldCountError 1 2 2,
                       { kind := .typeMismatch,
                         message := "Invalid number format for field 'a'. Expected a number, got 'z'.".data,
                         row := 2, column := some 1, columnName := some "a".data,
                         value := some "z".data }] } ∧
    -- the error for the value on line 3 carries row 2, not 3
    ((parseCsvt .collect "a:number\nx,y\nz".data).toOption.map
      (fun p => p.errors.map CsvtError.row)) = some [2, 2] := by
  exact ⟨by decide, by decide⟩

/-!
### C5 — quoted header name containing a colon, with no type annotation

`parseHeaderLine_revised` splits the *trimmed raw* field at its last colon
(`lastIndexOf`), quoted or not.  For the single field `"order:id"` (quotes
included) the split lands inside the quoted name, the putative type part is
`id"`, and the quote in it triggers the "Invalid characters found in type
specification" format error — the field does not parse as a bare quoted
name.  With an explicit annotation (`"order:id":string`) the last colon is
the separator and the column round-trips.
-/

/-- C5 counterexample: the single header field `"order:id"` (with quotes,
no type annotation) does not produce a column named `order:id` of type
`string`; it fails with a format error. -/
theorem parseHeaderLine_quoted_colon_no_type :
    parseHeaderLine "\"order:id\"".data =
      .error { kind := .format
               message := "Invalid characters found in type specification 'id\"' for header '\"order'".data
               row := 1, column := some 1, value := some "\"order:id\"".data } ∧
    parseHeaderLine "\"order:id\"".data ≠
      .ok [⟨"order:id".data, "string".data, false, 1⟩] := by
  exact ⟨by decide, by decide⟩

/-- C5 amended: `parseHeaderLine` splits each header field on the last
colon, quoted or not.  A quoted name containing a colon is only accepted
with an explicit type annotation — `"order:id":string` yields the column
`order:id` of type `string`, `nonNull = false` — while the bare quoted
field `"order:id"` is rejected with a format error because its putative
type part contains a quote. -/
theorem parseHeaderLine_last_colon_split :
    parseHeaderLine "\"order:id\":string".data =
      .ok [⟨"order:id".data, "string".data, false, 1⟩] ∧
    (parseHeaderLine "\"order:id\"".data =
      .error { kind := .format
               message := "Invalid characters found in type specification 'id\"' for header '\"order'".data
               row := 1, column := some 1, value := some "\"order:id\"".data }) := by
  exact ⟨by decide, by decide⟩

/-!
### C3 — `collect` mode: one error per bad row, not one per bad column

The claim says a data row with invalid values in several columns
contributes one error per invalid column.  The `collect` branch of the
validation loop `break`s at the first error of a row, so later columns of
that row are never validated: each bad row contributes exactly one error
(its first).  The row is excluded entirely, as claimed.
-/

/-- C3 counterexample: under `collect`, the row `x,y` with two invalid
`number` columns contributes exactly one error (for column 1), not one per
invalid column. -/
theorem parseCsvt_collect_one_error_per_row :
    parseCsvt .collect "a:number,b:number\nx,y".data =
      .ok { data := [],
            headers := [{ name := "a".data, type := "number".data,
                          isNonNull := false, columnIndex := 1 },
                        { name := "b".data, type := "number".data,
                          isNonNull := false, columnIndex := 2 }],
            errors := [{ kind := .typeMismatch,
                         message := "Invalid number format for field 'a'. Expected a number, got 'x'.".data,
                         row := 2, column := some 1, columnName := some "a".data,
                         value := some "x".data }] } ∧
    ((parseCsvt .collect "a:number,b:number\nx,y".data).toOption.map
      (fun p => p.errors.length)) = some 1 := by
  exact ⟨by decide, by decide⟩

/-- The first validation error of a row, in column order (the error at
which the `collect` branch stops). -/
def firstRowError : List CsvtHeader → List Str → Nat → Option CsvtError
  | header :: hs, rawValue :: fs, rowNumber =>
    match validateAndConvert rawValue header rowNumber with
    | .ok _ => firstRowError hs fs rowNumber
    | .error e => some e
  | _, _, _ => none

/-- The fully converted row, defined when no column errors. -/
def okRow : List CsvtHeader → List Str → Nat → Row
  | header :: hs, rawValue :: fs, rowNumber =>
    match validateAndConvert rawValue header rowNumber with
    | .ok v => (header.name, v) :: okRow hs fs rowNumber
    | .error _ => okRow hs fs rowNumber
  | _, _, _ => []

/-- The errors phase 2 produces under `collect`: at most one per row. -/
def collectErrors (hs : List CsvtHeader) : List (List Str) → Nat → List CsvtError
  | [], _ => []
  | fs :: rest, i =>
    (firstRowError hs fs (i + 2)).toList ++ collectErrors hs rest (i + 1)

/-- The rows phase 2 keeps under `collect`: exactly the all-valid ones. -/
def collectRows (hs : List CsvtHeader) : List (List Str) → Nat → List Row
  | [], _ => []
  | fs :: rest, i =>
    (if firstRowError hs fs (i + 2) = none then [okRow hs fs (i + 2)] else []) ++
      collectRows hs rest (i + 1)

/-- The validation loop under `collect`, characterised: it stops at the
first invalid column, emitting exactly that column's error, and drops the
row; with no invalid column it emits no error and keeps the converted
row. -/
theorem processRow_collect (hs : List CsvtHeader) (fs : List Str) (rowNumber : Nat)
    (errs : List CsvtError) (obj : Row) :
    processRow .collect hs fs rowNumber errs obj =
      .ok (match firstRowError hs fs rowNumber with
           | some e => ((e :: errs).reverse, none)
           | none => (errs.reverse, some (obj.reverse ++ okRow hs fs rowNumber))) := by
  induction hs generalizing fs errs obj with
  | nil => simp [processRow, firstRowError, okRow]
  | cons header hs ih =>
    cases fs with
    | nil => simp [processRow, firstRowError, okRow]
    | cons rawValue fs =>
      cases hv : validateAndConvert rawValue header rowNumber with
      | ok v => simp [processRow, firstRowError, okRow, hv, ih]
      | error e => simp [processRow, firstRowError, okRow, hv]

/-- C3 amended: in `parseCsvt` with `collect`, a row with any invalid
column is excluded from the data entirely, and it contributes exactly one
error — the one for its *first* invalid column; later invalid columns of
the same row contribute nothing (phase 2 characterised). -/
theorem phase2_collect_characterisation (hs : List CsvtHeader)
    (raws : List (List Str)) (i : Nat) :
    phase2 .collect hs raws i =
      .ok (collectErrors hs raws i, collectRows hs raws i) := by
  induction raws generalizing i with
  | nil => simp [phase2, collectErrors, collectRows]
  | cons fs rest ih =>
    have h := processRow_collect hs fs (i + 2) [] []
    cases hfe : firstRowError hs fs (i + 2) with
    | some e =>
      rw [hfe] at h
      simp [phase2, h, collectErrors, collectRows, hfe, ih]
    | none =>
      rw [hfe] at h
      simp [phase2, h, collectErrors, collectRows, hfe, ih]

/-!
### C9 — the `number` type accepts more than decimal/floating literals

`validateAndConvert` converts `number` cells with `Number(cleanedValue)`,
which also accepts hexadecimal/octal/binary integer literals, `Infinity`
(optionally signed), and whitespace-padded strings — all of which the claim
says must be type errors.
-/

/-- A nullable `number` column. -/
def numHdr : CsvtHeader :=
  { name := "n".data, type := "number".data, isNonNull := false, columnIndex := 1 }

/-- C9 counterexample: the non-empty values `0x10` and `Infinity` are not
decimal or floating-point literals, yet `validateAndConvert` succeeds on
them in a `number` column instead of returning a type error. -/
theorem validateAndConvert_number_not_decimal_only :
    validateAndConvert "0x10".data numHdr 2 = .ok (.jnum (.finite 16)) ∧
    validateAndConvert "Infinity".data numHdr 2 = .ok (.jnum .posInf) ∧
    validateAndConvert " 12 ".data numHdr 2 = .ok (.jnum (.finite 12)) := by
  exact ⟨by decide, by decide, by decide⟩

/-- The text of a signed decimal literal with integer digits `ip` and
fraction digits `fp`. -/
def decLitStr (sgn : Bool) (ip fp : Str) : Str :=
  (if sgn then ['-'] else []) ++ ip ++ (if fp = [] then [] else '.' :: fp)

theorem takeWhile_append_all {α : Type _} {p : α → Bool} {l1 : List α} (l2 : List α)
    (h : ∀ c ∈ l1, p c = true) :
    (l1 ++ l2).takeWhile p = l1 ++ l2.takeWhile p := by
  induction l1 with
  | nil => simp
  | cons a l ih =>
    simp only [List.cons_append, List.takeWhile_cons, h a (by simp)]
    simp [ih fun c hc => h c (by simp [hc])]

theorem dropWhile_append_all {α : Type _} {p : α → Bool} {l1 : List α} (l2 : List α)
    (h : ∀ c ∈ l1, p c = true) :
    (l1 ++ l2).dropWhile p = l2.dropWhile p := by
  induction l1 with
  | nil => simp
  | cons a l ih =>
    simp only [List.cons_append, List.dropWhile_cons, h a (by simp)]
    simp [ih fun c hc => h c (by simp [hc])]

theorem cleanCsvField_of_head {s : Str} (h : s.head? ≠ some '"') :
    cleanCsvField s = s := by
  unfold cleanCsvField
  rw [if_neg]
  simp [h]

/-- A digit character is none of the special characters that drive the
numeric scanner. -/
theorem isDigitC_spec {c : Char} (h : isDigitC c = true) :
    48 ≤ c.toNat ∧ c.toNat ≤ 57 := by
  simp only [isDigitC, Bool.and_eq_true, decide_eq_true_eq] at h
  exact ⟨h.1, h.2⟩

theorem digit_ne {c : Char} (h : isDigitC c = true) (d : Char) (hd : d.toNat < 48 ∨ 57 < d.toNat) :
    c ≠ d := by
  intro rfl'
  rcases isDigitC_spec h with ⟨h1, h2⟩
  subst rfl'
  omega

theorem digit_not_ws {c : Char} (h : isDigitC c = true) : isJsWs c = false := by
  rcases isDigitC_spec h with ⟨h1, h2⟩
  simp only [isJsWs, Bool.or_eq_false_iff, decide_eq_false_iff_not]
  refine ⟨⟨⟨⟨⟨?_, ?_⟩, ?_⟩, ?_⟩, ?_⟩, ?_⟩ <;> (intro rfl'; subst rfl'; simp_all)

theorem dropWhile_eq_self_of {α : Type _} {p : α → Bool} {l : List α}
    (h : ∀ c ∈ l, p c = false) : l.dropWhile p = l := by
  cases l with
  | nil => rfl
  | cons a l => simp [List.dropWhile_cons, h a (by simp)]

theorem jsTrim_eq_self_of_no_ws {s : Str} (h : ∀ c ∈ s, isJsWs c = false) :
    jsTrim s = s := by
  unfold jsTrim
  rw [dropWhile_eq_self_of h, dropWhile_eq_self_of (fun c hc => h c (List.mem_reverse.mp hc)),
    List.reverse_reverse]

theorem decLitStr_chars {sgn : Bool} {ip fp : Str} (c : Char)
    (hip : ∀ x ∈ ip, isDigitC x = true) (hfp : ∀ x ∈ fp, isDigitC x = true)
    (hc : c ∈ decLitStr sgn ip fp) :
    c = '-' ∨ c = '.' ∨ isDigitC c = true := by
  unfold decLitStr at hc
  simp only [List.mem_append] at hc
  rcases hc with (hc | hc) | hc
  · left
    rcases sgn with _ | _ <;> simp_all
  · right; right; exact hip c hc
  · rcases hfp' : fp with _ | ⟨a, l⟩
    · subst hfp'; simp at hc
    · subst hfp'
      simp only [if_neg (by simp : ¬ (a :: l = [])), List.mem_cons] at hc
      rcases hc with hc | hc
      · right; left; exact hc
      · right; right; exact hfp c (by simp [hc])

theorem takeWhile_all {p : Char → Bool} {l : Str} (h : ∀ x ∈ l, p x = true) :
    l.takeWhile p = l := by
  induction l with
  | nil => rfl
  | cons a l ih =>
    simp [List.takeWhile_cons, h a (by simp), ih fun x hx => h x (by simp [hx])]

theorem dropWhile_all {p : Char → Bool} {l : Str} (h : ∀ x ∈ l, p x = true) :
    l.dropWhile p = [] := by
  induction l with
  | nil => rfl
  | cons a l ih =>
    simp [List.dropWhile_cons, h a (by simp), ih fun x hx => h x (by simp [hx])]

/-- The core decimal computation: `parseUnsignedDec` on
`digits [. digits]` succeeds with the literal's exact value. -/
theorem parseUnsignedDec_decimal (ip fp : Str) (hip0 : ip ≠ [])
    (hip : ∀ x ∈ ip, isDigitC x = true) (hfp : ∀ x ∈ fp, isDigitC x = true) :
    parseUnsignedDec (ip ++ (if fp = [] then [] else '.' :: fp)) =
      some (mkRat (digitsToNat 10 (ip ++ fp)) (10 ^ fp.length)) := by
  cases fp with
  | nil =>
    simp only [reduceIte, List.append_nil]
    unfold parseUnsignedDec
    simp only [takeWhile_all hip, dropWhile_all hip, if_pos hip0, ne_eq]
    simp only [parseExpTail, Option.map_some]
    unfold decValue
    norm_num
  | cons a l =>
    rw [if_neg (by simp)]
    unfold parseUnsignedDec
    have h1 : List.takeWhile isDigitC ('.' :: a :: l) = [] := by
      rw [List.takeWhile_cons_of_neg]
      decide
    have h2 : List.dropWhile isDigitC ('.' :: a :: l) = '.' :: a :: l := by
      rw [List.dropWhile_cons_of_neg]
      decide
    simp only [takeWhile_append_all _ hip, dropWhile_append_all _ hip, h1, h2,
      List.append_nil, ne_eq, if_pos hip0, takeWhile_all hfp, dropWhile_all hfp]
    simp only [parseExpTail, Option.map_some, Option.some.injEq]
    unfold decValue
    have hlen : ¬ (0 : Int) ≤ 0 - ((a :: l).length : Int) := by
      simp only [List.length_cons]
      omega
    simp only [if_neg hlen]
    congr 1

/-- The second character of an unsigned decimal literal is a digit or the
fraction dot, so the literal never carries a `0x`/`0o`/`0b` prefix. -/
theorem decLit_take2_ne {ip fp : Str} (hip0 : ip ≠ [])
    (hip : ∀ x ∈ ip, isDigitC x = true) {y : Char}
    (hy1 : isDigitC y = false) (hy2 : y ≠ '.') {sgn : Bool} :
    (decLitStr sgn ip fp).take 2 ≠ ['0', y] := by
  intro h
  rcases ip with _ | ⟨d, ip'⟩
  · exact hip0 rfl
  · cases sgn with
    | true =>
      simp only [decLitStr, if_pos rfl, List.cons_append, List.take_succ_cons] at h
      exact absurd (List.cons.inj h).1 (by decide)
    | false =>
      simp only [decLitStr, if_neg (by decide : ¬ (false = true)), List.nil_append,
        List.cons_append, List.take_succ_cons] at h
      obtain ⟨hd, hrest⟩ := List.cons.inj h
      rcases ip' with _ | ⟨c, ip''⟩
      · rcases hfp : fp with _ | ⟨a, l⟩
        · subst hfp; simp at hrest
        · subst hfp
          simp only [if_neg (by simp : ¬ (a :: l = [])), List.nil_append,
            List.take_succ_cons, List.take_zero] at hrest
          exact hy2 (List.cons.inj hrest).1.symm
      · simp only [List.cons_append, List.take_succ_cons, List.take_zero] at hrest
        have := hip c (by simp)
        rw [(List.cons.inj hrest).1] at this
        rw [this] at hy1
        exact absurd hy1 (by simp)

/-- `Number(...)` on the text of a signed decimal literal returns its exact
value. -/
theorem jsStrToNumber_decimal (sgn : Bool) (ip fp : Str) (hip0 : ip ≠ [])
    (hip : ∀ x ∈ ip, isDigitC x = true) (hfp : ∀ x ∈ fp, isDigitC x = true) :
    jsStrToNumber (decLitStr sgn ip fp) =
      some (.finite ((if sgn then ratNeg else id)
        (mkRat (digitsToNat 10 (ip ++ fp)) (10 ^ fp.length)))) := by
  have htrim : jsTrim (decLitStr sgn ip fp) = decLitStr sgn ip fp :=
    jsTrim_eq_self_of_no_ws fun c hc => by
      rcases decLitStr_chars c hip hfp hc with h | h | h
      · subst h; decide
      · subst h; decide
      · exact digit_not_ws h
  have hne : decLitStr sgn ip fp ≠ [] := by
    rcases ip with _ | ⟨d, ip'⟩
    · exact absurd rfl hip0
    · cases sgn <;> simp [decLitStr]
  have hx1 := @decLit_take2_ne ip fp hip0 hip 'x' (by decide) (by decide) sgn
  have hx2 := @decLit_take2_ne ip fp hip0 hip 'X' (by decide) (by decide) sgn
  have ho1 := @decLit_take2_ne ip fp hip0 hip 'o' (by decide) (by decide) sgn
  have ho2 := @decLit_take2_ne ip fp hip0 hip 'O' (by decide) (by decide) sgn
  have hb1 := @decLit_take2_ne ip fp hip0 hip 'b' (by decide) (by decide) sgn
  have hb2 := @decLit_take2_ne ip fp hip0 hip 'B' (by decide) (by decide) sgn
  have hinf : ∀ r : Str, ip ++ r ≠ "Infinity".data := by
    intro r h
    rcases ip with _ | ⟨d, ip'⟩
    · exact hip0 rfl
    · have hd := hip d (by simp)
      simp only [List.cons_append] at h
      rw [(List.cons.inj h).1] at hd
      exact absurd hd (by decide)
  have htake2 : ∀ y : Str, (decLitStr sgn ip fp).take 2 = y →
      y ≠ "0x".data → True := fun _ _ _ => trivial
  unfold jsStrToNumber
  rw [htrim]
  rw [if_neg hne]
  have hprefix : ∀ (y : Char), isDigitC y = false → y ≠ '.' →
      ¬ (decLitStr sgn ip fp).take 2 = ['0', y] :=
    fun y h1 h2 => decLit_take2_ne hip0 hip h1 h2
  rw [if_neg (by
    simp only [Bool.or_eq_true, decide_eq_true_eq, not_or]
    exact ⟨hx1, hx2⟩)]
  rw [if_neg (by
    simp only [Bool.or_eq_true, decide_eq_true_eq, not_or]
    exact ⟨ho1, ho2⟩)]
  rw [if_neg (by
    simp only [Bool.or_eq_true, decide_eq_true_eq, not_or]
    exact ⟨hb1, hb2⟩)]
  cases sgn with
  | true =>
    have hshape : decLitStr true ip fp =
        '-' :: (ip ++ (if fp = [] then [] else '.' :: fp)) := by
      simp [decLitStr]
    rw [hshape]
    rw [if_neg (by simp), if_pos (by simp)]
    simp only [List.drop_succ_cons, List.drop_zero, if_true]
    unfold parseUnsignedDecOrInf
    rw [if_neg (by simpa using hinf _), parseUnsignedDec_decimal ip fp hip0 hip hfp]
    simp [JsNumV.neg]
  | false =>
    have hshape : decLitStr false ip fp =
        ip ++ (if fp = [] then [] else '.' :: fp) := by
      simp [decLitStr]
    rw [hshape]
    rcases hips : ip with _ | ⟨d, ip'⟩
    · exact absurd hips hip0
    · have hd := hip d (by simp [hips])
      simp only [List.cons_append, List.head?_cons]
      rw [if_neg (by
          simp only [Option.some.injEq]
          exact fun h => absurd hd (by rw [h]; decide)),
        if_neg (by
          simp only [Option.some.injEq]
          exact fun h => absurd hd (by rw [h]; decide))]
      rw [← List.cons_append, ← hips]
      unfold parseUnsignedDecOrInf
      rw [if_neg (by simpa using hinf _), parseUnsignedDec_decimal ip fp hip0 hip hfp]
      simp [hips]

/-- C9 amended: in a `number` column, every signed decimal/floating literal
(optional sign, integer digits, optional fraction digits; exponent notation
also accepted, second conjunct) converts to its exact value — but
acceptance is strictly wider than the claim states: hexadecimal literals,
`Infinity` and whitespace-padded strings also succeed (conjuncts 3–5), and
exactly the strings rejected by JavaScript `Number(...)` give a type error
(last conjunct). -/
theorem validateAndConvert_number_characterisation :
    (∀ (header : CsvtHeader) (rn : Nat) (sgn : Bool) (ip fp : Str),
      header.type = "number".data → ip ≠ [] →
      (∀ c ∈ ip, isDigitC c = true) → (∀ c ∈ fp, isDigitC c = true) →
      validateAndConvert (decLitStr sgn ip fp) header rn =
        .ok (.jnum (.finite ((if sgn then ratNeg else id)
          (mkRat (digitsToNat 10 (ip ++ fp)) (10 ^ fp.length)))))) ∧
    validateAndConvert "1.5e2".data numHdr 2 = .ok (.jnum (.finite 150)) ∧
    validateAndConvert "0x10".data numHdr 2 = .ok (.jnum (.finite 16)) ∧
    validateAndConvert "Infinity".data numHdr 2 = .ok (.jnum .posInf) ∧
    validateAndConvert " 12 ".data numHdr 2 = .ok (.jnum (.finite 12)) ∧
    (∀ (header : CsvtHeader) (rn : Nat) (raw : Str),
      header.type = "number".data → cleanCsvField raw ≠ [] →
      jsStrToNumber (cleanCsvField raw) = none →
      validateAndConvert raw header rn = .error (typeError header rn raw
        ("Invalid number format for field '".data ++ header.name ++
         "'. Expected a number, got '".data ++ cleanCsvField raw ++ "'.".data))) := by
  refine ⟨?_, by decide, by decide, by decide, by decide, ?_⟩
  · intro header rn sgn ip fp htype hip0 hip hfp
    have hhead : (decLitStr sgn ip fp).head? ≠ some '"' := by
      rcases ip with _ | ⟨d, ip'⟩
      · exact absurd rfl hip0
      · have hd := hip d (by simp)
        cases sgn with
        | true => simp [decLitStr]
        | false =>
          simp only [decLitStr, if_neg (by decide : ¬ (false = true)), List.nil_append,
            List.cons_append, List.head?_cons, ne_eq, Option.some.injEq]
          exact fun h => absurd hd (by rw [h]; decide)
    have hclean := cleanCsvField_of_head hhead
    have hne : decLitStr sgn ip fp ≠ [] := by
      rcases ip with _ | ⟨d, ip'⟩
      · exact absurd rfl hip0
      · cases sgn <;> simp [decLitStr]
    simp only [validateAndConvert, hclean, if_neg hne, htype]
    simp only [if_true, reduceIte]
    rw [jsStrToNumber_decimal sgn ip fp hip0 hip hfp]
    rw [if_neg (by decide)]
  · intro header rn raw htype hne hnone
    simp only [validateAndConvert, if_neg hne, htype]
    simp only [if_true, reduceIte]
    rw [hnone]
    rw [if_neg (by decide)]

/-- Witness for C9 at `-12.5` (a signed floating literal) and `zzz` (a
rejected string). -/
theorem validateAndConvert_number_characterisation_witness :
    validateAndConvert "-12.5".data numHdr 3 = .ok (.jnum (.finite (mkRat (-25) 2))) ∧
    validateAndConvert "zzz".data numHdr 4 =
      .error (typeError numHdr 4 "zzz".data
        "Invalid number format for field 'n'. Expected a number, got 'zzz'.".data) := by
  constructor
  · have h := validateAndConvert_number_characterisation.1 numHdr 3 true
      "12".data "5".data rfl (by decide) (by decide) (by decide)
    rw [show "-12.5".data = decLitStr true "12".data "5".data from by decide, h]
    decide
  · have h := validateAndConvert_number_characterisation.2.2.2.2.2 numHdr 4
      "zzz".data rfl (by decide) (by decide)
    rw [h]
    decide

/-!
### C8 — unterminated quotes: failure condition and containment

Part one: `splitCsvLine` fails exactly when the line ends inside an open
quoted field, where "inside an open quoted field" is the independent state
machine of the specification's Field Splitter contract (a field entering
quoted state only when it *starts* with a quote, a doubled quote being an
escaped literal).  Part two: in the non-strict modes such a failure
excludes only that line — the parsed data equals that of the same input
with the bad line removed, and the format error is recorded.
-/

/-- The Field Splitter quote-state machine of the specification: scan a
line; a field that starts with a quote enters quoted state, a doubled
quote inside quotes is an escaped literal, a single quote ends quoted
state, the delimiter (outside quotes) starts a new field.  Returns whether
the line ends still inside quoted state. -/
def endsInOpenQuote (delim : Char) : Bool → Bool → Str → Bool
  | inQuotes, _, [] => inQuotes
  | true, _, '"' :: '"' :: rest => endsInOpenQuote delim true false rest
  | true, _, '"' :: rest => endsInOpenQuote delim false false rest
  | true, _, _ :: rest => endsInOpenQuote delim true false rest
  | false, atFieldStart, c :: rest =>
    if c = delim then endsInOpenQuote delim false true rest
    else if c = '"' && atFieldStart then endsInOpenQuote delim true false rest
    else endsInOpenQuote delim false false rest

theorem splitGo_isNone (delim : Char) :
    ∀ (inQ : Bool) (cs cur : Str) (acc : List Str),
      (splitCsvLineGo delim inQ cs cur acc).isNone =
        endsInOpenQuote delim inQ cur.isEmpty cs := by
  intro inQ cs cur acc
  induction inQ, cs, cur, acc using splitCsvLineGo.induct delim <;>
    try simp_all [splitCsvLineGo, endsInOpenQuote]
  split <;> simp_all

theorem splitCsvLine_none_iff (line : Str) (delim : Char) :
    splitCsvLine line delim = none ↔ endsInOpenQuote delim false true line = true := by
  rw [← Option.isNone_iff_eq_none, splitCsvLine, splitGo_isNone]
  simp

/-- The format errors phase 1 records, line by line. -/
def phase1Errs (n : Nat) : List Str → Nat → List CsvtError
  | [], _ => []
  | line :: rest, rowNumber =>
    if line = [] && rest = [] then []
    else
      (match splitCsvLine line with
       | none => [lineSplitError rowNumber]
       | some fields =>
         if fields.length ≠ n then [fieldCountError n fields.length rowNumber] else []) ++
      phase1Errs n rest (rowNumber + 1)

/-- The raw rows phase 1 keeps, line by line. -/
def phase1Rows (n : Nat) : List Str → List (List Str)
  | [] => []
  | line :: rest =>
    if line = [] && rest = [] then []
    else
      (match splitCsvLine line with
       | none => []
       | some fields => if fields.length ≠ n then [] else [fields]) ++
      phase1Rows n rest

theorem phase1_nonstrict {mode : ErrorMode} (hmode : mode ≠ .strict) (n : Nat) :
    ∀ (lines : List Str) (rn : Nat),
      phase1 mode n lines rn = .ok (phase1Errs n lines rn, phase1Rows n lines) := by
  intro lines
  induction lines with
  | nil => intro rn; rfl
  | cons line rest ih =>
    intro rn
    unfold phase1 phase1Errs phase1Rows
    by_cases hskip : line = [] ∧ rest = []
    · simp [hskip.1, hskip.2]
    · cases hsp : splitCsvLine line with
      | none => simp [hskip, if_neg hmode, ih]
      | some fields =>
        by_cases hlen : fields.length ≠ n
        · simp [hskip, hlen, if_neg hmode, ih]
        · simp [hskip, hlen, ih]

theorem processRow_nonstrict_ok {mode : ErrorMode} (hmode : mode ≠ .strict) :
    ∀ (hs : List CsvtHeader) (fs : Str → Str) (fields : List Str) (rn : Nat)
      (errs : List CsvtError) (obj : Row),
      ∃ out, processRow mode hs fields rn errs obj = .ok out := by
  intro hs _ fields
  induction hs generalizing fields with
  | nil => intro rn errs obj; exact ⟨_, rfl⟩
  | cons header hs ih =>
    intro rn errs obj
    cases fields with
    | nil => exact ⟨_, rfl⟩
    | cons f fs =>
      unfold processRow
      split
      · exact ih fs rn errs _
      · split
        · exact absurd (by assumption) hmode
        · split
          · split
            · exact ⟨_, rfl⟩
            · split
              · exact ih fs rn _ _
              · exact ih fs rn _ _
          · exact ⟨_, rfl⟩

theorem phase2_nonstrict_ok {mode : ErrorMode} (hmode : mode ≠ .strict)
    (hs : List CsvtHeader) :
    ∀ (raws : List (List Str)) (i : Nat), ∃ out, phase2 mode hs raws i = .ok out := by
  intro raws
  induction raws with
  | nil => intro i; exact ⟨_, rfl⟩
  | cons fields rest ih =>
    intro i
    unfold phase2
    obtain ⟨out1, h1⟩ := processRow_nonstrict_ok hmode hs id fields (i + 2) [] []
    obtain ⟨out2, h2⟩ := ih (i + 1)
    rw [h1, h2]
    exact ⟨_, rfl⟩

theorem phase1Rows_skip {l : Str} (hl : splitCsvLine l = none) (n : Nat) :
    ∀ (pre post : List Str), post ≠ [] →
      phase1Rows n (pre ++ l :: post) = phase1Rows n (pre ++ post) := by
  intro pre
  induction pre with
  | nil =>
    intro post hpost
    simp only [List.nil_append]
    cases post with
    | nil => exact absurd rfl hpost
    | cons p ps =>
      conv_lhs => unfold phase1Rows
      rw [if_neg (by simp), hl]
      simp
  | cons p pre ih =>
    intro post hpost
    simp only [List.cons_append]
    unfold phase1Rows
    rw [if_neg (by simp [hpost]), if_neg (by
      simp only [Bool.and_eq_true, decide_eq_true_eq, not_and]
      intro _ hq
      exact absurd hq (by simp [hpost]))]
    rw [ih post hpost]

theorem phase1Errs_mem {l : Str} (hl : splitCsvLine l = none) (n : Nat) :
    ∀ (pre post : List Str) (rn : Nat), post ≠ [] →
      lineSplitError (rn + pre.length) ∈ phase1Errs n (pre ++ l :: post) rn := by
  intro pre
  induction pre with
  | nil =>
    intro post rn hpost
    simp only [List.nil_append, List.length_nil, Nat.add_zero]
    unfold phase1Errs
    rw [if_neg (by simp [hpost])]
    simp [hl]
  | cons p pre ih =>
    intro post rn hpost
    simp only [List.cons_append, List.length_cons]
    unfold phase1Errs
    rw [if_neg (by
      simp only [Bool.and_eq_true, decide_eq_true_eq, not_and]
      intro _ hq
      exact absurd hq (by simp [hpost]))]
    refine List.mem_append_right _ ?_
    have harith : rn + (pre.length + 1) = (rn + 1) + pre.length := by omega
    rw [harith]
    exact ih post (rn + 1) hpost

/-- C8: `splitCsvLine` fails exactly when the line ends inside an open
quoted field (the specification's quote-state machine), and in the
non-strict modes such a failure aborts only that line: the parsed data
equals that of the same input with the bad line removed, and the
Unterminated-quoted-field format error for that line (at its own row
number) is in the error sequence. -/
theorem splitCsvLine_failure_containment :
    (∀ (line : Str) (delim : Char),
      splitCsvLine line delim = none ↔ endsInOpenQuote delim false true line = true) ∧
    (∀ (mode : ErrorMode) (hdr l : Str) (pre post : List Str) (hs : List CsvtHeader),
      mode ≠ .strict → splitCsvLine l = none → parseHeaderLine hdr = .ok hs →
      post ≠ [] →
      ∃ p1 p2, parseLines mode (hdr :: pre ++ l :: post) = .ok p1 ∧
        parseLines mode (hdr :: pre ++ post) = .ok p2 ∧
        p1.data = p2.data ∧
        lineSplitError (pre.length + 2) ∈ p1.errors) := by
  refine ⟨splitCsvLine_none_iff, ?_⟩
  intro mode hdr l pre post hs hmode hl hheader hpost
  obtain ⟨⟨ve, rows⟩, hph2⟩ :=
    phase2_nonstrict_ok hmode hs (phase1Rows hs.length (pre ++ post)) 0
  have hne1 : ¬ (hdr :: pre ++ l :: post = [] ∨ hdr :: pre ++ l :: post = [[]]) := by
    intro h
    rcases h with h | h <;> simp at h
  have hne2 : ¬ (hdr :: pre ++ post = [] ∨ hdr :: pre ++ post = [[]]) := by
    intro h
    rcases h with h | h
    · simp at h
    · rcases post with _ | ⟨p, ps⟩
      · exact absurd rfl hpost
      · simp at h
  have hrows := phase1Rows_skip hl hs.length pre post hpost
  refine ⟨⟨rows, hs, phase1Errs hs.length (pre ++ l :: post) 2 ++ ve⟩,
          ⟨rows, hs, phase1Errs hs.length (pre ++ post) 2 ++ ve⟩, ?_, ?_, rfl, ?_⟩
  · unfold parseLines
    rw [if_neg (by simpa using hne1)]
    simp only [List.cons_append, hheader, phase1_nonstrict hmode, hrows, hph2]
  · unfold parseLines
    rw [if_neg (by simpa using hne2)]
    simp only [List.cons_append, hheader, phase1_nonstrict hmode, hph2]
  · refine List.mem_append_left _ ?_
    have harith : pre.length + 2 = 2 + pre.length := by omega
    rw [harith]
    exact phase1Errs_mem hl hs.length pre post 2 hpost

/-- Witness for C8: header `a`, an unterminated-quote line `"x` and one
following line `1`; the data (one row) survives the bad line. -/
theorem splitCsvLine_failure_containment_witness :
    (splitCsvLine "\"x".data = none ↔ endsInOpenQuote ',' false true "\"x".data = true) ∧
    (∃ p1 p2, parseLines .collect ("a:number".data :: [] ++ "\"x".data :: ["1".data]) = .ok p1 ∧
      parseLines .collect ("a:number".data :: [] ++ ["1".data]) = .ok p2 ∧
      p1.data = p2.data ∧
      lineSplitError ((List.length ([] : List Str)) + 2) ∈ p1.errors) :=
  ⟨splitCsvLine_failure_containment.1 "\"x".data ',',
   splitCsvLine_failure_containment.2 .collect "a:number".data "\"x".data [] ["1".data]
     [{ name := "a".data, type := "number".data, isNonNull := false, columnIndex := 1 }]
     (by decide) (by decide) (by decide) (by decide)⟩

/-!
### C2 — the streaming parser is not equivalent to `parseCsvt`

`parseCsvt` splits the input into lines *blindly* (`split('\n')` after
newline normalisation), with no quote awareness, whereas the stream
reconstructor only breaks at newlines outside quotes.  On an input with a
newline inside a quoted field the two produce different rows and errors —
already for the trivial partition into a single chunk.  (They also differ
on error interleaving, on interior blank lines, and on `substituteNull`
rows with type errors in non-null columns.)  What does hold is that the
streaming parser is invariant under the chunking: every partition of the
text produces exactly the emissions (and strict-mode throw) of the
single-chunk run.
-/

/-- C2 counterexample: on `a\n"x\ny"` (a quoted field containing a
newline), delivered as one single chunk, the streaming parser yields the
one row `a = "x\ny"` and no errors, while `parseCsvt` on the same text
yields the row `a = "y\""` and one format error — so the claimed
equivalence fails even for the trivial partition. -/
theorem parseCsvtStream_differs_from_parseCsvt :
    ((parseCsvtStream .collect ["a\n\"x\ny\"".data]).emitted.flatMap ParsedResult.data) =
      [[("a".data, .jstr "x\ny".data)]] ∧
    ((parseCsvtStream .collect ["a\n\"x\ny\"".data]).emitted.flatMap ParsedResult.errors) = [] ∧
    (parseCsvt .collect "a\n\"x\ny\"".data).toOption.map ParsedResult.data =
      some [[("a".data, .jstr "y\"".data)]] ∧
    (parseCsvt .collect "a\n\"x\ny\"".data).toOption.map (fun p => p.errors.length) =
      some 1 := by
  exact ⟨by decide, by decide, by decide, by decide⟩

theorem sfl_map_case {rest : Str} {st' : QState} {c : Char} {l r : Str}
    (ih : ∀ st l r, splitFirstLine rest st = some (l, r) → r.length < rest.length)
    (h : (splitFirstLine rest st').map (fun p => (c :: p.1, p.2)) = some (l, r)) :
    r.length < (c :: rest).length := by
  cases hrec : splitFirstLine rest st' with
  | none => rw [hrec] at h; simp at h
  | some p =>
    rw [hrec] at h
    obtain ⟨l2, r2⟩ := p
    simp at h
    have := ih st' l2 r2 hrec
    rw [← h.2]
    simp only [List.length_cons]
    omega

theorem splitFirstLine_length :
    ∀ (b : Str) (st : QState) (l r : Str), splitFirstLine b st = some (l, r) →
      r.length < b.length := by
  intro b
  induction b with
  | nil =>
    intro st l r h
    rw [show splitFirstLine [] st = none from by cases st <;> rfl] at h
    exact absurd h (by simp)
  | cons c rest ih =>
    intro st l r h
    cases st with
    | outside =>
      simp only [splitFirstLine] at h
      by_cases hq : c = '"'
      · rw [if_pos hq] at h
        exact sfl_map_case ih h
      · rw [if_neg hq] at h
        by_cases hn : c = '\n'
        · rw [if_pos hn] at h
          simp only [Option.some.injEq, Prod.mk.injEq] at h
          rw [← h.2]
          simp
        · rw [if_neg hn] at h
          exact sfl_map_case ih h
    | inside =>
      simp only [splitFirstLine] at h
      by_cases hq : c = '"'
      · rw [if_pos hq] at h
        exact sfl_map_case ih h
      · rw [if_neg hq] at h
        exact sfl_map_case ih h
    | pending =>
      simp only [splitFirstLine] at h
      by_cases hq : c = '"'
      · rw [if_pos hq] at h
        exact sfl_map_case ih h
      · rw [if_neg hq] at h
        by_cases hn : c = '\n'
        · rw [if_pos hn] at h
          simp only [Option.some.injEq, Prod.mk.injEq] at h
          rw [← h.2]
          simp
        · rw [if_neg hn] at h
          exact sfl_map_case ih h

theorem extractLinesGo_congr :
    ∀ (f1 f2 : Nat) (done : Bool) (b : Str), b.length < f1 → b.length < f2 →
      extractLinesGo f1 done b = extractLinesGo f2 done b := by
  intro f1
  induction f1 with
  | zero => intro f2 done b h1; omega
  | succ f1 ih =>
    intro f2 done b h1 h2
    cases f2 with
    | zero => omega
    | succ f2 =>
      cases hsp : splitFirstLine b .outside with
      | none => simp only [extractLinesGo, hsp]
      | some p =>
        obtain ⟨l, r⟩ := p
        have hlen := splitFirstLine_length b .outside l r hsp
        simp only [extractLinesGo, hsp]
        rw [ih f2 done r (by omega) (by omega)]

theorem extractLinesGo_succ_some (fuel : Nat) (done : Bool) (b l r : Str)
    (hsp : splitFirstLine b QState.outside = some (l, r)) :
    extractLinesGo (fuel + 1) done b =
      (stripTrailingCR l :: (extractLinesGo fuel done r).1,
        (extractLinesGo fuel done r).2) := by
  simp only [extractLinesGo, hsp]

/-- Unfolding of `extractLines` when a complete line is available. -/
theorem extractLines_some (done : Bool) (b l r : Str)
    (hsp : splitFirstLine b QState.outside = some (l, r)) :
    extractLines done b =
      (stripTrailingCR l :: (extractLines done r).1, (extractLines done r).2) := by
  have hlen := splitFirstLine_length b .outside l r hsp
  unfold extractLines
  rw [extractLinesGo_succ_some b.length done b l r hsp]
  rw [extractLinesGo_congr b.length (r.length + 1) done r (by omega) (by omega)]

/-- Unfolding of `extractLines` when no complete line is available. -/
theorem extractLines_none (done : Bool) (b : Str)
    (hsp : splitFirstLine b QState.outside = none) :
    extractLines done b = if done && b ≠ [] then ([b], []) else ([], b) := by
  unfold extractLines
  simp only [extractLinesGo, hsp]

theorem splitFirstLine_append :
    ∀ (b : Str) (st : QState) (l r : Str) (c : Str),
      splitFirstLine b st = some (l, r) →
      splitFirstLine (b ++ c) st = some (l, r ++ c) := by
  intro b
  induction b with
  | nil =>
    intro st l r c h
    rw [show splitFirstLine [] st = none from by cases st <;> rfl] at h
    exact absurd h (by simp)
  | cons ch rest ih =>
    intro st l r c h
    have hmap : ∀ (st' : QState),
        (splitFirstLine rest st').map (fun p => (ch :: p.1, p.2)) = some (l, r) →
        (splitFirstLine (rest ++ c) st').map (fun p => (ch :: p.1, p.2)) = some (l, r ++ c) := by
      intro st' hm
      cases hrec : splitFirstLine rest st' with
      | none => rw [hrec] at hm; simp at hm
      | some p =>
        rw [hrec] at hm
        obtain ⟨l2, r2⟩ := p
        simp at hm
        rw [ih st' l2 r2 c hrec]
        simp [hm.1, hm.2]
    cases st with
    | outside =>
      simp only [splitFirstLine, List.cons_append] at h ⊢
      by_cases hq : ch = '"'
      · rw [if_pos hq] at h ⊢
        exact hmap _ h
      · rw [if_neg hq] at h ⊢
        by_cases hn : ch = '\n'
        · rw [if_pos hn] at h ⊢
          simp only [Option.some.injEq, Prod.mk.injEq] at h ⊢
          exact ⟨h.1, by rw [← h.2]; rfl⟩
        · rw [if_neg hn] at h ⊢
          exact hmap _ h
    | inside =>
      simp only [splitFirstLine, List.cons_append] at h ⊢
      by_cases hq : ch = '"'
      · rw [if_pos hq] at h ⊢
        exact hmap _ h
      · rw [if_neg hq] at h ⊢
        exact hmap _ h
    | pending =>
      simp only [splitFirstLine, List.cons_append] at h ⊢
      by_cases hq : ch = '"'
      · rw [if_pos hq] at h ⊢
        exact hmap _ h
      · rw [if_neg hq] at h ⊢
        by_cases hn : ch = '\n'
        · rw [if_pos hn] at h ⊢
          simp only [Option.some.injEq, Prod.mk.injEq] at h ⊢
          exact ⟨h.1, by rw [← h.2]; rfl⟩
        · rw [if_neg hn] at h ⊢
          exact hmap _ h

/-- Extraction is compositional under buffer growth: extracting from
`b ++ c` is extracting from `b`, then extracting from the residue with `c`
appended. -/
theorem extractLines_append (b c : Str) :
    extractLines false (b ++ c) =
      ((extractLines false b).1 ++ (extractLines false ((extractLines false b).2 ++ c)).1,
       (extractLines false ((extractLines false b).2 ++ c)).2) := by
  suffices H : ∀ (n : Nat) (b c : Str), b.length = n →
      extractLines false (b ++ c) =
        ((extractLines false b).1 ++ (extractLines false ((extractLines false b).2 ++ c)).1,
         (extractLines false ((extractLines false b).2 ++ c)).2) from H b.length b c rfl
  intro n
  induction n using Nat.strong_induction_on with
  | _ n ih =>
    intro b c hn
    cases hsp : splitFirstLine b .outside with
    | none =>
      rw [extractLines_none false b hsp]
      simp
    | some p =>
      obtain ⟨l, r⟩ := p
      have hlen := splitFirstLine_length b .outside l r hsp
      rw [extractLines_some false (b ++ c) l (r ++ c)
        (splitFirstLine_append b .outside l r c hsp)]
      rw [extractLines_some false b l r hsp]
      simp only []
      rw [ih r.length (by omega) r c rfl]
      simp

/-- End-of-source extraction is extraction plus a flush of the non-empty
residue. -/
theorem extractLines_done (b : Str) :
    extractLines true b =
      ((extractLines false b).1 ++
        (if (extractLines false b).2 = [] then [] else [(extractLines false b).2]), []) := by
  suffices H : ∀ (n : Nat) (b : Str), b.length = n →
      extractLines true b =
        ((extractLines false b).1 ++
          (if (extractLines false b).2 = [] then [] else [(extractLines false b).2]), []) from
    H b.length b rfl
  intro n
  induction n using Nat.strong_induction_on with
  | _ n ih =>
    intro b hn
    cases hsp : splitFirstLine b .outside with
    | none =>
      rw [extractLines_none true b hsp, extractLines_none false b hsp]
      by_cases hb : b = []
      · simp [hb]
      · simp [hb]
    | some p =>
      obtain ⟨l, r⟩ := p
      have hlen := splitFirstLine_length b .outside l r hsp
      rw [extractLines_some true b l r hsp, extractLines_some false b l r hsp]
      simp only []
      rw [ih r.length (by omega) r rfl]
      simp

/-- The residue of a non-final extraction holds no complete line. -/
theorem extractLines_residue (b : Str) :
    splitFirstLine (extractLines false b).2 QState.outside = none := by
  suffices H : ∀ (n : Nat) (b : Str), b.length = n →
      splitFirstLine (extractLines false b).2 QState.outside = none from H b.length b rfl
  intro n
  induction n using Nat.strong_induction_on with
  | _ n ih =>
    intro b hn
    cases hsp : splitFirstLine b .outside with
    | none =>
      rw [extractLines_none false b hsp]
      simpa using hsp
    | some p =>
      obtain ⟨l, r⟩ := p
      have hlen := splitFirstLine_length b .outside l r hsp
      rw [extractLines_some false b l r hsp]
      exact ih r.length (by omega) r rfl

theorem streamProcessLines_append (mode : ErrorMode) (st : PState) (ls1 ls2 : List Str) :
    streamProcessLines mode st (ls1 ++ ls2) =
      match streamProcessLines mode st ls1 with
      | (ems, .cont st') =>
        let p := streamProcessLines mode st' ls2
        (ems ++ p.1, p.2)
      | (ems, .halt) => (ems, .halt)
      | (ems, .thrown e) => (ems, .thrown e) := by
  induction ls1 generalizing st with
  | nil => simp [streamProcessLines]
  | cons l ls ih =>
    simp only [List.cons_append, streamProcessLines]
    cases hpl : streamProcessLine mode st l with
    | mk ems res =>
      cases res with
      | cont st' =>
        rcases hrec : streamProcessLines mode st' ls with ⟨ems2, res2⟩
        cases res2 <;> simp [ih st', hrec]
      | halt => simp
      | thrown e => simp

/-- The chunk loop, related to its single-chunk form from an arbitrary
state. -/
theorem runChunks_join (mode : ErrorMode) :
    ∀ (chunks : List Str) (buffer : Str) (st : PState),
      runChunks mode buffer st chunks = runChunks mode buffer st [chunks.flatten] := by
  intro chunks
  induction chunks with
  | nil =>
    intro buffer st
    simp only [List.flatten_nil, runChunks]
    rw [extractLines_done buffer]
    simp only [List.append_nil]
    rcases hE : extractLines false buffer with ⟨ls1, r1⟩
    simp only []
    rw [streamProcessLines_append]
    cases hP : streamProcessLines mode st ls1 with
    | mk ems res =>
      cases res with
      | cont st' =>
        have hres := extractLines_residue buffer
        rw [hE] at hres
        simp only []
        rw [extractLines_done r1, extractLines_none false r1 hres]
        rcases hP2 : streamProcessLines mode st' (if r1 = [] then [] else [r1]) with ⟨ems2, res2⟩
        cases res2 <;> simp [hP2]
      | halt => simp
      | thrown e => simp
  | cons c rest ih =>
    intro buffer st
    simp only [List.flatten_cons, runChunks]
    rw [show buffer ++ (c ++ rest.flatten) = (buffer ++ c) ++ rest.flatten from by simp]
    rw [extractLines_append (buffer ++ c) rest.flatten]
    rcases hE : extractLines false (buffer ++ c) with ⟨ls1, r1⟩
    simp only []
    rw [streamProcessLines_append]
    cases hP : streamProcessLines mode st ls1 with
    | mk ems res =>
      cases res with
      | cont st' =>
        simp only []
        rw [ih r1 st']
        simp only [runChunks]
        rcases hE2 : extractLines false (r1 ++ rest.flatten) with ⟨ls2, r2⟩
        simp only []
        cases hP2 : streamProcessLines mode st' ls2 with
        | mk ems2 res2 => cases res2 <;> simp
      | halt => simp
      | thrown e => simp

/-- C2 amended: the streaming parser is chunking-invariant — for every
errorMode and every partition of a text into chunks, the emissions and any
strict-mode thrown error equal those of the single-chunk session on the
whole text.  (Equality with `parseCsvt` itself does not hold in general;
see the counterexample.) -/
theorem parseCsvtStream_chunking_invariant (mode : ErrorMode) (chunks : List Str) :
    parseCsvtStream mode chunks = parseCsvtStream mode [chunks.flatten] :=
  runChunks_join mode chunks [] { headers := none, rowNumber := 1, headerYielded := false }

/-!
### C6 — the write/parse round trip

`doubleQuotes` names the quote-doubling common to `escapeCsvField` and
`escapeHeaderName`; the other definitions describe the round-trip domain
(keys that survive the header round trip, values compatible with the
column types inferred from the first row) and the expected read-back.
-/

/-- The quote-doubling step shared by `escapeCsvField` and
`escapeHeaderName`. -/
def doubleQuotes (s : Str) : Str :=
  s.flatMap fun c => if c = '"' then ['"', '"'] else [c]

/-- A data key that survives the header round trip: nonempty, trimmed, and
free of line breaks. -/
def goodKey (k : Str) : Prop :=
  k ≠ [] ∧ jsTrim k = k ∧ '\n' ∉ k ∧ '\r' ∉ k

instance (k : Str) : Decidable (goodKey k) := by unfold goodKey; infer_instance

/-- The serialisation `JSON.stringify` gives a value in element position of
an array: `undefined` becomes the text `null`. -/
def serJ (v : JValue) : Str := (jsonStringifyV v).getD "null".data

/-- Does the finite rational `q` terminate as a decimal (within the bounded
search of `decExponent`)?  These are exactly the finite numbers the writer
serialises losslessly. -/
def numTermB (q : ℚ) : Bool := decide (q.den = 1) || (decExponent q.den).isSome

mutual

/-- Do all pieces of a JSON value survive `JSON.stringify` followed by
`JSON.parse`?  Excluded: `Date` objects (they serialise to their ISO
string), non-finite and non-terminating numbers (they serialise to `null`
or to an approximation), and `undefined` object members (dropped by
`JSON.stringify`). -/
def jsonOkV : JValue → Bool
  | .jnull => true
  | .jundefined => true
  | .jbool _ => true
  | .jnum (.finite q) => numTermB q
  | .jnum _ => false
  | .jstr _ => true
  | .jdate _ => false
  | .jarr l => jsonOkL l
  | .jobj p => jsonOkP p

/-- `jsonOkV` on every element of a JSON array. -/
def jsonOkL : JList → Bool
  | .nil => true
  | .cons v tl => jsonOkV v && jsonOkL tl

/-- `jsonOkV` on every member value of a JSON object, all defined. -/
def jsonOkP : JPairs → Bool
  | .nil => true
  | .cons _ v tl => !(v == JValue.jundefined) && jsonOkV v && jsonOkP tl

end

mutual

/-- What a JSON value reads back as after `JSON.stringify` and
`JSON.parse`: `undefined` becomes `null`, recursively inside arrays and
objects. -/
def rtJsonV : JValue → JValue
  | .jundefined => .jnull
  | .jarr l => .jarr (rtJsonL l)
  | .jobj p => .jobj (rtJsonP p)
  | v => v

/-- `rtJsonV` on every element of a JSON array. -/
def rtJsonL : JList → JList
  | .nil => .nil
  | .cons v tl => .cons (rtJsonV v) (rtJsonL tl)

/-- `rtJsonV` on every member value of a JSON object. -/
def rtJsonP : JPairs → JPairs
  | .nil => .nil
  | .cons k v tl => .cons k (rtJsonV v) (rtJsonP tl)

end

/-- The written column specification, one `(name, type token)` pair per
column: the explicit headers when given, otherwise the first row’s keys
with inferred types. -/
def colSpec (eh : Option (List ExplicitColumnHeader)) (r0 : Row) : List (Str × Str) :=
  match eh with
  | some hs => hs.map fun h => (h.name, h.type)
  | none => r0.map fun p => (p.1, inferType p.2)

/-- Is `v` compatible with the written column type `ty`, in the sense that
the written field reads back as `roundTripVal v`?  `null` and `undefined`
fit any column; a line-break-free string fits a `string` column; a boolean
fits a `bool` column; an infinity or a finite decimal-terminating number
fits a `number` column; an array or object all of whose pieces survive
`JSON.stringify`/`JSON.parse` fits an `array`/`object` column. -/
def vCompatB (ty : Str) : JValue → Bool
  | .jnull => true
  | .jundefined => true
  | .jstr s => decide (ty = "string".data) &&
      s.all fun c => decide (c ≠ '\n') && decide (c ≠ '\r')
  | .jbool _ => decide (ty = "bool".data)
  | .jnum (.finite q) => decide (ty = "number".data) && numTermB q
  | .jnum _ => decide (ty = "number".data)
  | .jarr l => decide (ty = "array".data) && jsonOkL l
  | .jobj p => decide (ty = "object".data) && jsonOkP p
  | .jdate _ => false

/-- Is every value of row `r` compatible with the type of the
corresponding written column (and is the row as long as the column
list)? -/
def valuesCompat : List (Str × Str) → Row → Bool
  | [], [] => true
  | [], _ :: _ => false
  | _ :: _, [] => false
  | s :: cs, p :: r => vCompatB s.2 p.2 && valuesCompat cs r

/-- The value the parser reads back for a written value of the round-trip
domain: strings come back as themselves except the empty string, which
serialises to an empty field and reads back as `null` (as do `null` and
`undefined`); numbers and booleans come back exactly; arrays and objects
come back with `undefined` elements as `null`. -/
def roundTripVal : JValue → JValue
  | .jstr s => if s = [] then .jnull else .jstr s
  | .jbool b => .jbool b
  | .jnum n => .jnum n
  | .jarr l => .jarr (rtJsonL l)
  | .jobj p => .jobj (rtJsonP p)
  | _ => .jnull

/-- A row after the round trip. -/
def rtRow (r : Row) : Row := r.map fun p => (p.1, roundTripVal p.2)

/-- The headers the parser reconstructs from the written header line:
the written names and type tokens, nullable, 1-based column indices. -/
def expectedHeaders : Nat → List (Str × Str) → List CsvtHeader
  | _, [] => []
  | i, s :: cs =>
    { name := s.1, type := s.2, isNonNull := false, columnIndex := i + 1 } ::
      expectedHeaders (i + 1) cs

/-- C6 counterexample: the empty string is representable in the type system,
yet the row `{a: ""}` does not survive the round trip at all — it is
written as an empty final line, which the parser silently skips, so the
parsed data array is empty rather than deep-equal to the input. -/
theorem writeCsvt_roundtrip_drops_empty_row :
    writeCsvt [[("a".data, JValue.jstr [])]] {} = "a:string\n".data ∧
    parseCsvt .strict (writeCsvt [[("a".data, JValue.jstr [])]] {}) =
      .ok { data := []
            headers := [{ name := "a".data, type := "string".data,
                          isNonNull := false, columnIndex := 1 }]
            errors := [] } := by decide

/-! Basic facts about quoting, unquoting, trimming and splitting used by
the round-trip proof. -/

theorem strContains_single (s : Str) (c : Char) :
    strContains s [c] = true ↔ c ∈ s := by
  induction s with
  | nil => simp [strContains]
  | cons a rest ih => simp_all [strContains, List.isPrefixOf]

theorem unescapeQuotes_qq (l : Str) :
    unescapeQuotes ('"' :: '"' :: l) = '"' :: unescapeQuotes l := rfl

theorem unescapeQuotes_one (c : Char) (l : Str) (hc : c ≠ '"') :
    unescapeQuotes (c :: l) = c :: unescapeQuotes l := by
  rw [unescapeQuotes.eq_def]
  split <;> simp_all

theorem doubleQuotes_nil : doubleQuotes [] = [] := rfl

theorem doubleQuotes_cons (c : Char) (s : Str) :
    doubleQuotes (c :: s) = (if c = '"' then ['"', '"'] else [c]) ++ doubleQuotes s := by
  simp [doubleQuotes]

theorem unescapeQuotes_doubleQuotes (s : Str) :
    unescapeQuotes (doubleQuotes s) = s := by
  induction s with
  | nil => rfl
  | cons c s ih =>
    rw [doubleQuotes_cons]
    by_cases hc : c = '"'
    · subst hc
      simp [unescapeQuotes_qq, ih]
    · rw [if_neg hc]
      simp only [List.cons_append, List.nil_append, unescapeQuotes_one c _ hc, ih]

theorem cleanCsvField_quoted (s : Str) :
    cleanCsvField ('"' :: doubleQuotes s ++ ['"']) = s := by
  unfold cleanCsvField
  rw [if_pos]
  · rw [show ('"' :: doubleQuotes s ++ ['"']).drop 1 = doubleQuotes s ++ ['"'] from rfl]
    rw [List.dropLast_concat, unescapeQuotes_doubleQuotes]
  · have h2 : ('"' :: doubleQuotes s ++ ['"']).getLast? = some '"' := by
      rw [show '"' :: doubleQuotes s ++ ['"'] = ('"' :: doubleQuotes s) ++ ['"'] from rfl]
      exact List.getLast?_concat _
    have h3 : ('"' :: doubleQuotes s ++ ['"']).length ≥ 2 := by
      simp
    simp [h3]
    exact h2

theorem escapeCsvField_eq (value delim : Str) :
    escapeCsvField value delim =
      if strContains value delim || strContains value ['"'] ||
         strContains value ['\n'] || strContains value ['\r'] then
        '"' :: doubleQuotes value ++ ['"']
      else value := rfl

theorem escapeHeaderName_eq (name delim : Str) :
    escapeHeaderName name delim =
      if strContains name delim || strContains name [':'] ||
         strContains name [' '] || strContains name ['"'] ||
         strContains name ['\n'] || strContains name ['\r'] then
        '"' :: doubleQuotes name ++ ['"']
      else name := rfl

theorem cleanCsvField_of_no_quote (s : Str) (h : '"' ∉ s) :
    cleanCsvField s = s := by
  unfold cleanCsvField
  rw [if_neg]
  cases s with
  | nil => simp
  | cons a t =>
    have : a ≠ '"' := fun hh => h (hh ▸ List.mem_cons_self a t)
    simp [this]

theorem cleanCsvField_escapeCsvField (value delim : Str) :
    cleanCsvField (escapeCsvField value delim) = value := by
  rw [escapeCsvField_eq]
  split
  · exact cleanCsvField_quoted value
  · rename_i h
    simp only [Bool.or_eq_true, not_or] at h
    exact cleanCsvField_of_no_quote value
      (fun hm => h.1.1.2 ((strContains_single value '"').2 hm))

theorem cleanCsvField_escapeHeaderName (name delim : Str) :
    cleanCsvField (escapeHeaderName name delim) = name := by
  rw [escapeHeaderName_eq]
  split
  · exact cleanCsvField_quoted name
  · rename_i h
    simp only [Bool.or_eq_true, not_or] at h
    exact cleanCsvField_of_no_quote name
      (fun hm => h.1.1.2 ((strContains_single name '"').2 hm))

theorem length_dropWhile_le' (p : Char → Bool) (l : Str) :
    (l.dropWhile p).length ≤ l.length :=
  (List.dropWhile_suffix p).length_le

theorem dropWhile_eq_self_of_head (p : Char → Bool) (s : Str)
    (h : ∀ c, s.head? = some c → p c = false) : s.dropWhile p = s := by
  cases s with
  | nil => rfl
  | cons a t => rw [List.dropWhile_cons, h a rfl]; simp

theorem jsTrim_eq_self (s : Str)
    (h1 : ∀ c, s.head? = some c → isJsWs c = false)
    (h2 : ∀ c, s.getLast? = some c → isJsWs c = false) : jsTrim s = s := by
  unfold jsTrim
  rw [dropWhile_eq_self_of_head _ _ h1]
  rw [dropWhile_eq_self_of_head _ _
    (fun c hc => h2 c (by rwa [List.head?_reverse] at hc))]
  exact List.reverse_reverse s

theorem jsTrim_length_le (s : Str) : (jsTrim s).length ≤ (s.dropWhile isJsWs).length := by
  unfold jsTrim
  rw [List.length_reverse]
  calc ((s.dropWhile isJsWs).reverse.dropWhile isJsWs).length
      ≤ (s.dropWhile isJsWs).reverse.length := length_dropWhile_le' _ _
    _ = (s.dropWhile isJsWs).length := List.length_reverse _

theorem jsTrim_head_not_ws (k : Str) (c : Char) (hk : jsTrim k = k)
    (hc : k.head? = some c) : isJsWs c = false := by
  by_contra hw
  have hw' : isJsWs c = true := by
    cases h : isJsWs c
    · exact absurd h hw
    · rfl
  cases k with
  | nil => exact Option.noConfusion hc
  | cons a t =>
    have ha : a = c := by simpa using hc
    subst ha
    have h1 : ((a :: t).dropWhile isJsWs).length ≤ t.length := by
      rw [List.dropWhile_cons, hw']
      simpa using length_dropWhile_le' isJsWs t
    have h2 := jsTrim_length_le (a :: t)
    have h3 := congrArg List.length hk
    simp only [List.length_cons] at h3
    omega

theorem jsTrim_last_not_ws (k : Str) (c : Char) (hk : jsTrim k = k)
    (hc : k.getLast? = some c) : isJsWs c = false := by
  by_contra hw
  have hw' : isJsWs c = true := by
    cases h : isJsWs c
    · exact absurd h hw
    · rfl
  have hne : k ≠ [] := by
    intro he; rw [he] at hc; exact Option.noConfusion hc
  -- the leading trim is the identity, by the head fact
  have hhead : k.dropWhile isJsWs = k := by
    apply dropWhile_eq_self_of_head
    intro c0 hc0
    exact jsTrim_head_not_ws k c0 hk hc0
  have hrevhead : k.reverse.head? = some c := by rwa [List.head?_reverse]
  obtain ⟨a, t, hat⟩ : ∃ a t, k.reverse = a :: t := by
    cases hr : k.reverse with
    | nil => rw [hr] at hrevhead; exact absurd hrevhead (by simp)
    | cons a t => exact ⟨a, t, rfl⟩
  have ha : a = c := by rw [hat] at hrevhead; simpa using hrevhead
  subst ha
  have h1 : (k.reverse.dropWhile isJsWs).length ≤ t.length := by
    rw [hat, List.dropWhile_cons, hw']
    simpa using length_dropWhile_le' isJsWs t
  have h2 : (jsTrim k).length = (k.reverse.dropWhile isJsWs).length := by
    unfold jsTrim
    rw [hhead, List.length_reverse]
  have h3 := congrArg List.length hk
  have h4 : k.length = t.length + 1 := by
    have := congrArg List.length hat
    simpa [List.length_reverse] using this
  omega


/-! Consumption of one well-formed field by the field-splitter state
machine: a field written by the writer is either plain (no delimiter, no
quote) or a fully quoted atom `"..."` with doubled inner quotes, possibly
followed by plain text (the `:type` suffix of a header field). -/

theorem splitGo_false_cons (d c : Char) (l cur : Str) (acc : List Str) :
    splitCsvLineGo d false (c :: l) cur acc =
      if c = d then splitCsvLineGo d false l [] (cur.reverse :: acc)
      else if c = '"' && cur.isEmpty then splitCsvLineGo d true l ['"'] acc
      else splitCsvLineGo d false l (c :: cur) acc := rfl

theorem splitGo_true_qq (d : Char) (l cur : Str) (acc : List Str) :
    splitCsvLineGo d true ('"' :: '"' :: l) cur acc =
      splitCsvLineGo d true l ('"' :: '"' :: cur) acc := rfl

theorem splitGo_true_q (d : Char) (l cur : Str) (acc : List Str)
    (hl : l.head? ≠ some '"') :
    splitCsvLineGo d true ('"' :: l) cur acc =
      splitCsvLineGo d false l ('"' :: cur) acc := by
  cases l with
  | nil => rfl
  | cons a t =>
    rw [splitCsvLineGo.eq_def]
    split <;> try simp_all
    rename_i hne heq
    exact absurd heq.1.symm hne

theorem splitGo_true_other (d c : Char) (hc : c ≠ '"') (l cur : Str) (acc : List Str) :
    splitCsvLineGo d true (c :: l) cur acc =
      splitCsvLineGo d true l (c :: cur) acc := by
  rw [splitCsvLineGo.eq_def]
  split <;> simp_all

/-- A plain field: free of the delimiter and of quotes. -/
def plainAtom (d : Char) (f : Str) : Prop := ∀ c ∈ f, c ≠ d ∧ c ≠ '"'

/-- A quoted field with doubled inner quotes and a plain tail. -/
def quotedAtom (d : Char) (f : Str) : Prop :=
  ∃ u t, f = '"' :: doubleQuotes u ++ '"' :: t ∧ ∀ c ∈ t, c ≠ d ∧ c ≠ '"'

/-- A field the splitter consumes atomically. -/
def atomOk (d : Char) (f : Str) : Prop := plainAtom d f ∨ quotedAtom d f

theorem splitGo_plain (d : Char) :
    ∀ (f : Str), plainAtom d f →
    ∀ (rest cur : Str) (acc : List Str),
      splitCsvLineGo d false (f ++ rest) cur acc =
        splitCsvLineGo d false rest (f.reverse ++ cur) acc := by
  intro f
  induction f with
  | nil => intro _ rest cur acc; simp
  | cons c f ih =>
    intro hf rest cur acc
    obtain ⟨hcd, hcq⟩ := hf c (List.mem_cons_self c f)
    rw [List.cons_append, splitGo_false_cons, if_neg hcd, if_neg (by simp [hcq])]
    rw [ih (fun x hx => hf x (List.mem_cons_of_mem _ hx)) rest (c :: cur) acc]
    simp

theorem splitGo_inside_body (d : Char) :
    ∀ (u : Str) (rest cur : Str) (acc : List Str),
      splitCsvLineGo d true (doubleQuotes u ++ rest) cur acc =
        splitCsvLineGo d true rest ((doubleQuotes u).reverse ++ cur) acc := by
  intro u
  induction u with
  | nil => intro rest cur acc; simp [doubleQuotes_nil]
  | cons c u ih =>
    intro rest cur acc
    rw [doubleQuotes_cons]
    by_cases hc : c = '"'
    · subst hc
      rw [if_pos rfl]
      simp only [List.cons_append, List.nil_append, List.append_assoc]
      rw [splitGo_true_qq, ih]
      simp [doubleQuotes_cons]
    · rw [if_neg hc]
      simp only [List.cons_append, List.nil_append, List.append_assoc]
      rw [splitGo_true_other d c hc, ih]
      simp [doubleQuotes_cons, hc]

theorem splitGo_quoted (d : Char) (hd : d ≠ '"') (u t : Str)
    (ht : ∀ c ∈ t, c ≠ d ∧ c ≠ '"') (rest : Str) (acc : List Str)
    (hrest : rest.head? ≠ some '"') :
    splitCsvLineGo d false (('"' :: doubleQuotes u ++ '"' :: t) ++ rest) [] acc =
      splitCsvLineGo d false rest ('"' :: doubleQuotes u ++ '"' :: t).reverse acc := by
  simp only [List.cons_append, List.append_assoc]
  rw [splitGo_false_cons, if_neg (fun h => hd h.symm), if_pos (by simp)]
  rw [splitGo_inside_body]
  rw [splitGo_true_q d (t ++ rest) _ acc (by
    cases t with
    | nil => simpa using hrest
    | cons a t' =>
      simp only [List.cons_append, List.head?_cons]
      intro h
      exact (ht a (by simp)).2 (by simpa using h))]
  rw [splitGo_plain d t ht rest _ acc]
  congr 1
  simp

theorem splitGo_atom_sep (d : Char) (hd : d ≠ '"') (f : Str) (hf : atomOk d f)
    (rest : Str) (acc : List Str) :
    splitCsvLineGo d false (f ++ d :: rest) [] acc =
      splitCsvLineGo d false rest [] (f :: acc) := by
  cases hf with
  | inl hp =>
    rw [splitGo_plain d f hp]
    rw [splitGo_false_cons, if_pos rfl]
    simp
  | inr hq =>
    obtain ⟨u, t, hfe, ht⟩ := hq
    subst hfe
    rw [splitGo_quoted d hd u t ht (d :: rest) acc (by simpa using hd)]
    rw [splitGo_false_cons, if_pos rfl]
    simp

theorem splitGo_atom_end (d : Char) (hd : d ≠ '"') (f : Str) (hf : atomOk d f)
    (acc : List Str) :
    splitCsvLineGo d false f [] acc = some ((f :: acc).reverse) := by
  cases hf with
  | inl hp =>
    have h := splitGo_plain d f hp [] [] acc
    simp only [List.append_nil] at h
    rw [h]
    simp [splitCsvLineGo]
  | inr hq =>
    obtain ⟨u, t, hfe, ht⟩ := hq
    subst hfe
    have h := splitGo_quoted d hd u t ht [] acc (by simp)
    simp only [List.append_nil] at h
    rw [h]
    simp [splitCsvLineGo]

theorem splitCsvLineGo_joinWith (d : Char) (hd : d ≠ '"') :
    ∀ (fs : List Str), fs ≠ [] → (∀ f ∈ fs, atomOk d f) →
    ∀ (acc : List Str),
      splitCsvLineGo d false (joinWith [d] fs) [] acc = some ((fs.reverse ++ acc).reverse) := by
  intro fs
  induction fs with
  | nil => intro h; exact absurd rfl h
  | cons f fs ih =>
    intro _ hall acc
    cases fs with
    | nil =>
      rw [show joinWith [d] [f] = f from rfl]
      rw [splitGo_atom_end d hd f (hall f (by simp)) acc]
      simp
    | cons g gs =>
      rw [show joinWith [d] (f :: g :: gs) = f ++ d :: joinWith [d] (g :: gs) from by
        simp [joinWith]]
      rw [splitGo_atom_sep d hd f (hall f (by simp)) _ acc]
      rw [ih (by simp) (fun x hx => hall x (List.mem_cons_of_mem _ hx)) (f :: acc)]
      simp

/-- Splitting the delimiter-join of well-formed fields recovers exactly the
fields. -/
theorem splitCsvLine_joinWith (d : Char) (hd : d ≠ '"') (fs : List Str) (hne : fs ≠ [])
    (hall : ∀ f ∈ fs, atomOk d f) :
    splitCsvLine (joinWith [d] fs) d = some fs := by
  unfold splitCsvLine
  rw [splitCsvLineGo_joinWith d hd fs hne hall []]
  simp

theorem atomOk_escapeCsvField (value : Str) (d : Char) (hd : d ≠ '"') :
    atomOk d (escapeCsvField value [d]) := by
  rw [escapeCsvField_eq]
  split
  · right
    exact ⟨value, [], by simp, by simp⟩
  · left
    rename_i h
    simp only [Bool.or_eq_true, not_or] at h
    intro c hc
    constructor
    · intro he; exact h.1.1.1 ((strContains_single value d).2 (he ▸ hc))
    · intro he; exact h.1.1.2 ((strContains_single value '"').2 (he ▸ hc))

theorem atomOk_headerField (k ty : Str) (d : Char) (hd : d ≠ '"')
    (hty : ∀ c ∈ ty, c ≠ d ∧ c ≠ '"') (hcol : (':' : Char) ≠ d) :
    atomOk d (escapeHeaderName k [d] ++ ':' :: ty) := by
  rw [escapeHeaderName_eq]
  split
  · right
    refine ⟨k, ':' :: ty, by simp, ?_⟩
    intro c hc
    rcases List.mem_cons.1 hc with h | h
    · subst h; exact ⟨hcol, by decide⟩
    · exact hty c h
  · left
    rename_i h
    simp only [Bool.or_eq_true, not_or] at h
    intro c hc
    rcases List.mem_append.1 hc with h1 | h1
    · exact ⟨fun he => h.1.1.1.1.1 ((strContains_single k d).2 (he ▸ h1)),
             fun he => h.1.1.2 ((strContains_single k '"').2 (he ▸ h1))⟩
    · rcases List.mem_cons.1 h1 with h2 | h2
      · subst h2; exact ⟨hcol, by decide⟩
      · exact hty c h2

/-! Line splitting and joining, and carriage-return-free normalisation. -/

theorem joinWith_two (sep s t : Str) (rest : List Str) :
    joinWith sep (s :: t :: rest) = s ++ sep ++ joinWith sep (t :: rest) := rfl

theorem splitOnChar_ne_nil (sep : Char) (s : Str) : splitOnChar sep s ≠ [] := by
  cases s with
  | nil => simp [splitOnChar]
  | cons c rest =>
    rcases h : splitOnChar sep rest with _ | ⟨f, ps⟩
    · simp [splitOnChar, h]
    · simp only [splitOnChar, h]
      split <;> simp

theorem splitOnChar_no_sep (sep : Char) : ∀ s : Str, sep ∉ s → splitOnChar sep s = [s] := by
  intro s
  induction s with
  | nil => intro _; rfl
  | cons c rest ih =>
    intro h
    have hc : c ≠ sep := fun he => h (he ▸ List.mem_cons_self c rest)
    have hr := ih (fun hm => h (List.mem_cons_of_mem _ hm))
    simp only [splitOnChar, hr]
    simp [hc]

theorem splitOnChar_append_sep (sep : Char) : ∀ (p r : Str), sep ∉ p →
    splitOnChar sep (p ++ sep :: r) = p :: splitOnChar sep r := by
  intro p
  induction p with
  | nil =>
    intro r _
    rcases h : splitOnChar sep r with _ | ⟨f, ps⟩
    · exact absurd h (splitOnChar_ne_nil sep r)
    · simp [splitOnChar, h]
  | cons c p ih =>
    intro r h
    have hc : c ≠ sep := fun he => h (he ▸ List.mem_cons_self c p)
    have hr := ih r (fun hm => h (List.mem_cons_of_mem _ hm))
    simp only [List.cons_append, splitOnChar, List.append_eq]
    rw [hr]
    simp [hc]

theorem splitOnChar_joinWith (sep : Char) : ∀ (ps : List Str), ps ≠ [] →
    (∀ p ∈ ps, sep ∉ p) → splitOnChar sep (joinWith [sep] ps) = ps := by
  intro ps
  induction ps with
  | nil => intro h; exact absurd rfl h
  | cons p ps ih =>
    intro _ hall
    cases ps with
    | nil =>
      rw [show joinWith [sep] [p] = p from rfl]
      exact splitOnChar_no_sep sep p (hall p (by simp))
    | cons q qs =>
      rw [joinWith_two]
      rw [show p ++ [sep] ++ joinWith [sep] (q :: qs) =
        p ++ sep :: joinWith [sep] (q :: qs) from by simp]
      rw [splitOnChar_append_sep sep p _ (hall p (by simp))]
      rw [ih (by simp) (fun x hx => hall x (List.mem_cons_of_mem _ hx))]

theorem normalizeNewlines_cons_ne (c : Char) (rest : Str) (hc : c ≠ '\r') :
    normalizeNewlines (c :: rest) = c :: normalizeNewlines rest := by
  rw [normalizeNewlines.eq_def]
  split <;> simp_all

theorem normalizeNewlines_of_no_cr : ∀ s : Str, '\r' ∉ s → normalizeNewlines s = s := by
  intro s
  induction s with
  | nil => intro _; rfl
  | cons c rest ih =>
    intro h
    have hc : c ≠ '\r' := fun he => h (he ▸ List.mem_cons_self c rest)
    rw [normalizeNewlines_cons_ne c rest hc, ih (fun hm => h (List.mem_cons_of_mem _ hm))]

theorem mem_joinWith (sep : Str) : ∀ (ps : List Str) (c : Char), c ∈ joinWith sep ps →
    c ∈ sep ∨ ∃ p ∈ ps, c ∈ p := by
  intro ps
  induction ps with
  | nil => intro c h; exact absurd h (List.not_mem_nil c)
  | cons p ps ih =>
    intro c h
    cases ps with
    | nil =>
      right
      exact ⟨p, by simp, by simpa using h⟩
    | cons q qs =>
      rw [joinWith_two] at h
      rcases List.mem_append.1 h with h1 | h1
      · rcases List.mem_append.1 h1 with h2 | h2
        · right; exact ⟨p, by simp, h2⟩
        · left; exact h2
      · rcases ih c h1 with h2 | ⟨r, hr, hcr⟩
        · left; exact h2
        · right; exact ⟨r, List.mem_cons_of_mem _ hr, hcr⟩

theorem mem_doubleQuotes (s : Str) (c : Char) (h : c ∈ doubleQuotes s) :
    c ∈ s ∨ c = '"' := by
  unfold doubleQuotes at h
  rcases List.mem_flatMap.1 h with ⟨a, ha, hc⟩
  by_cases hq : a = '"'
  · subst hq
    simp at hc
    right; exact hc
  · simp [hq] at hc
    left; exact hc ▸ ha

theorem mem_escapeCsvField (v d : Str) (c : Char) (h : c ∈ escapeCsvField v d) :
    c ∈ v ∨ c = '"' := by
  rw [escapeCsvField_eq] at h
  split at h
  · simp at h
    rcases h with h | h | h
    · right; exact h
    · exact mem_doubleQuotes v c h
    · right; exact h
  · left; exact h

theorem mem_escapeHeaderName (v d : Str) (c : Char) (h : c ∈ escapeHeaderName v d) :
    c ∈ v ∨ c = '"' := by
  rw [escapeHeaderName_eq] at h
  split at h
  · simp at h
    rcases h with h | h | h
    · right; exact h
    · exact mem_doubleQuotes v c h
    · right; exact h
  · left; exact h

/-! The header line round trip. -/

theorem findIdx?_colon_append : ∀ (t : Str), ':' ∉ t → ∀ (a : Str) (i : Nat),
    List.findIdx? (· = ':') (t ++ ':' :: a) i = some (i + t.length) := by
  intro t
  induction t with
  | nil =>
    intro _ a i
    simp [List.findIdx?]
  | cons c t ih =>
    intro h a i
    have hc : c ≠ ':' := fun he => h (he ▸ List.mem_cons_self c t)
    rw [List.cons_append]
    rw [show List.findIdx? (· = ':') (c :: (t ++ ':' :: a)) i =
      if c = ':' then some i else List.findIdx? (· = ':') (t ++ ':' :: a) (i + 1) from by
        simp [List.findIdx?]]
    rw [if_neg hc, ih (fun hm => h (List.mem_cons_of_mem _ hm)) a (i + 1)]
    simp only [List.length_cons, Option.some.injEq]
    omega

theorem splitAtLastColon_append (a t : Str) (ht : ':' ∉ t) :
    splitAtLastColon (a ++ ':' :: t) = some (a, t) := by
  unfold splitAtLastColon
  have hrev : (a ++ ':' :: t).reverse = t.reverse ++ ':' :: a.reverse := by simp
  rw [hrev, findIdx?_colon_append t.reverse (by simpa using ht) a.reverse 0]
  have h1 : (a ++ ':' :: t).length - 1 - (0 + t.reverse.length) = a.length := by
    simp only [List.length_append, List.length_cons, List.length_reverse]
    omega
  simp only [h1, Option.some.injEq, Prod.mk.injEq]
  constructor
  · exact List.take_left' rfl
  · rw [show a ++ ':' :: t = (a ++ [':']) ++ t from by simp]
    exact List.drop_left' (by simp)

theorem escapeHeaderName_head (k : Str) (d : Str) (hne : k ≠ []) :
    ∃ c w, escapeHeaderName k d = c :: w ∧ (c = '"' ∨ k.head? = some c) := by
  rw [escapeHeaderName_eq]
  split
  · exact ⟨'"', doubleQuotes k ++ ['"'], rfl, Or.inl rfl⟩
  · cases k with
    | nil => exact absurd rfl hne
    | cons c w => exact ⟨c, w, rfl, Or.inr rfl⟩

theorem mem_of_getLast?_eq {l : Str} {c : Char} (hc : l.getLast? = some c) : c ∈ l := by
  obtain ⟨h, heq⟩ := List.mem_getLast?_eq_getLast (Option.mem_def.2 hc)
  exact heq ▸ List.getLast_mem h

theorem typeToken_facts (ty : Str) (hty : ty ∈ knownTypes) :
    jsTrim ty = ty ∧ ty ≠ [] ∧ ¬(ty.getLast? = some '!') ∧
    strContains ty ['"'] = false ∧ strContains ty [':'] = false ∧
    jsToLower ty = ty ∧ knownTypes.contains ty = true ∧
    (':' : Char) ∉ ty ∧
    (∀ c ∈ (':' :: ty : Str), isJsWs c = false) ∧
    (∀ c ∈ ty, c ≠ ',' ∧ c ≠ '"' ∧ c ≠ '\n' ∧ c ≠ '\r') := by
  simp only [knownTypes, List.mem_cons, List.not_mem_nil, or_false] at hty
  rcases hty with rfl | rfl | rfl | rfl | rfl | rfl | rfl <;>
    exact ⟨by decide, by decide, by decide, by decide, by decide, by decide, by decide,
      by decide, by decide, by decide⟩

theorem parseHeaderField_roundtrip (i : Nat) (k ty : Str) (hk : goodKey k)
    (hty : ty ∈ knownTypes) :
    parseHeaderField i (escapeHeaderName k [','] ++ ':' :: ty) =
      Except.ok { name := k, type := ty, isNonNull := false, columnIndex := i + 1 } := by
  obtain ⟨hne, htr, hnl, hcr⟩ := hk
  obtain ⟨htrty, htyne, hbang, hq, hcolon, hlower, hcontains, hnocol, hlastws, hchars⟩ :=
    typeToken_facts ty hty
  obtain ⟨c0, w0, hesc, hc0⟩ := escapeHeaderName_head k [','] hne
  have hws0 : isJsWs c0 = false := by
    rcases hc0 with h | h
    · subst h; decide
    · exact jsTrim_head_not_ws k c0 htr h
  have htrim : jsTrim (escapeHeaderName k [','] ++ ':' :: ty) =
      escapeHeaderName k [','] ++ ':' :: ty := by
    apply jsTrim_eq_self
    · intro c hc
      rw [hesc] at hc
      simp only [List.cons_append, List.head?_cons, Option.some.injEq] at hc
      exact hc ▸ hws0
    · intro c hc
      rw [List.getLast?_append_cons] at hc
      exact hlastws c (mem_of_getLast?_eq hc)
  have hne2 : escapeHeaderName k [','] ++ ':' :: ty ≠ [] := by rw [hesc]; simp
  have hty1 : 0 < ty.length := List.length_pos.2 htyne
  have hne3 : escapeHeaderName k [','] ++ ':' :: ty ≠ ['"', '"'] := by
    intro he
    have hlen := congrArg List.length he
    rw [hesc] at hlen
    simp only [List.length_append, List.length_cons, List.length_nil] at hlen
    omega
  have hsplit : splitAtLastColon (escapeHeaderName k [','] ++ ':' :: ty) =
      some (escapeHeaderName k [','], ty) :=
    splitAtLastColon_append _ _ hnocol
  have hclean : jsTrim (cleanCsvField (escapeHeaderName k [','])) = k := by
    rw [cleanCsvField_escapeHeaderName, htr]
  simp [parseHeaderField, htrim, hne2, hne3, hsplit, hclean, hne, htrty, htyne,
    hbang, hq, hcolon, hlower, hcontains, hty]

theorem expectedHeaders_names : ∀ (cs : List (Str × Str)) (i : Nat),
    (expectedHeaders i cs).map (fun h => h.name) = cs.map Prod.fst := by
  intro cs
  induction cs with
  | nil => intro i; rfl
  | cons s cs ih => intro i; simp [expectedHeaders, ih]

theorem expectedHeaders_length : ∀ (cs : List (Str × Str)) (i : Nat),
    (expectedHeaders i cs).length = cs.length := by
  intro cs
  induction cs with
  | nil => intro i; rfl
  | cons s cs ih => intro i; simp [expectedHeaders, ih]

theorem parseHeaderFields_roundtrip : ∀ (cs : List (Str × Str)) (i : Nat),
    (∀ s ∈ cs, goodKey s.1) →
    (∀ s ∈ cs, s.2 ∈ knownTypes) →
    parseHeaderFields i (cs.map fun s => escapeHeaderName s.1 [','] ++ ':' :: s.2) =
      Except.ok (expectedHeaders i cs) := by
  intro cs
  induction cs with
  | nil => intro i _ _; rfl
  | cons s cs ih =>
    intro i hk hty
    simp only [List.map_cons, parseHeaderFields]
    rw [parseHeaderField_roundtrip i s.1 s.2 (hk s (by simp)) (hty s (by simp))]
    rw [ih (i + 1) (fun q hq => hk q (List.mem_cons_of_mem _ hq))
      (fun q hq => hty q (List.mem_cons_of_mem _ hq))]
    rfl

theorem findDuplicateName_none : ∀ (hs : List CsvtHeader) (seen : List Str),
    (hs.map (fun h => h.name)).Nodup → (∀ h ∈ hs, h.name ∉ seen) →
    findDuplicateName seen hs = none := by
  intro hs
  induction hs with
  | nil => intro seen _ _; rfl
  | cons h hs ih =>
    intro seen hnd hdisj
    rw [List.map_cons] at hnd
    obtain ⟨hnotin, hnd2⟩ := List.nodup_cons.1 hnd
    have hc : seen.contains h.name = false := by
      cases hcc : seen.contains h.name
      · rfl
      · exact absurd (List.elem_iff.1 hcc) (hdisj h (by simp))
    simp only [findDuplicateName, hc, Bool.false_eq_true, if_false]
    apply ih
    · exact hnd2
    · intro g hg
      simp only [List.mem_cons]
      rintro (he | he)
      · exact hnotin (he ▸ List.mem_map_of_mem _ hg)
      · exact hdisj g (List.mem_cons_of_mem _ hg) he

theorem jsTrim_ne_nil (s : Str) (c : Char) (hc : s.head? = some c)
    (hw : isJsWs c = false) : jsTrim s ≠ [] := by
  unfold jsTrim
  intro h
  rw [List.reverse_eq_nil_iff, List.dropWhile_eq_nil_iff] at h
  cases s with
  | nil => exact Option.noConfusion hc
  | cons a t =>
    obtain rfl : a = c := by simpa using hc
    have hd : (a :: t).dropWhile isJsWs = a :: t := by
      rw [List.dropWhile_cons, hw]
      simp
    rw [hd] at h
    exact absurd (h a (by simp)) (by simp [hw])

theorem joinWith_head (sep : Str) (f : Str) (fs : List Str) (hf : f ≠ []) :
    (joinWith sep (f :: fs)).head? = f.head? := by
  cases fs with
  | nil => rfl
  | cons g gs =>
    rw [joinWith_two]
    cases f with
    | nil => exact absurd rfl hf
    | cons c w => rfl

theorem parseHeaderLine_roundtrip (cs : List (Str × Str)) (hne : cs ≠ [])
    (hkeys : ∀ s ∈ cs, goodKey s.1) (hnd : (cs.map Prod.fst).Nodup)
    (htys : ∀ s ∈ cs, s.2 ∈ knownTypes) :
    parseHeaderLine
        (joinWith [','] (cs.map fun s => escapeHeaderName s.1 [','] ++ ':' :: s.2)) =
      Except.ok (expectedHeaders 0 cs) := by
  obtain ⟨s0, cs', rfl⟩ : ∃ s0 cs', cs = s0 :: cs' := by
    cases cs with
    | nil => exact absurd rfl hne
    | cons a b => exact ⟨a, b, rfl⟩
  obtain ⟨c0, w0, hesc, hc0⟩ := escapeHeaderName_head s0.1 [','] (hkeys s0 (by simp)).1
  have hws0 : isJsWs c0 = false := by
    rcases hc0 with h | h
    · subst h; decide
    · exact jsTrim_head_not_ws s0.1 c0 (hkeys s0 (by simp)).2.1 h
  have hhead : (joinWith [',']
      ((s0 :: cs').map fun s => escapeHeaderName s.1 [','] ++ ':' :: s.2)).head? =
      some c0 := by
    rw [List.map_cons, joinWith_head _ _ _ (by rw [hesc]; simp), hesc]
    rfl
  have htrimne := jsTrim_ne_nil _ c0 hhead hws0
  have hatoms : ∀ f ∈ (s0 :: cs').map
      (fun s => escapeHeaderName s.1 [','] ++ ':' :: s.2), atomOk ',' f := by
    intro f hf
    rcases List.mem_map.1 hf with ⟨s, hs, rfl⟩
    apply atomOk_headerField
    · decide
    · intro c hc
      have h := (typeToken_facts s.2 (htys s hs)).2.2.2.2.2.2.2.2.2 c hc
      exact ⟨h.1, h.2.1⟩
    · decide
  have hsplit := splitCsvLine_joinWith ',' (by decide) _ (by simp) hatoms
  have hdup := findDuplicateName_none (expectedHeaders 0 (s0 :: cs')) []
    (by rw [expectedHeaders_names]; exact hnd) (by intro g _; simp)
  unfold parseHeaderLine
  rw [if_neg htrimne]
  simp only [hsplit, parseHeaderFields_roundtrip (s0 :: cs') 0 hkeys htys, hdup]

/-! The data rows round trip. -/

/-- The escaped fields the writer produces for one row (inferred headers,
default delimiter), after resolving each key lookup. -/
def fieldsOfRow (r : Row) : List Str :=
  r.map fun p => escapeCsvField (serializeValue p.2) [',']

/-- The written line of one row. -/
def lineOfRow (r : Row) : Str := joinWith [','] (fieldsOfRow r)

theorem phase1_roundtrip (mode : ErrorMode) (n : Nat) :
    ∀ (rs : List Row) (rn : Nat),
      (∀ r ∈ rs, splitCsvLine (lineOfRow r) = some (fieldsOfRow r) ∧
        (fieldsOfRow r).length = n) →
      (rs.map lineOfRow).getLast? ≠ some [] →
      phase1 mode n (rs.map lineOfRow) rn = Except.ok ([], rs.map fieldsOfRow) := by
  intro rs
  induction rs with
  | nil => intro rn _ _; rfl
  | cons r rs ih =>
    intro rn hall hlast
    obtain ⟨hsp, hlen⟩ := hall r (by simp)
    simp only [List.map_cons, phase1]
    have hskip : ¬(lineOfRow r = [] ∧ rs.map lineOfRow = []) := by
      rintro ⟨h1, h2⟩
      cases rs with
      | nil => exact hlast (by simp [h1])
      | cons a b => simp at h2
    rw [if_neg (by simpa using hskip)]
    have hcount : ¬((fieldsOfRow r).length ≠ n) := by simp [hlen]
    simp only [hsp, if_neg hcount]
    have hlast' : (rs.map lineOfRow).getLast? ≠ some [] := by
      cases rs with
      | nil => simp
      | cons a b =>
        simp only [List.map_cons] at hlast ⊢
        rwa [List.getLast?_cons_cons] at hlast
    rw [ih (rn + 1) (fun q hq => hall q (List.mem_cons_of_mem _ hq)) hlast']
    simp

theorem phase2_roundtrip (mode : ErrorMode) (hs : List CsvtHeader) :
    ∀ (rs : List Row) (ri : Nat),
      (∀ r ∈ rs, ∀ rn, processRow mode hs (fieldsOfRow r) rn [] [] =
        Except.ok ([], some (rtRow r))) →
      phase2 mode hs (rs.map fieldsOfRow) ri = Except.ok ([], rs.map rtRow) := by
  intro rs
  induction rs with
  | nil => intro ri _; rfl
  | cons r rs ih =>
    intro ri hall
    simp only [List.map_cons, phase2]
    rw [hall r (by simp) (ri + 2)]
    rw [ih (ri + 1) (fun q hq => hall q (List.mem_cons_of_mem _ hq))]
    simp

theorem lookup_ne (a : Str) (p : Str × JValue) (l : Row) (h : a ≠ p.1) :
    List.lookup a (p :: l) = List.lookup a l := by
  obtain ⟨b, v⟩ := p
  simp only at h
  simp [List.lookup, beq_false_of_ne h]

theorem map_rowGet_keys (g : JValue → Str) : ∀ (ks : List Str) (r : Row),
    r.map Prod.fst = ks → ks.Nodup →
    ks.map (fun key => g (rowGet r key)) = r.map fun p => g p.2 := by
  intro ks
  induction ks with
  | nil =>
    intro r hk _
    obtain rfl : r = [] := by
      cases r with
      | nil => rfl
      | cons a b => exact absurd hk (by simp)
    rfl
  | cons k0 ks ih =>
    intro r hk hnd
    obtain ⟨p, r', rfl⟩ : ∃ p r', r = p :: r' := by
      cases r with
      | nil => exact absurd hk (by simp)
      | cons a b => exact ⟨a, b, rfl⟩
    simp only [List.map_cons, List.cons.injEq] at hk
    obtain ⟨hk1, hkrest⟩ := hk
    obtain ⟨hnotin, hnd2⟩ := List.nodup_cons.1 hnd
    simp only [List.map_cons]
    congr 1
    · unfold rowGet
      rw [show List.lookup k0 (p :: r') = some p.2 from by
        obtain ⟨a, v⟩ := p
        simp only at hk1
        rw [← hk1]
        simp [List.lookup]]
    · have hstep : ∀ k ∈ ks, (fun key => g (rowGet (p :: r') key)) k =
          (fun key => g (rowGet r' key)) k := by
        intro k hkmem
        have hne : k ≠ p.1 := by
          intro he
          rw [he, hk1] at hkmem
          exact hnotin hkmem
        simp only
        unfold rowGet
        rw [lookup_ne k p r' hne]
      rw [List.map_congr_left hstep, ih r' hkrest hnd2]

theorem determineHeaders_colSpec (eh : Option (List ExplicitColumnHeader)) (r0 : Row)
    (rest : List Row) :
    determineHeaders (r0 :: rest) eh =
      (colSpec eh r0).map fun s => { name := s.1, type := s.2, key := s.1 } := by
  cases eh with
  | none =>
    unfold determineHeaders colSpec
    rw [List.map_map]
    apply List.map_congr_left
    intro p _
    obtain ⟨a, b⟩ := p
    rfl
  | some hs =>
    unfold determineHeaders colSpec
    rw [List.map_map]
    rfl

theorem generateDataRow_colSpec (eh : Option (List ExplicitColumnHeader)) (r0 r : Row)
    (rest : List Row)
    (hspec : (colSpec eh r0).map Prod.fst = r0.map Prod.fst)
    (hk : r.map Prod.fst = r0.map Prod.fst)
    (hnd : (r0.map Prod.fst).Nodup) :
    generateDataRow r (determineHeaders (r0 :: rest) eh) [','] = lineOfRow r := by
  rw [determineHeaders_colSpec]
  unfold generateDataRow lineOfRow fieldsOfRow
  rw [List.map_map]
  congr 1
  show ((colSpec eh r0).map fun s =>
      escapeCsvField (serializeValue (rowGet r s.1)) [',']) =
    r.map fun p => escapeCsvField (serializeValue p.2) [',']
  rw [show ((colSpec eh r0).map fun s =>
      escapeCsvField (serializeValue (rowGet r s.1)) [',']) =
    ((colSpec eh r0).map Prod.fst).map
      (fun key => escapeCsvField (serializeValue (rowGet r key)) [','])
    from by rw [List.map_map]; rfl]
  rw [hspec]
  exact map_rowGet_keys (fun v => escapeCsvField (serializeValue v) [','])
    (r0.map Prod.fst) r hk hnd

theorem generateHeaderRow_colSpec (eh : Option (List ExplicitColumnHeader)) (r0 : Row)
    (rest : List Row) :
    generateHeaderRow (determineHeaders (r0 :: rest) eh) [','] =
      joinWith [',']
        ((colSpec eh r0).map fun s => escapeHeaderName s.1 [','] ++ ':' :: s.2) := by
  rw [determineHeaders_colSpec]
  unfold generateHeaderRow
  simp only [List.map_map]
  congr 1

theorem valuesCompat_mem : ∀ (cs : List (Str × Str)) (r : Row),
    valuesCompat cs r = true → ∀ p ∈ r, ∃ ty, vCompatB ty p.2 = true := by
  intro cs
  induction cs with
  | nil =>
    intro r h p hp
    cases r with
    | nil => exact absurd hp (List.not_mem_nil p)
    | cons a b => exact absurd h (by simp [valuesCompat])
  | cons s cs ih =>
    intro r h p hp
    cases r with
    | nil => exact absurd hp (List.not_mem_nil p)
    | cons q r' =>
      simp only [valuesCompat, Bool.and_eq_true] at h
      rcases List.mem_cons.1 hp with he | he
      · exact ⟨s.2, he ▸ h.1⟩
      · exact ih r' h.2 p he

theorem headerLine_no_crlf (cs : List (Str × Str)) (hkeys : ∀ s ∈ cs, goodKey s.1)
    (htys : ∀ s ∈ cs, s.2 ∈ knownTypes) :
    ∀ c ∈ joinWith [','] (cs.map fun s => escapeHeaderName s.1 [','] ++ ':' :: s.2),
      c ≠ '\n' ∧ c ≠ '\r' := by
  intro c hc
  rcases mem_joinWith _ _ _ hc with h | ⟨f, hf, hcf⟩
  · simp at h
    exact ⟨h ▸ (by decide), h ▸ (by decide)⟩
  · rcases List.mem_map.1 hf with ⟨s, hs, rfl⟩
    rcases List.mem_append.1 hcf with h1 | h1
    · rcases mem_escapeHeaderName _ _ _ h1 with h | h
      · obtain ⟨-, -, hnl, hcr⟩ := hkeys s hs
        exact ⟨fun he => hnl (he ▸ h), fun he => hcr (he ▸ h)⟩
      · exact ⟨h ▸ (by decide), h ▸ (by decide)⟩
    · rcases List.mem_cons.1 h1 with h | h
      · exact ⟨h ▸ (by decide), h ▸ (by decide)⟩
      · have hh := (typeToken_facts s.2 (htys s hs)).2.2.2.2.2.2.2.2.2 c h
        exact ⟨hh.2.2.1, hh.2.2.2⟩

/-! Decimal digit strings: correctness of `natToStr` against the digit
reader `digitsToNat`. -/

theorem digitsToNat_eq_foldl (base : Nat) (ds : Str) :
    digitsToNat base ds = ds.foldl (fun acc c => acc * base + digitVal c) 0 := rfl

theorem foldl_digit_init (base : Nat) : ∀ (ys : Str) (a : Nat),
    ys.foldl (fun acc c => acc * base + digitVal c) a =
      a * base ^ ys.length + ys.foldl (fun acc c => acc * base + digitVal c) 0 := by
  intro ys
  induction ys with
  | nil => intro a; simp
  | cons c ys ih =>
    intro a
    simp only [List.foldl_cons, List.length_cons]
    rw [ih, ih (0 * base + digitVal c)]
    ring

theorem digitsToNat_append (base : Nat) (xs ys : Str) :
    digitsToNat base (xs ++ ys) =
      digitsToNat base xs * base ^ ys.length + digitsToNat base ys := by
  rw [digitsToNat_eq_foldl, List.foldl_append, foldl_digit_init,
    ← digitsToNat_eq_foldl, ← digitsToNat_eq_foldl]

theorem digitsToNat_single (base : Nat) (c : Char) :
    digitsToNat base [c] = digitVal c := by
  rw [digitsToNat_eq_foldl]
  simp

theorem digitVal_digitChar : ∀ d, d < 10 → digitVal (digitChar d) = d := by decide

theorem isDigitC_digitChar : ∀ d, d < 10 → isDigitC (digitChar d) = true := by decide

theorem digitChar_ne_zero : ∀ d, d < 10 → 1 ≤ d → digitChar d ≠ '0' := by decide

theorem natToStrGo_spec : ∀ (n fuel : Nat) (acc : Str), n ≤ fuel →
    ∃ ds, natToStrGo fuel n acc = ds ++ acc ∧
      (∀ c ∈ ds, isDigitC c = true) ∧
      digitsToNat 10 ds = n ∧
      (ds = [] ↔ n = 0) ∧
      (∀ c, ds.head? = some c → c ≠ '0') ∧
      (∀ k, n < 10 ^ k → ds.length ≤ k) := by
  intro n
  induction n using Nat.strong_induction_on with
  | _ n ih =>
    intro fuel acc hfuel
    rcases n with _ | n
    · have hgo : natToStrGo fuel 0 acc = acc := by cases fuel <;> rfl
      exact ⟨[], by simpa using hgo, by simp, rfl, by simp, by simp, by simp⟩
    · rcases fuel with _ | fuel
      · omega
      · have hgo : natToStrGo (fuel + 1) (n + 1) acc =
            natToStrGo fuel ((n + 1) / 10) (digitChar ((n + 1) % 10) :: acc) := rfl
        have hlt : (n + 1) / 10 < n + 1 := Nat.div_lt_self (by omega) (by omega)
        have hmod : (n + 1) % 10 < 10 := Nat.mod_lt _ (by omega)
        obtain ⟨ds', h1, h2, h3, h4, h5, h6⟩ :=
          ih ((n + 1) / 10) hlt fuel (digitChar ((n + 1) % 10) :: acc) (by omega)
        refine ⟨ds' ++ [digitChar ((n + 1) % 10)], ?_, ?_, ?_, ?_, ?_, ?_⟩
        · rw [hgo, h1]
          simp
        · intro c hc
          rcases List.mem_append.1 hc with h | h
          · exact h2 c h
          · simp at h
            exact h ▸ isDigitC_digitChar _ hmod
        · rw [digitsToNat_append, h3, digitsToNat_single, digitVal_digitChar _ hmod]
          simp only [List.length_cons, List.length_nil, pow_one]
          omega
        · simp
        · intro c hc
          rcases hds : ds' with _ | ⟨a, tl⟩
          · have hdiv : (n + 1) / 10 = 0 := h4.1 hds
            have hm1 : 1 ≤ (n + 1) % 10 := by omega
            rw [hds] at hc
            simp at hc
            exact hc ▸ digitChar_ne_zero _ hmod hm1
          · rw [hds] at hc
            simp at hc
            exact h5 c (by rw [hds]; exact hc ▸ rfl)
        · intro k hk
          rcases k with _ | k
          · simp at hk
          · have hdk : (n + 1) / 10 < 10 ^ k := by
              rw [Nat.div_lt_iff_lt_mul (by omega)]
              calc n + 1 < 10 ^ (k + 1) := hk
                _ = 10 ^ k * 10 := by ring
            have := h6 k hdk
            simp only [List.length_append, List.length_cons, List.length_nil]
            omega

theorem natToStr_spec (n : Nat) :
    (∀ c ∈ natToStr n, isDigitC c = true) ∧ natToStr n ≠ [] ∧
    digitsToNat 10 (natToStr n) = n ∧
    (n = 0 → natToStr n = ['0']) ∧
    (n ≠ 0 → ∀ c, (natToStr n).head? = some c → c ≠ '0') ∧
    (∀ k, 1 ≤ k → n < 10 ^ k → (natToStr n).length ≤ k) := by
  by_cases h : n = 0
  · subst h
    refine ⟨by decide, by decide, by decide, fun _ => rfl, fun hh => absurd rfl hh, ?_⟩
    intro k hk _
    simpa [natToStr] using hk
  · obtain ⟨ds, h1, h2, h3, h4, h5, h6⟩ := natToStrGo_spec n n [] le_rfl
    have hns : natToStr n = ds := by
      rw [natToStr, if_neg h, h1, List.append_nil]
    rw [hns]
    exact ⟨h2, fun he => h ((h4.1 he)), h3, fun h0 => absurd h0 h, fun _ => h5,
      fun k _ hk => h6 k hk⟩

/-! Exact decimal serialisation: for terminating rationals, `ratToDecStr`
produces a signed decimal literal that the numeric parsers read back to
the same value. -/

theorem ratNeg_eq_neg (q : ℚ) : ratNeg q = -q := by
  unfold ratNeg
  rw [Rat.mkRat_eq_div]
  push_cast
  rw [neg_div, Rat.num_div_den]

theorem mkRat_nat_div (n d : Nat) : mkRat (n : Int) d = (n : ℚ) / (d : ℚ) := by
  rw [Rat.mkRat_eq_div]
  push_cast
  ring

theorem digitsToNat_replicate_zero (base : Nat) :
    ∀ z, digitsToNat base (List.replicate z '0') = 0 := by
  intro z
  induction z with
  | zero => rfl
  | succ z ih =>
    rw [List.replicate_succ, digitsToNat_eq_foldl, List.foldl_cons]
    rw [show (0 * base + digitVal '0') = 0 from by
      rw [show digitVal '0' = 0 from by decide]; ring]
    rw [← digitsToNat_eq_foldl, ih]

theorem padZeros_length (s : Str) (k : Nat) (h : s.length ≤ k) :
    (padZeros s k).length = k := by
  unfold padZeros
  simp only [List.length_append, List.length_replicate]
  omega

theorem padZeros_digits (s : Str) (k : Nat) (h : ∀ c ∈ s, isDigitC c = true) :
    ∀ c ∈ padZeros s k, isDigitC c = true := by
  intro c hc
  rcases List.mem_append.1 hc with h1 | h1
  · rw [List.eq_of_mem_replicate h1]
    decide
  · exact h c h1

theorem digitsToNat_padZeros (s : Str) (k : Nat) :
    digitsToNat 10 (padZeros s k) = digitsToNat 10 s := by
  unfold padZeros
  rw [digitsToNat_append, digitsToNat_replicate_zero]
  simp

theorem ratToDecStr_parts (q : ℚ) (h : numTermB q = true) :
    ∃ (sgn : Bool) (ip fp : Str),
      ratToDecStr q = decLitStr sgn ip fp ∧
      ip ≠ [] ∧ (∀ c ∈ ip, isDigitC c = true) ∧ (∀ c ∈ fp, isDigitC c = true) ∧
      (ip = ['0'] ∨ ∀ c, ip.head? = some c → c ≠ '0') ∧
      (if sgn then ratNeg else id)
        (mkRat (digitsToNat 10 (ip ++ fp)) (10 ^ fp.length)) = q := by
  have habs : ((q.num.natAbs : ℚ)) = |(q.num : ℚ)| := by
    rw [Int.cast_natAbs, Int.cast_abs]
  have hval0 : ∀ v : ℚ, v = (q.num.natAbs : ℚ) / (q.den : ℚ) →
      (if (decide (q < 0) : Bool) then ratNeg else id) v = q := by
    intro v hv
    by_cases hq : q < 0
    · rw [if_pos (by simpa using hq), ratNeg_eq_neg, hv, habs]
      rw [abs_of_nonpos (show ((q.num : ℚ)) ≤ 0 from by
        exact_mod_cast le_of_lt (Rat.num_neg.2 hq))]
      rw [neg_div, neg_neg, Rat.num_div_den]
    · rw [if_neg (by simpa using hq), id_eq, hv, habs]
      rw [abs_of_nonneg (show (0 : ℚ) ≤ (q.num : ℚ) from by
        exact_mod_cast Rat.num_nonneg.2 (not_lt.1 hq))]
      rw [Rat.num_div_den]
  have hsign : (if q < 0 then (['-'] : Str) else []) =
      (if (decide (q < 0) : Bool) then ['-'] else []) := by
    by_cases hq : q < 0 <;> simp [hq]
  by_cases hd : q.den = 1
  · refine ⟨decide (q < 0), natToStr q.num.natAbs, [], ?_, (natToStr_spec _).2.1,
      (natToStr_spec _).1, by simp, ?_, ?_⟩
    · unfold ratToDecStr
      rw [if_pos hd]
      unfold decLitStr
      rw [hsign]
      simp
    · by_cases h0 : q.num.natAbs = 0
      · left; rw [h0]; exact (natToStr_spec 0).2.2.2.1 rfl
      · right; exact (natToStr_spec _).2.2.2.2.1 h0
    · apply hval0
      rw [List.append_nil, (natToStr_spec _).2.2.1, List.length_nil, pow_zero,
        Rat.mkRat_one, hd]
      push_cast
      rw [div_one, ← habs]
  · rcases hk : decExponent q.den with _ | k
    · exfalso
      rw [numTermB, Bool.or_eq_true] at h
      rcases h with h | h
      · exact hd (of_decide_eq_true h)
      · rw [hk] at h
        exact absurd h (by simp)
    · have hdvd : q.den ∣ 10 ^ k := by
        have hfind := List.find?_some hk
        simpa using hfind
      have hp : 0 < 10 ^ k := pow_pos (by norm_num) k
      have hk1 : 1 ≤ k := by
        rcases Nat.eq_zero_or_pos k with h0 | h0
        · rw [h0, pow_zero, Nat.dvd_one] at hdvd
          exact absurd hdvd hd
        · exact h0
      obtain ⟨t, ht⟩ := hdvd
      have hd0 : 0 < q.den := q.pos
      have ht0 : 0 < t := by
        rcases Nat.eq_zero_or_pos t with h0 | h0
        · rw [h0, Nat.mul_zero] at ht
          omega
        · exact h0
      set n := q.num.natAbs with hn
      set m := n * 10 ^ k / q.den with hm
      have hmt : m = n * t := by
        rw [hm, ht, ← Nat.mul_assoc, Nat.mul_comm n q.den, Nat.mul_assoc,
          Nat.mul_div_cancel_left _ hd0]
      have hmlen : (natToStr (m % 10 ^ k)).length ≤ k :=
        (natToStr_spec _).2.2.2.2.2 k hk1 (Nat.mod_lt _ hp)
      have hfplen : (padZeros (natToStr (m % 10 ^ k)) k).length = k :=
        padZeros_length _ k hmlen
      have hfpne : padZeros (natToStr (m % 10 ^ k)) k ≠ [] := by
        intro he
        rw [he] at hfplen
        simp at hfplen
        omega
      refine ⟨decide (q < 0), natToStr (m / 10 ^ k), padZeros (natToStr (m % 10 ^ k)) k,
        ?_, (natToStr_spec _).2.1, (natToStr_spec _).1,
        padZeros_digits _ _ (natToStr_spec _).1, ?_, ?_⟩
      · unfold ratToDecStr
        rw [if_neg hd, hk]
        unfold decLitStr
        rw [hsign, if_neg hfpne]
        simp
      · by_cases h0 : m / 10 ^ k = 0
        · left; rw [h0]; exact (natToStr_spec 0).2.2.2.1 rfl
        · right; exact (natToStr_spec _).2.2.2.2.1 h0
      · apply hval0
        rw [digitsToNat_append, digitsToNat_padZeros, hfplen]
        rw [show digitsToNat 10 (natToStr (m / 10 ^ k)) = m / 10 ^ k from
          (natToStr_spec _).2.2.1]
        rw [show digitsToNat 10 (natToStr (m % 10 ^ k)) = m % 10 ^ k from
          (natToStr_spec _).2.2.1]
        rw [show (m / 10 ^ k * 10 ^ k + m % 10 ^ k : Nat) = m from by
          rw [Nat.mul_comm]
          exact Nat.div_add_mod m (10 ^ k)]
        rw [mkRat_nat_div, hmt, ht]
        have hdQ : (q.den : ℚ) ≠ 0 := by exact_mod_cast hd0.ne'
        have htQ : (t : ℚ) ≠ 0 := by exact_mod_cast ht0.ne'
        push_cast
        rw [mul_div_mul_right _ _ htQ]

theorem jsStrToNumber_ratToDecStr (q : ℚ) (h : numTermB q = true) :
    jsStrToNumber (ratToDecStr q) = some (.finite q) := by
  obtain ⟨sgn, ip, fp, heq, hip0, hip, hfp, hhead, hval⟩ := ratToDecStr_parts q h
  rw [heq, jsStrToNumber_decimal sgn ip fp hip0 hip hfp, hval]

set_option maxRecDepth 4000 in
theorem ratToDecStr_eq (q : ℚ) :
    ratToDecStr q =
      if q.den = 1 then
        (if q < 0 then ['-'] else []) ++ natToStr q.num.natAbs
      else
        match decExponent q.den with
        | some k =>
          (if q < 0 then ['-'] else []) ++
            natToStr (q.num.natAbs * 10 ^ k / q.den / 10 ^ k) ++ ['.'] ++
            padZeros (natToStr (q.num.natAbs * 10 ^ k / q.den % 10 ^ k)) k
        | none => (if q < 0 then ['-'] else []) ++ natToStr (q.num.natAbs / q.den) := rfl

theorem ratToDecStr_chars (q : ℚ) :
    ∀ c ∈ ratToDecStr q, isDigitC c = true ∨ c = '-' ∨ c = '.' := by
  have hsgn : ∀ c ∈ (if q < 0 then (['-'] : Str) else []), c = '-' := by
    by_cases hq : q < 0
    · rw [if_pos hq]; intro c hc; simpa using hc
    · rw [if_neg hq]; intro c hc; exact absurd hc (List.not_mem_nil c)
  intro c hc
  rw [ratToDecStr_eq] at hc
  split at hc
  · rcases List.mem_append.1 hc with h1 | h1
    · right; left; exact hsgn c h1
    · left; exact (natToStr_spec _).1 c h1
  · split at hc
    · rcases List.mem_append.1 hc with h1 | h1
      · rcases List.mem_append.1 h1 with h2 | h2
        · rcases List.mem_append.1 h2 with h3 | h3
          · right; left; exact hsgn c h3
          · left; exact (natToStr_spec _).1 c h3
        · right; right; simpa using h2
      · left; exact padZeros_digits _ _ (natToStr_spec _).1 c h1
    · rcases List.mem_append.1 hc with h1 | h1
      · right; left; exact hsgn c h1
      · left; exact (natToStr_spec _).1 c h1

theorem ratToDecStr_ne_nil (q : ℚ) : ratToDecStr q ≠ [] := by
  intro h
  rw [ratToDecStr_eq] at h
  split at h
  · rw [List.append_eq_nil] at h
    exact (natToStr_spec _).2.1 h.2
  · split at h
    · simp only [List.append_assoc, List.append_eq_nil, List.cons_ne_self] at h
      simp at h
    · rw [List.append_eq_nil] at h
      exact (natToStr_spec _).2.1 h.2

theorem ratToDecStr_head_not_quote (q : ℚ) (c : Char)
    (hc : (ratToDecStr q).head? = some c) : c ≠ '"' := by
  have hm : c ∈ ratToDecStr q := by
    rcases hs : ratToDecStr q with _ | ⟨a, t⟩
    · rw [hs] at hc; exact absurd hc (by simp)
    · rw [hs] at hc
      simp at hc
      rw [hc] at hs ⊢
      simp
  rcases ratToDecStr_chars q c hm with h | h | h
  · exact digit_ne h '"' (by decide)
  · rw [h]; decide
  · rw [h]; decide

/-! `JSON.parse` inverts `JSON.stringify`: first, string bodies. -/

theorem isHexC_hexDigitChar : ∀ d, d < 16 → isHexC (hexDigitChar d) = true := by decide

theorem digitVal_hexDigitChar : ∀ d, d < 16 → digitVal (hexDigitChar d) = d := by decide

theorem jsonStrBody_cons_eq (fuel : Nat) (c : Char) (r : Str) :
    jsonStrBody (fuel + 1) (c :: r) =
      if c = '"' then some ([], r)
      else if c = '\\' then
        match r with
        | [] => none
        | e :: r2 =>
          let dec : Option (Char × Str) :=
            if e = '"' then some ('"', r2)
            else if e = '\\' then some ('\\', r2)
            else if e = '/' then some ('/', r2)
            else if e = 'b' then some ('\x08', r2)
            else if e = 'f' then some ('\x0c', r2)
            else if e = 'n' then some ('\n', r2)
            else if e = 'r' then some ('\r', r2)
            else if e = 't' then some ('\t', r2)
            else if e = 'u' then
              match r2 with
              | h1 :: h2 :: h3 :: h4 :: r3 =>
                if isHexC h1 && isHexC h2 && isHexC h3 && isHexC h4 then
                  some (Char.ofNat (digitsToNat 16 [h1, h2, h3, h4]), r3)
                else none
              | _ => none
            else none
          match dec with
          | none => none
          | some (ch, r') => (jsonStrBody fuel r').map fun (tl, rest) => (ch :: tl, rest)
      else if c.toNat < 32 then none
      else (jsonStrBody fuel r).map fun (tl, rest) => (c :: tl, rest) := rfl

theorem jsonStrBody_cons_other (f : Nat) (c : Char) (r : Str) (h1 : c ≠ '"')
    (h2 : c ≠ '\\') (h3 : ¬ c.toNat < 32) :
    jsonStrBody (f + 1) (c :: r) =
      (jsonStrBody f r).map fun (tl, rest) => (c :: tl, rest) := by
  rw [jsonStrBody_cons_eq, if_neg h1, if_neg h2, if_neg h3]

theorem jsonStrBody_u_esc (f : Nat) (a b : Char) (r : Str)
    (ha : isHexC a = true) (hb : isHexC b = true) :
    jsonStrBody (f + 1) ('\\' :: 'u' :: '0' :: '0' :: a :: b :: r) =
      (jsonStrBody f r).map fun (tl, rest) =>
        (Char.ofNat (digitsToNat 16 ['0', '0', a, b]) :: tl, rest) := by
  rw [jsonStrBody_cons_eq, if_neg (by decide), if_pos rfl]
  simp [show isHexC '0' = true from by decide, ha, hb]

theorem jsonStrBody_esc : ∀ (s : Str) (fuel : Nat) (rest : Str), s.length < fuel →
    jsonStrBody fuel (s.flatMap jsonEscChar ++ '"' :: rest) = some (s, rest) := by
  intro s
  induction s with
  | nil =>
    intro fuel rest hf
    rcases fuel with _ | f
    · omega
    · rfl
  | cons c s ih =>
    intro fuel rest hf
    rcases fuel with _ | f
    · omega
    have hrec := ih f rest (by simp at hf; omega)
    rw [List.flatMap_cons, List.append_assoc]
    by_cases e1 : c = '"'
    · subst e1
      rw [show jsonEscChar '"' = ['\\', '"'] from rfl]
      rw [show jsonStrBody (f + 1) (['\\', '"'] ++ (s.flatMap jsonEscChar ++ '"' :: rest)) =
        (jsonStrBody f (s.flatMap jsonEscChar ++ '"' :: rest)).map
          (fun (tl, r2) => ('"' :: tl, r2)) from rfl, hrec]
      rfl
    by_cases e2 : c = '\\'
    · subst e2
      rw [show jsonEscChar '\\' = ['\\', '\\'] from rfl]
      rw [show jsonStrBody (f + 1) (['\\', '\\'] ++ (s.flatMap jsonEscChar ++ '"' :: rest)) =
        (jsonStrBody f (s.flatMap jsonEscChar ++ '"' :: rest)).map
          (fun (tl, r2) => ('\\' :: tl, r2)) from rfl, hrec]
      rfl
    by_cases e3 : c = '\n'
    · subst e3
      rw [show jsonEscChar '\n' = ['\\', 'n'] from rfl]
      rw [show jsonStrBody (f + 1) (['\\', 'n'] ++ (s.flatMap jsonEscChar ++ '"' :: rest)) =
        (jsonStrBody f (s.flatMap jsonEscChar ++ '"' :: rest)).map
          (fun (tl, r2) => ('\n' :: tl, r2)) from rfl, hrec]
      rfl
    by_cases e4 : c = '\r'
    · subst e4
      rw [show jsonEscChar '\r' = ['\\', 'r'] from rfl]
      rw [show jsonStrBody (f + 1) (['\\', 'r'] ++ (s.flatMap jsonEscChar ++ '"' :: rest)) =
        (jsonStrBody f (s.flatMap jsonEscChar ++ '"' :: rest)).map
          (fun (tl, r2) => ('\r' :: tl, r2)) from rfl, hrec]
      rfl
    by_cases e5 : c = '\t'
    · subst e5
      rw [show jsonEscChar '\t' = ['\\', 't'] from rfl]
      rw [show jsonStrBody (f + 1) (['\\', 't'] ++ (s.flatMap jsonEscChar ++ '"' :: rest)) =
        (jsonStrBody f (s.flatMap jsonEscChar ++ '"' :: rest)).map
          (fun (tl, r2) => ('\t' :: tl, r2)) from rfl, hrec]
      rfl
    by_cases e6 : c = '\x08'
    · subst e6
      rw [show jsonEscChar '\x08' = ['\\', 'b'] from rfl]
      rw [show jsonStrBody (f + 1) (['\\', 'b'] ++ (s.flatMap jsonEscChar ++ '"' :: rest)) =
        (jsonStrBody f (s.flatMap jsonEscChar ++ '"' :: rest)).map
          (fun (tl, r2) => ('\x08' :: tl, r2)) from rfl, hrec]
      rfl
    by_cases e7 : c = '\x0c'
    · subst e7
      rw [show jsonEscChar '\x0c' = ['\\', 'f'] from rfl]
      rw [show jsonStrBody (f + 1) (['\\', 'f'] ++ (s.flatMap jsonEscChar ++ '"' :: rest)) =
        (jsonStrBody f (s.flatMap jsonEscChar ++ '"' :: rest)).map
          (fun (tl, r2) => ('\x0c' :: tl, r2)) from rfl, hrec]
      rfl
    by_cases e8 : c.toNat < 32
    · have hesc : jsonEscChar c =
          ['\\', 'u', '0', '0', hexDigitChar (c.toNat / 16), hexDigitChar (c.toNat % 16)] := by
        unfold jsonEscChar
        rw [if_neg e1, if_neg e2, if_neg e3, if_neg e4, if_neg e5, if_neg e6, if_neg e7,
          if_pos e8]
      rw [hesc]
      rw [show (['\\', 'u', '0', '0', hexDigitChar (c.toNat / 16),
          hexDigitChar (c.toNat % 16)] ++ (s.flatMap jsonEscChar ++ '"' :: rest)) =
          '\\' :: 'u' :: '0' :: '0' :: hexDigitChar (c.toNat / 16) ::
            hexDigitChar (c.toNat % 16) :: (s.flatMap jsonEscChar ++ '"' :: rest) from rfl]
      rw [jsonStrBody_u_esc f _ _ _ (isHexC_hexDigitChar _ (by omega : c.toNat / 16 < 16))
        (isHexC_hexDigitChar _ (by omega : c.toNat % 16 < 16))]
      rw [show digitsToNat 16
          ['0', '0', hexDigitChar (c.toNat / 16), hexDigitChar (c.toNat % 16)] = c.toNat from by
        rw [digitsToNat_eq_foldl]
        simp only [List.foldl_cons, List.foldl_nil]
        rw [show digitVal '0' = 0 from by decide,
          digitVal_hexDigitChar _ (by omega : c.toNat / 16 < 16),
          digitVal_hexDigitChar _ (by omega : c.toNat % 16 < 16)]
        omega]
      rw [Char.ofNat_toNat, hrec]
      rfl
    · have hesc : jsonEscChar c = [c] := by
        unfold jsonEscChar
        rw [if_neg e1, if_neg e2, if_neg e3, if_neg e4, if_neg e5, if_neg e6, if_neg e7,
          if_neg e8]
      rw [hesc, List.singleton_append, jsonStrBody_cons_other f c _ e1 e2 e8, hrec]
      rfl

/-! `jsonNum` on the writer's decimal output. -/

/-- The computation of `jsonNum` after the sign has been split off (the
body of the source once `neg`/`s1` are bound), named so the two sign shapes
share one proof. -/
def jsonNumFrom (neg : Bool) (s1 : Str) : Option (ℚ × Str) :=
  let ipOk : Option (Str × Str) :=
    match s1 with
    | '0' :: r => some (['0'], r)
    | c :: r =>
      if isDigitC c && c ≠ '0' then some (c :: r.takeWhile isDigitC, r.dropWhile isDigitC)
      else none
    | [] => none
  match ipOk with
  | none => none
  | some (ip, r1) =>
    let fr : Option (Str × Str) :=
      match r1 with
      | '.' :: rf =>
        let fp := rf.takeWhile isDigitC
        if fp = [] then none
        else some (fp, rf.dropWhile isDigitC)
      | _ => some ([], r1)
    match fr with
    | none => none
    | some (fp, r2) =>
      let (eq', r3) : Option Int × Str :=
        match r2 with
        | e :: re =>
          if e = 'e' || e = 'E' then
            let (es, re2) : Int × Str := match re with
              | '+' :: r4 => (1, r4)
              | '-' :: r4 => (-1, r4)
              | _ => (1, re)
            let ds := re2.takeWhile isDigitC
            if ds = [] then (none, r2)
            else (some (es * (digitsToNat 10 ds : Int)), re2.dropWhile isDigitC)
          else (some 0, r2)
        | [] => (some 0, r2)
      match eq' with
      | none => none
      | some e =>
        some ((if neg then ratNeg else id) (decValue ip fp e), r3)

theorem jsonNum_dash (r : Str) : jsonNum ('-' :: r) = jsonNumFrom true r := rfl

theorem jsonNum_nondash (a : Char) (r : Str) (ha : a ≠ '-') :
    jsonNum (a :: r) = jsonNumFrom false (a :: r) := by
  unfold jsonNum jsonNumFrom
  split <;> simp_all

theorem takeWhile_head_not (p : Char → Bool) (l : Str)
    (h : ∀ c, l.head? = some c → p c = false) : l.takeWhile p = [] := by
  cases l with
  | nil => rfl
  | cons a t =>
    rw [List.takeWhile_cons, h a rfl]
    simp

theorem dropWhile_head_not (p : Char → Bool) (l : Str)
    (h : ∀ c, l.head? = some c → p c = false) : l.dropWhile p = l := by
  cases l with
  | nil => rfl
  | cons a t =>
    rw [List.dropWhile_cons, h a rfl]
    simp

theorem decValue_zero_exp (ip fp : Str) :
    decValue ip fp 0 = mkRat (digitsToNat 10 (ip ++ fp)) (10 ^ fp.length) := by
  unfold decValue
  by_cases hfp : fp = []
  · subst hfp
    rw [if_pos (by simp)]
    simp
  · rw [if_neg (by simp [hfp])]
    congr 1
    simp

theorem jsonNumFrom_parts (neg : Bool) (ip fp rest : Str) (hip0 : ip ≠ [])
    (hip : ∀ x ∈ ip, isDigitC x = true) (hfp : ∀ x ∈ fp, isDigitC x = true)
    (hip1 : ip = ['0'] ∨ ∀ c, ip.head? = some c → c ≠ '0')
    (hrest : ∀ c, rest.head? = some c →
      isDigitC c = false ∧ c ≠ '.' ∧ c ≠ 'e' ∧ c ≠ 'E') :
    jsonNumFrom neg ((ip ++ (if fp = [] then [] else '.' :: fp)) ++ rest) =
      some ((if neg then ratNeg else id)
        (mkRat (digitsToNat 10 (ip ++ fp)) (10 ^ fp.length)), rest) := by
  have htail : ∀ c, ((if fp = [] then [] else '.' :: fp) ++ rest).head? = some c →
      isDigitC c = false := by
    by_cases hfp0 : fp = []
    · rw [hfp0]
      intro c hc
      simp only [if_pos rfl, List.nil_append] at hc
      exact (hrest c hc).1
    · rw [if_neg hfp0]
      intro c hc
      simp only [List.cons_append, List.head?_cons, Option.some.injEq] at hc
      rw [← hc]
      decide
  have hipok : (match (ip ++ (if fp = [] then [] else '.' :: fp)) ++ rest with
      | '0' :: r => some (['0'], r)
      | c :: r =>
        if isDigitC c && c ≠ '0' then
          some (c :: r.takeWhile isDigitC, r.dropWhile isDigitC)
        else none
      | [] => none) = some (ip, (if fp = [] then [] else '.' :: fp) ++ rest) := by
    rcases hip1 with h1 | h1
    · subst h1
      simp
    · rcases hi : ip with _ | ⟨a, ip'⟩
      · exact absurd hi hip0
      have ha0 : a ≠ '0' := h1 a (by rw [hi]; rfl)
      have had : isDigitC a = true := hip a (by rw [hi]; simp)
      have hsh : ((a :: ip') ++ (if fp = [] then [] else '.' :: fp)) ++ rest =
          a :: ((ip' ++ (if fp = [] then [] else '.' :: fp)) ++ rest) := by simp
      rw [hsh]
      have htk : ((ip' ++ (if fp = [] then [] else '.' :: fp)) ++ rest).takeWhile isDigitC =
          ip' := by
        rw [List.append_assoc, takeWhile_append_all _ (fun x hx => hip x (by rw [hi]; simp [hx]))]
        rw [takeWhile_head_not _ _ htail]
        simp
      have hdr : ((ip' ++ (if fp = [] then [] else '.' :: fp)) ++ rest).dropWhile isDigitC =
          (if fp = [] then [] else '.' :: fp) ++ rest := by
        rw [List.append_assoc, dropWhile_append_all _ (fun x hx => hip x (by rw [hi]; simp [hx]))]
        exact dropWhile_head_not _ _ htail
      split
      · rename_i heq
        simp only [List.cons.injEq] at heq
        exact absurd heq.1 ha0
      · rename_i cc rr hne heq
        simp only [List.cons.injEq] at heq
        obtain ⟨hc, hr⟩ := heq
        subst hc
        subst hr
        rw [if_pos (by simp [had, ha0]), htk, hdr]
      · rename_i heq
        exact absurd heq (by simp)
  have hfr : (match (if fp = [] then [] else '.' :: fp) ++ rest with
      | '.' :: rf =>
        if List.takeWhile isDigitC rf = [] then none
        else some (List.takeWhile isDigitC rf, List.dropWhile isDigitC rf)
      | _ => some ([], (if fp = [] then [] else '.' :: fp) ++ rest)) = some (fp, rest) := by
    by_cases hfp0 : fp = []
    · subst hfp0
      split
      · rename_i rf heq
        simp at heq
        exact absurd (hrest '.' (by rw [heq]; rfl)).2.1 (by simp)
      · simp
    · simp only [if_neg hfp0, List.cons_append]
      have htk : (fp ++ rest).takeWhile isDigitC = fp := by
        rw [takeWhile_append_all _ hfp, takeWhile_head_not _ _ (fun c hc => (hrest c hc).1)]
        simp
      have hdr : (fp ++ rest).dropWhile isDigitC = rest := by
        rw [dropWhile_append_all _ hfp]
        exact dropWhile_head_not _ _ (fun c hc => (hrest c hc).1)
      simp only [htk, hdr, if_neg hfp0]
  have hval : ∀ r3 : Str,
      some ((if neg = true then ratNeg else id) (decValue ip fp 0), r3) =
        some ((if neg = true then ratNeg else id)
          (mkRat (digitsToNat 10 (ip ++ fp)) (10 ^ fp.length)), r3) := by
    intro r3
    rw [decValue_zero_exp]
  have hfr2 : parseUnsignedDec.match_2 (fun _ => Option (Str × Str))
      ((if fp = [] then [] else '.' :: fp) ++ rest)
      (fun rf =>
        if List.takeWhile isDigitC rf = [] then none
        else some (List.takeWhile isDigitC rf, List.dropWhile isDigitC rf))
      (fun _ => some ([], (if fp = [] then [] else '.' :: fp) ++ rest)) = some (fp, rest) := hfr
  simp only [jsonNumFrom, hipok]
  rw [hfr2]
  rcases rest with _ | ⟨e, re⟩
  · exact hval []
  · have he := hrest e rfl
    have hcond : (e = 'e' || e = 'E') = false := by simp [he.2.2.1, he.2.2.2]
    simp only [hcond]
    exact hval (e :: re)

theorem jsonNum_ratToDecStr (q : ℚ) (h : numTermB q = true) (rest : Str)
    (hrest : ∀ c, rest.head? = some c →
      isDigitC c = false ∧ c ≠ '.' ∧ c ≠ 'e' ∧ c ≠ 'E') :
    jsonNum (ratToDecStr q ++ rest) = some (q, rest) := by
  obtain ⟨sgn, ip, fp, heq, hip0, hip, hfp, hip1, hval⟩ := ratToDecStr_parts q h
  rw [heq]
  cases sgn with
  | true =>
    have hsh : decLitStr true ip fp ++ rest =
        '-' :: ((ip ++ (if fp = [] then [] else '.' :: fp)) ++ rest) := by
      simp [decLitStr]
    rw [hsh, jsonNum_dash, jsonNumFrom_parts true ip fp rest hip0 hip hfp hip1 hrest]
    exact congrArg (fun z => some (z, rest)) hval
  | false =>
    obtain ⟨a, ip', hi⟩ : ∃ a ip', ip = a :: ip' := by
      cases ip with
      | nil => exact absurd rfl hip0
      | cons a t => exact ⟨a, t, rfl⟩
    have had : isDigitC a = true := hip a (by rw [hi]; simp)
    have hane : a ≠ '-' := by
      intro hcontra
      rw [hcontra] at had
      exact absurd had (by decide)
    have hsh : decLitStr false ip fp ++ rest =
        a :: (ip' ++ (if fp = [] then [] else '.' :: fp) ++ rest) := by
      simp [decLitStr, hi]
    rw [hsh, jsonNum_nondash _ _ hane]
    have hsh2 : a :: (ip' ++ (if fp = [] then [] else '.' :: fp) ++ rest) =
        (ip ++ (if fp = [] then [] else '.' :: fp)) ++ rest := by
      simp [hi]
    rw [hsh2, jsonNumFrom_parts false ip fp rest hip0 hip hfp hip1 hrest]
    exact congrArg (fun z => some (z, rest)) hval

/-! The JSON serialisation round trip: `JSON.parse` recovers every value
`JSON.stringify` wrote, with `undefined` reading back as `null` (`rtJsonV`),
on the domain `jsonOkV`. -/

theorem jsonEscChar_len_ge (c : Char) : 1 ≤ (jsonEscChar c).length := by
  unfold jsonEscChar
  repeat' split
  all_goals simp

theorem flatMap_esc_len_ge (s : Str) : s.length ≤ (s.flatMap jsonEscChar).length := by
  induction s with
  | nil => simp
  | cons c t ih =>
    have h := jsonEscChar_len_ge c
    simp only [List.flatMap_cons, List.length_append, List.length_cons]
    omega

theorem hexDigitChar_not_crlf : ∀ d, d < 16 → hexDigitChar d ≠ '\n' ∧ hexDigitChar d ≠ '\r' := by
  decide

theorem jsonEscChar_no_crlf (c : Char) : ∀ x ∈ jsonEscChar c, x ≠ '\n' ∧ x ≠ '\r' := by
  intro x hx
  unfold jsonEscChar at hx
  split_ifs at hx with h1 h2 h3 h4 h5 h6 h7 h8
  · simp only [List.mem_cons, List.not_mem_nil, or_false] at hx
    rcases hx with rfl | rfl <;> exact ⟨by decide, by decide⟩
  · simp only [List.mem_cons, List.not_mem_nil, or_false] at hx
    rcases hx with rfl | rfl <;> exact ⟨by decide, by decide⟩
  · simp only [List.mem_cons, List.not_mem_nil, or_false] at hx
    rcases hx with rfl | rfl <;> exact ⟨by decide, by decide⟩
  · simp only [List.mem_cons, List.not_mem_nil, or_false] at hx
    rcases hx with rfl | rfl <;> exact ⟨by decide, by decide⟩
  · simp only [List.mem_cons, List.not_mem_nil, or_false] at hx
    rcases hx with rfl | rfl <;> exact ⟨by decide, by decide⟩
  · simp only [List.mem_cons, List.not_mem_nil, or_false] at hx
    rcases hx with rfl | rfl <;> exact ⟨by decide, by decide⟩
  · simp only [List.mem_cons, List.not_mem_nil, or_false] at hx
    rcases hx with rfl | rfl <;> exact ⟨by decide, by decide⟩
  · simp only [List.mem_cons, List.not_mem_nil, or_false] at hx
    rcases hx with rfl | rfl | rfl | rfl | rfl | rfl
    · exact ⟨by decide, by decide⟩
    · exact ⟨by decide, by decide⟩
    · exact ⟨by decide, by decide⟩
    · exact ⟨by decide, by decide⟩
    · exact hexDigitChar_not_crlf _ (by omega)
    · exact hexDigitChar_not_crlf _ (by omega)
  · simp only [List.mem_cons, List.not_mem_nil, or_false] at hx
    subst hx
    exact ⟨fun he => h8 (by rw [he]; decide), fun he => h8 (by rw [he]; decide)⟩

theorem jsonQuote_no_crlf (s : Str) : ∀ x ∈ jsonQuote s, x ≠ '\n' ∧ x ≠ '\r' := by
  intro x hx
  unfold jsonQuote at hx
  rcases List.mem_cons.1 hx with rfl | hx2
  · exact ⟨by decide, by decide⟩
  rcases List.mem_append.1 hx2 with h | h
  · rcases List.mem_flatMap.1 h with ⟨c, -, hc⟩
    exact jsonEscChar_no_crlf c x hc
  · simp only [List.mem_cons, List.not_mem_nil, or_false] at h
    subst h
    exact ⟨by decide, by decide⟩

theorem jsonStringifyV_some (v : JValue) (hv : v ≠ .jundefined) :
    jsonStringifyV v = some (serJ v) := by
  cases v <;> first | rfl | exact absurd rfl hv

theorem serJ_head (v : JValue) : ∃ a t, serJ v = a :: t ∧
    (a = 'n' ∨ a = 't' ∨ a = 'f' ∨ a = '"' ∨ a = '[' ∨ a = lbrace ∨
     isDigitC a = true ∨ a = '-' ∨ a = '.') := by
  cases v with
  | jnull => exact ⟨'n', _, rfl, by tauto⟩
  | jundefined => exact ⟨'n', _, rfl, by tauto⟩
  | jbool b =>
    cases b with
    | false => exact ⟨'f', _, rfl, by tauto⟩
    | true => exact ⟨'t', _, rfl, by tauto⟩
  | jnum n =>
    cases n with
    | finite q =>
      obtain ⟨a, t, hat⟩ := List.exists_cons_of_ne_nil (ratToDecStr_ne_nil q)
      refine ⟨a, t, hat, ?_⟩
      have h := ratToDecStr_chars q a (by rw [hat]; simp)
      tauto
    | posInf => exact ⟨'n', _, rfl, by tauto⟩
    | negInf => exact ⟨'n', _, rfl, by tauto⟩
  | jstr s => exact ⟨'"', _, rfl, by tauto⟩
  | jdate iso => exact ⟨'"', _, rfl, by tauto⟩
  | jarr l => exact ⟨'[', _, rfl, by tauto⟩
  | jobj p => exact ⟨lbrace, _, rfl, by tauto⟩

theorem serJ_ne_nil (v : JValue) : serJ v ≠ [] := by
  obtain ⟨a, t, hat, -⟩ := serJ_head v
  simp [hat]

theorem serJ_len_pos (v : JValue) : 1 ≤ (serJ v).length := by
  obtain ⟨a, t, hat, -⟩ := serJ_head v
  rw [hat]
  simp

theorem charClass_facts (a : Char)
    (h : a = 'n' ∨ a = 't' ∨ a = 'f' ∨ a = '"' ∨ a = '[' ∨ a = lbrace ∨
      isDigitC a = true ∨ a = '-' ∨ a = '.') :
    (a = ' ' || a = '\t' || a = '\n' || a = '\r') = false ∧
      a ≠ ']' ∧ a ≠ rbrace ∧ a ≠ ',' ∧ a ≠ ':' := by
  rcases h with rfl | rfl | rfl | rfl | rfl | rfl | h | rfl | rfl
  all_goals try exact ⟨by decide, by decide, by decide, by decide, by decide⟩
  refine ⟨Bool.eq_false_iff.2 fun htrue => ?_, fun he => ?_, fun he => ?_,
    fun he => ?_, fun he => ?_⟩
  · simp only [Bool.or_eq_true, decide_eq_true_eq] at htrue
    rcases htrue with ((rfl | rfl) | rfl) | rfl <;> exact absurd h (by decide)
  all_goals (subst he; exact absurd h (by decide))

theorem jsonSkipWs_eq_self (s : Str)
    (h : ∀ c, s.head? = some c → (c = ' ' || c = '\t' || c = '\n' || c = '\r') = false) :
    jsonSkipWs s = s := by
  unfold jsonSkipWs
  exact dropWhile_head_not _ s (fun c hc => by simpa using h c hc)

theorem jsonSkipWs_serJ_append (v : JValue) (X : Str) :
    jsonSkipWs (serJ v ++ X) = serJ v ++ X := by
  obtain ⟨a, t, hat, hcl⟩ := serJ_head v
  apply jsonSkipWs_eq_self
  intro c hc
  rw [hat] at hc
  simp only [List.cons_append, List.head?_cons, Option.some.injEq] at hc
  subst hc
  exact (charClass_facts a hcl).1

theorem stringifyList_cons (v : JValue) (tl : JList) :
    ∃ X, jsonStringifyList (.cons v tl) = serJ v ++ X ∧
      (tl = .nil → X = []) ∧
      (tl ≠ .nil → X = ',' :: jsonStringifyList tl) := by
  cases tl with
  | nil =>
    refine ⟨[], ?_, fun _ => rfl, fun h => absurd rfl h⟩
    rw [List.append_nil]
    rfl
  | cons v2 tl2 =>
    exact ⟨',' :: jsonStringifyList (.cons v2 tl2), rfl,
      fun h => JList.noConfusion h, fun _ => rfl⟩

theorem stringifyPairs_cons (k : Str) (v : JValue) (tl : JPairs) (hv : v ≠ .jundefined) :
    ∃ X, jsonStringifyPairs (.cons k v tl) =
      '"' :: (k.flatMap jsonEscChar ++ '"' :: (':' :: (serJ v ++ X))) ∧
      (jsonStringifyPairs tl = [] → X = []) ∧
      (jsonStringifyPairs tl ≠ [] → X = ',' :: jsonStringifyPairs tl) := by
  have hsv := jsonStringifyV_some v hv
  rcases hsp : jsonStringifyPairs tl with _ | ⟨c0, rest0⟩
  · refine ⟨[], ?_, fun _ => rfl, fun h => absurd rfl h⟩
    simp only [jsonStringifyPairs, hsv, hsp]
    simp [jsonQuote]
  · refine ⟨',' :: (c0 :: rest0), ?_, fun h => absurd h (by simp), fun _ => rfl⟩
    simp only [jsonStringifyPairs, hsv, hsp]
    simp [jsonQuote]

theorem stringifyPairs_cons_ne_nil (k : Str) (v : JValue) (tl : JPairs)
    (hv : v ≠ .jundefined) : jsonStringifyPairs (.cons k v tl) ≠ [] := by
  obtain ⟨X, hX, -, -⟩ := stringifyPairs_cons k v tl hv
  simp [hX]

theorem jsonVal_cons_eq (fuel : Nat) (a : Char) (t : Str) :
    jsonVal (fuel + 1) (a :: t) =
      (match a :: t with
      | 'n' :: 'u' :: 'l' :: 'l' :: r => some (.jnull, r)
      | 't' :: 'r' :: 'u' :: 'e' :: r => some (.jbool true, r)
      | 'f' :: 'a' :: 'l' :: 's' :: 'e' :: r => some (.jbool false, r)
      | '"' :: r => (jsonStrBody (r.length + 1) r).map fun (str, rest) => (.jstr str, rest)
      | '[' :: r =>
        let r' := jsonSkipWs r
        match r' with
        | ']' :: rest => some (.jarr .nil, rest)
        | _ => (jsonArrItems fuel r').map fun (elems, rest) => (.jarr elems, rest)
      | c :: r =>
        if c = lbrace then
          let r' := jsonSkipWs r
          if r'.head? = some rbrace then some (.jobj .nil, r'.drop 1)
          else (jsonObjItems fuel r').map fun (fields, rest) => (.jobj fields, rest)
        else (jsonNum (a :: t)).map fun (q, rest) => (.jnum (.finite q), rest)
      | [] => none) := rfl

theorem jsonVal_quote (fuel : Nat) (r : Str) :
    jsonVal (fuel + 1) ('"' :: r) =
      (jsonStrBody (r.length + 1) r).map fun (str, rest) => (JValue.jstr str, rest) := rfl

theorem jsonVal_lbrack (fuel : Nat) (r : Str) :
    jsonVal (fuel + 1) ('[' :: r) =
      (match jsonSkipWs r with
      | ']' :: rest => some (JValue.jarr .nil, rest)
      | _ => (jsonArrItems fuel (jsonSkipWs r)).map fun (elems, rest) =>
          (JValue.jarr elems, rest)) := rfl

theorem jsonVal_lbrace (fuel : Nat) (r : Str) :
    jsonVal (fuel + 1) (lbrace :: r) =
      (if (jsonSkipWs r).head? = some rbrace then
        some (JValue.jobj .nil, (jsonSkipWs r).drop 1)
      else (jsonObjItems fuel (jsonSkipWs r)).map fun (fields, rest) =>
        (JValue.jobj fields, rest)) := rfl

theorem jsonVal_num_branch (fuel : Nat) (a : Char) (t : Str)
    (ha : isDigitC a = true ∨ a = '-' ∨ a = '.') :
    jsonVal (fuel + 1) (a :: t) =
      (jsonNum (a :: t)).map fun (q, rest) => (JValue.jnum (.finite q), rest) := by
  have hne : a ≠ 'n' ∧ a ≠ 't' ∧ a ≠ 'f' ∧ a ≠ '"' ∧ a ≠ '[' ∧ a ≠ lbrace := by
    rcases ha with h | rfl | rfl
    · refine ⟨fun he => ?_, fun he => ?_, fun he => ?_, fun he => ?_,
        fun he => ?_, fun he => ?_⟩ <;> (subst he; exact absurd h (by decide))
    · exact ⟨by decide, by decide, by decide, by decide, by decide, by decide⟩
    · exact ⟨by decide, by decide, by decide, by decide, by decide, by decide⟩
  rw [jsonVal_cons_eq]
  split
  · rename_i heq
    simp only [List.cons.injEq] at heq
    exact absurd heq.1 hne.1
  · rename_i heq
    simp only [List.cons.injEq] at heq
    exact absurd heq.1 hne.2.1
  · rename_i heq
    simp only [List.cons.injEq] at heq
    exact absurd heq.1 hne.2.2.1
  · rename_i heq
    simp only [List.cons.injEq] at heq
    exact absurd heq.1 hne.2.2.2.1
  · rename_i heq
    simp only [List.cons.injEq] at heq
    exact absurd heq.1 hne.2.2.2.2.1
  · rename_i c r heq
    simp only [List.cons.injEq] at heq
    obtain ⟨hc, hr⟩ := heq
    subst hc
    subst hr
    rw [if_neg hne.2.2.2.2.2]
  · rename_i heq
    exact absurd heq (by simp)

theorem jsonArrItems_succ (fuel : Nat) (s : Str) :
    jsonArrItems (fuel + 1) s =
      (match jsonVal fuel s with
      | none => none
      | some (v, r) =>
        match jsonSkipWs r with
        | ',' :: r2 => (jsonArrItems fuel (jsonSkipWs r2)).map fun (tl, rest) =>
            (JList.cons v tl, rest)
        | ']' :: r2 => some (JList.cons v .nil, r2)
        | _ => none) := rfl

theorem jsonObjItems_quote (fuel : Nat) (r : Str) :
    jsonObjItems (fuel + 1) ('"' :: r) =
      (match jsonStrBody (r.length + 1) r with
      | none => none
      | some (key, r1) =>
        match jsonSkipWs r1 with
        | ':' :: r2 =>
          match jsonVal fuel (jsonSkipWs r2) with
          | none => none
          | some (v, r3) =>
            match jsonSkipWs r3 with
            | ',' :: r4 => (jsonObjItems fuel (jsonSkipWs r4)).map fun (tl, rest) =>
                (JPairs.cons key v tl, rest)
            | c :: r4 => if c = rbrace then some (JPairs.cons key v .nil, r4) else none
            | [] => none
        | _ => none) := rfl

theorem jsonSer_ind : ∀ fuel : Nat,
    (∀ v rest, jsonOkV v = true → (serJ v).length < fuel →
      (∀ c, rest.head? = some c → c = ',' ∨ c = ']' ∨ c = rbrace) →
      jsonVal fuel (serJ v ++ rest) = some (rtJsonV v, rest)) ∧
    (∀ l rest, l ≠ JList.nil → jsonOkL l = true →
      (jsonStringifyList l).length + 1 < fuel →
      jsonArrItems fuel (jsonStringifyList l ++ ']' :: rest) = some (rtJsonL l, rest)) ∧
    (∀ p rest, p ≠ JPairs.nil → jsonOkP p = true →
      (jsonStringifyPairs p).length + 1 < fuel →
      jsonObjItems fuel (jsonStringifyPairs p ++ rbrace :: rest) = some (rtJsonP p, rest)) := by
  intro fuel
  induction fuel using Nat.strong_induction_on with
  | _ fuel IH =>
    rcases fuel with _ | f
    · exact ⟨fun v rest _ hlen _ => absurd hlen (by omega),
        fun l rest _ _ hlen => absurd hlen (by omega),
        fun p rest _ _ hlen => absurd hlen (by omega)⟩
    have IHf := IH f (Nat.lt_succ_self f)
    refine ⟨?_, ?_, ?_⟩
    · intro v rest hok hlen hrest
      cases v with
      | jnull => rfl
      | jundefined => rfl
      | jbool b => cases b <;> rfl
      | jnum n =>
        cases n with
        | finite q =>
          have hterm : numTermB q = true := by simpa [jsonOkV] using hok
          have hser : serJ (JValue.jnum (.finite q)) = ratToDecStr q := rfl
          rw [hser]
          obtain ⟨a, t, hat⟩ := List.exists_cons_of_ne_nil (ratToDecStr_ne_nil q)
          have hcls := ratToDecStr_chars q a (by rw [hat]; simp)
          have hrest' : ∀ c, rest.head? = some c →
              isDigitC c = false ∧ c ≠ '.' ∧ c ≠ 'e' ∧ c ≠ 'E' := by
            intro c hc
            rcases hrest c hc with rfl | rfl | rfl
            · exact ⟨by decide, by decide, by decide, by decide⟩
            · exact ⟨by decide, by decide, by decide, by decide⟩
            · exact ⟨by decide, by decide, by decide, by decide⟩
          rw [hat, List.cons_append, jsonVal_num_branch f a (t ++ rest) hcls,
            ← List.cons_append, ← hat, jsonNum_ratToDecStr q hterm rest hrest']
          rfl
        | posInf => simp [jsonOkV] at hok
        | negInf => simp [jsonOkV] at hok
      | jstr s =>
        have hsh : serJ (JValue.jstr s) ++ rest =
            '"' :: (s.flatMap jsonEscChar ++ '"' :: rest) := by
          show jsonQuote s ++ rest = _
          simp [jsonQuote]
        have hlen2 : s.length < (s.flatMap jsonEscChar ++ '"' :: rest).length + 1 := by
          have h1 := flatMap_esc_len_ge s
          simp only [List.length_append, List.length_cons]
          omega
        rw [hsh, jsonVal_quote, jsonStrBody_esc s _ rest hlen2]
        rfl
      | jdate iso => simp [jsonOkV] at hok
      | jarr l =>
        cases l with
        | nil => rfl
        | cons v tl =>
          have hokl : jsonOkL (JList.cons v tl) = true := hok
          have hsh : serJ (JValue.jarr (.cons v tl)) ++ rest =
              '[' :: (jsonStringifyList (.cons v tl) ++ ']' :: rest) := by
            show ('[' :: jsonStringifyList (.cons v tl) ++ [']']) ++ rest = _
            simp
          have hlen2 : (jsonStringifyList (.cons v tl)).length + 1 < f := by
            have hl : (serJ (JValue.jarr (.cons v tl))).length =
                (jsonStringifyList (.cons v tl)).length + 2 := by
              show ('[' :: jsonStringifyList (.cons v tl) ++ [']']).length = _
              simp only [List.length_cons, List.length_append, List.length_singleton,
                List.length_nil]
            omega
          obtain ⟨X, hX, -, -⟩ := stringifyList_cons v tl
          obtain ⟨a0, t0, hat0, hcl0⟩ := serJ_head v
          have hws : jsonSkipWs (jsonStringifyList (.cons v tl) ++ ']' :: rest) =
              jsonStringifyList (.cons v tl) ++ ']' :: rest := by
            apply jsonSkipWs_eq_self
            intro c hc
            rw [hX, hat0] at hc
            simp only [List.cons_append, List.append_assoc, List.head?_cons,
              Option.some.injEq] at hc
            subst hc
            exact (charClass_facts a0 hcl0).1
          rw [hsh, jsonVal_lbrack, hws]
          split
          · rename_i rest2 heq
            rw [hX, hat0] at heq
            simp only [List.cons_append, List.append_assoc, List.cons.injEq] at heq
            exact absurd heq.1 (charClass_facts a0 hcl0).2.1
          · rw [IHf.2.1 (.cons v tl) rest (fun h => JList.noConfusion h) hokl hlen2]
            rfl
      | jobj p =>
        cases p with
        | nil => rfl
        | cons k v tl =>
          have hokp : jsonOkP (JPairs.cons k v tl) = true := hok
          have hvne : v ≠ JValue.jundefined := by
            intro he
            rw [he] at hokp
            simp [jsonOkP] at hokp
          have hsh : serJ (JValue.jobj (.cons k v tl)) ++ rest =
              lbrace :: (jsonStringifyPairs (.cons k v tl) ++ rbrace :: rest) := by
            show (lbrace :: jsonStringifyPairs (.cons k v tl) ++ [rbrace]) ++ rest = _
            simp
          have hlen2 : (jsonStringifyPairs (.cons k v tl)).length + 1 < f := by
            have hl : (serJ (JValue.jobj (.cons k v tl))).length =
                (jsonStringifyPairs (.cons k v tl)).length + 2 := by
              show (lbrace :: jsonStringifyPairs (.cons k v tl) ++ [rbrace]).length = _
              simp only [List.length_cons, List.length_append, List.length_singleton,
                List.length_nil]
            omega
          obtain ⟨X, hX, -, -⟩ := stringifyPairs_cons k v tl hvne
          have hws : jsonSkipWs (jsonStringifyPairs (.cons k v tl) ++ rbrace :: rest) =
              jsonStringifyPairs (.cons k v tl) ++ rbrace :: rest := by
            apply jsonSkipWs_eq_self
            intro c hc
            rw [hX] at hc
            simp only [List.cons_append, List.head?_cons, Option.some.injEq] at hc
            subst hc
            decide
          rw [hsh, jsonVal_lbrace, hws]
          have hq : ¬ ((jsonStringifyPairs (.cons k v tl) ++ rbrace :: rest).head? =
              some rbrace) := by
            rw [hX]
            simp only [List.cons_append, List.head?_cons, Option.some.injEq]
            decide
          rw [if_neg hq,
            IHf.2.2 (.cons k v tl) rest (fun h => JPairs.noConfusion h) hokp hlen2]
          rfl
    · intro l rest hne hok hlen
      cases l with
      | nil => exact absurd rfl hne
      | cons v tl =>
        have hokv : jsonOkV v = true ∧ jsonOkL tl = true := by
          simpa [jsonOkL] using hok
        obtain ⟨X, hX, hXnil, hXcons⟩ := stringifyList_cons v tl
        rw [jsonArrItems_succ]
        cases tl with
        | nil =>
          rw [hXnil rfl, List.append_nil] at hX
          rw [hX]
          have hlv : (serJ v).length < f := by
            have hx := congrArg List.length hX
            omega
          have hhd : ∀ c, ((']' :: rest : Str)).head? = some c →
              c = ',' ∨ c = ']' ∨ c = rbrace := by
            intro c hc
            simp only [List.head?_cons, Option.some.injEq] at hc
            right; left; exact hc.symm
          rw [IHf.1 v (']' :: rest) hokv.1 hlv hhd]
          rfl
        | cons v2 tl2 =>
          have hXc : X = ',' :: jsonStringifyList (.cons v2 tl2) :=
            hXcons (fun h => JList.noConfusion h)
          subst hXc
          rw [hX]
          have hassoc : (serJ v ++ ',' :: jsonStringifyList (.cons v2 tl2)) ++ ']' :: rest =
              serJ v ++ (',' :: (jsonStringifyList (.cons v2 tl2) ++ ']' :: rest)) := by
            simp
          rw [hassoc]
          have hlv : (serJ v).length < f := by
            have hx := congrArg List.length hX
            simp only [List.length_append, List.length_cons] at hx
            omega
          have hhd : ∀ c, ((',' :: (jsonStringifyList (.cons v2 tl2) ++ ']' :: rest) :
              Str)).head? = some c → c = ',' ∨ c = ']' ∨ c = rbrace := by
            intro c hc
            simp only [List.head?_cons, Option.some.injEq] at hc
            left; exact hc.symm
          rw [IHf.1 v _ hokv.1 hlv hhd]
          show (jsonArrItems f
              (jsonSkipWs (jsonStringifyList (.cons v2 tl2) ++ ']' :: rest))).map
              (fun (tl3, r2) => (JList.cons (rtJsonV v) tl3, r2)) =
            some (rtJsonL (.cons v (.cons v2 tl2)), rest)
          obtain ⟨a2, t2, hat2, hcl2⟩ := serJ_head v2
          obtain ⟨X2, hX2, -, -⟩ := stringifyList_cons v2 tl2
          have hws2 : jsonSkipWs (jsonStringifyList (.cons v2 tl2) ++ ']' :: rest) =
              jsonStringifyList (.cons v2 tl2) ++ ']' :: rest := by
            apply jsonSkipWs_eq_self
            intro c hc
            rw [hX2, hat2] at hc
            simp only [List.cons_append, List.append_assoc, List.head?_cons,
              Option.some.injEq] at hc
            subst hc
            exact (charClass_facts a2 hcl2).1
          have hl2 : (jsonStringifyList (.cons v2 tl2)).length + 1 < f := by
            have hx := congrArg List.length hX
            simp only [List.length_append, List.length_cons] at hx
            have hsp := serJ_len_pos v
            omega
          rw [hws2, IHf.2.1 (.cons v2 tl2) rest (fun h => JList.noConfusion h) hokv.2 hl2]
          rfl
    · intro p rest hne hok hlen
      cases p with
      | nil => exact absurd rfl hne
      | cons k v tl =>
        have hokp : jsonOkP (JPairs.cons k v tl) = true := hok
        have hvne : v ≠ JValue.jundefined := by
          intro he
          rw [he] at hokp
          simp [jsonOkP] at hokp
        have hparts : jsonOkV v = true ∧ jsonOkP tl = true := by
          simp only [jsonOkP, Bool.and_eq_true] at hokp
          exact ⟨hokp.1.2, hokp.2⟩
        obtain ⟨X, hX, hXnil, hXcons⟩ := stringifyPairs_cons k v tl hvne
        have hsh : jsonStringifyPairs (.cons k v tl) ++ rbrace :: rest =
            '"' :: (k.flatMap jsonEscChar ++
              '"' :: (':' :: (serJ v ++ (X ++ rbrace :: rest)))) := by
          rw [hX]
          simp
        rw [hsh, jsonObjItems_quote]
        have hlenS : k.length < (k.flatMap jsonEscChar ++
            '"' :: (':' :: (serJ v ++ (X ++ rbrace :: rest)))).length + 1 := by
          have h1 := flatMap_esc_len_ge k
          simp only [List.length_append, List.length_cons]
          omega
        rw [jsonStrBody_esc k _ _ hlenS]
        show (match jsonVal f (jsonSkipWs (serJ v ++ (X ++ rbrace :: rest))) with
          | none => none
          | some (v2, r3) =>
            match jsonSkipWs r3 with
            | ',' :: r4 => (jsonObjItems f (jsonSkipWs r4)).map fun (tl2, r5) =>
                (JPairs.cons k v2 tl2, r5)
            | c :: r4 => if c = rbrace then some (JPairs.cons k v2 .nil, r4) else none
            | [] => none) = some (rtJsonP (.cons k v tl), rest)
        have hlv : (serJ v).length < f := by
          have hx := congrArg List.length hX
          simp only [List.length_cons, List.length_append] at hx
          omega
        have hhd : ∀ c, (X ++ rbrace :: rest).head? = some c →
            c = ',' ∨ c = ']' ∨ c = rbrace := by
          intro c hc
          rcases hsp : jsonStringifyPairs tl with _ | ⟨c0, r0⟩
          · rw [hXnil hsp] at hc
            simp only [List.nil_append, List.head?_cons, Option.some.injEq] at hc
            right; right; exact hc.symm
          · rw [hXcons (by rw [hsp]; simp)] at hc
            simp only [List.cons_append, List.head?_cons, Option.some.injEq] at hc
            left; exact hc.symm
        rw [jsonSkipWs_serJ_append v, IHf.1 v _ hparts.1 hlv hhd]
        rcases hsp : jsonStringifyPairs tl with _ | ⟨c0, r0⟩
        · have htlnil : tl = .nil := by
            cases tl with
            | nil => rfl
            | cons k2 v2 tl2 =>
              have hv2 : v2 ≠ JValue.jundefined := by
                intro he
                have h2 : jsonOkP (JPairs.cons k2 v2 tl2) = true := hparts.2
                rw [he] at h2
                simp [jsonOkP] at h2
              exact absurd hsp (stringifyPairs_cons_ne_nil k2 v2 tl2 hv2)
          subst htlnil
          rw [hXnil hsp, List.nil_append]
          rfl
        · have hXc : X = ',' :: jsonStringifyPairs tl := hXcons (by rw [hsp]; simp)
          rw [hXc]
          show (jsonObjItems f (jsonSkipWs (jsonStringifyPairs tl ++ rbrace :: rest))).map
              (fun (tl2, r5) => (JPairs.cons k (rtJsonV v) tl2, r5)) =
            some (rtJsonP (.cons k v tl), rest)
          have htlne : tl ≠ .nil := by
            intro he
            rw [he] at hsp
            exact absurd hsp.symm (by simp [jsonStringifyPairs])
          obtain ⟨k2, v2, tl2, htl⟩ : ∃ k2 v2 tl2, tl = JPairs.cons k2 v2 tl2 := by
            cases tl with
            | nil => exact absurd rfl htlne
            | cons a b c => exact ⟨a, b, c, rfl⟩
          have hv2 : v2 ≠ JValue.jundefined := by
            intro he
            have h2 : jsonOkP tl = true := hparts.2
            rw [htl, he] at h2
            simp [jsonOkP] at h2
          obtain ⟨X2, hX2, -, -⟩ := stringifyPairs_cons k2 v2 tl2 hv2
          have hws2 : jsonSkipWs (jsonStringifyPairs tl ++ rbrace :: rest) =
              jsonStringifyPairs tl ++ rbrace :: rest := by
            apply jsonSkipWs_eq_self
            intro c hc
            rw [htl, hX2] at hc
            simp only [List.cons_append, List.head?_cons, Option.some.injEq] at hc
            subst hc
            decide
          have hl2 : (jsonStringifyPairs tl).length + 1 < f := by
            have hx := congrArg List.length hX
            have hx2 := congrArg List.length hXc
            simp only [List.length_append, List.length_cons] at hx hx2
            have hsp2 := serJ_len_pos v
            omega
          rw [hws2, IHf.2.2 tl rest htlne hparts.2 hl2]
          rfl

theorem jsonParse_serJ (v : JValue) (hok : jsonOkV v = true) :
    jsonParse (serJ v) = some (rtJsonV v) := by
  unfold jsonParse
  have hws : jsonSkipWs (serJ v) = serJ v := by
    have h := jsonSkipWs_serJ_append v []
    simpa using h
  rw [hws]
  have h1 := (jsonSer_ind ((serJ v).length + 1)).1 v [] hok (by omega)
    (by intro c hc; simp at hc)
  rw [List.append_nil] at h1
  rw [h1]
  rfl

mutual

theorem serJV_no_crlf : ∀ (v : JValue) (s : Str), jsonStringifyV v = some s →
    ∀ x ∈ s, x ≠ '\n' ∧ x ≠ '\r'
  | .jnull, s, h => by
    simp only [jsonStringifyV, Option.some.injEq] at h
    subst h
    decide
  | .jundefined, s, h => by simp [jsonStringifyV] at h
  | .jbool b, s, h => by
    simp only [jsonStringifyV, Option.some.injEq] at h
    subst h
    cases b <;> decide
  | .jnum n, s, h => by
    simp only [jsonStringifyV, Option.some.injEq] at h
    subst h
    cases n with
    | finite q =>
      intro x hx
      rcases ratToDecStr_chars q x hx with hd | rfl | rfl
      · exact ⟨fun he => absurd hd (by rw [he]; decide),
          fun he => absurd hd (by rw [he]; decide)⟩
      · exact ⟨by decide, by decide⟩
      · exact ⟨by decide, by decide⟩
    | posInf => decide
    | negInf => decide
  | .jstr s0, s, h => by
    simp only [jsonStringifyV, Option.some.injEq] at h
    subst h
    exact jsonQuote_no_crlf s0
  | .jdate iso, s, h => by
    simp only [jsonStringifyV, Option.some.injEq] at h
    subst h
    exact jsonQuote_no_crlf iso
  | .jarr l, s, h => by
    simp only [jsonStringifyV, Option.some.injEq] at h
    subst h
    intro x hx
    rcases List.mem_cons.1 hx with rfl | hx2
    · exact ⟨by decide, by decide⟩
    rcases List.mem_append.1 hx2 with h1 | h1
    · exact serJL_no_crlf l x h1
    · simp only [List.mem_cons, List.not_mem_nil, or_false] at h1
      subst h1
      exact ⟨by decide, by decide⟩
  | .jobj p, s, h => by
    simp only [jsonStringifyV, Option.some.injEq] at h
    subst h
    intro x hx
    rcases List.mem_cons.1 hx with rfl | hx2
    · exact ⟨by decide, by decide⟩
    rcases List.mem_append.1 hx2 with h1 | h1
    · exact serJP_no_crlf p x h1
    · simp only [List.mem_cons, List.not_mem_nil, or_false] at h1
      subst h1
      exact ⟨by decide, by decide⟩

theorem serJL_no_crlf : ∀ (l : JList), ∀ x ∈ jsonStringifyList l,
    x ≠ '\n' ∧ x ≠ '\r'
  | .nil => by simp [jsonStringifyList]
  | .cons v .nil => by
    intro x hx
    rcases hsv : jsonStringifyV v with _ | s
    · rw [show jsonStringifyList (.cons v .nil) = (jsonStringifyV v).getD "null".data
          from rfl, hsv, Option.getD_none] at hx
      exact (show ∀ y ∈ ("null".data : Str), y ≠ '\n' ∧ y ≠ '\r' from by decide) x hx
    · rw [show jsonStringifyList (.cons v .nil) = (jsonStringifyV v).getD "null".data
          from rfl, hsv] at hx
      exact serJV_no_crlf v s hsv x hx
  | .cons v (.cons v2 tl2) => by
    intro x hx
    rw [show jsonStringifyList (.cons v (.cons v2 tl2)) =
        (jsonStringifyV v).getD "null".data ++
          ',' :: jsonStringifyList (.cons v2 tl2) from rfl] at hx
    rcases List.mem_append.1 hx with h1 | h1
    · rcases hsv : jsonStringifyV v with _ | s
      · rw [hsv, Option.getD_none] at h1
        exact (show ∀ y ∈ ("null".data : Str), y ≠ '\n' ∧ y ≠ '\r' from by decide) x h1
      · rw [hsv] at h1
        exact serJV_no_crlf v s hsv x h1
    · rcases List.mem_cons.1 h1 with rfl | h2
      · exact ⟨by decide, by decide⟩
      · exact serJL_no_crlf (.cons v2 tl2) x h2

theorem serJP_no_crlf : ∀ (p : JPairs), ∀ x ∈ jsonStringifyPairs p,
    x ≠ '\n' ∧ x ≠ '\r'
  | .nil => by simp [jsonStringifyPairs]
  | .cons k v tl => by
    intro x hx
    rcases hsv : jsonStringifyV v with _ | s
    · rw [show jsonStringifyPairs (.cons k v tl) =
          (match jsonStringifyV v with
          | none => jsonStringifyPairs tl
          | some s =>
            let entry := jsonQuote k ++ ':' :: s
            match jsonStringifyPairs tl with
            | [] => entry
            | rest => entry ++ ',' :: rest) from rfl, hsv] at hx
      exact serJP_no_crlf tl x hx
    · rw [show jsonStringifyPairs (.cons k v tl) =
          (match jsonStringifyV v with
          | none => jsonStringifyPairs tl
          | some s =>
            let entry := jsonQuote k ++ ':' :: s
            match jsonStringifyPairs tl with
            | [] => entry
            | rest => entry ++ ',' :: rest) from rfl, hsv] at hx
      have hentry : ∀ y ∈ jsonQuote k ++ ':' :: s, y ≠ '\n' ∧ y ≠ '\r' := by
        intro y hy
        rcases List.mem_append.1 hy with h1 | h1
        · exact jsonQuote_no_crlf k y h1
        · rcases List.mem_cons.1 h1 with rfl | h2
          · exact ⟨by decide, by decide⟩
          · exact serJV_no_crlf v s hsv y h2
      rcases hsp : jsonStringifyPairs tl with _ | ⟨c0, r0⟩
      · rw [hsp] at hx
        exact hentry x hx
      · rw [hsp] at hx
        rcases List.mem_append.1 hx with h1 | h1
        · exact hentry x h1
        · rcases List.mem_cons.1 h1 with rfl | h2
          · exact ⟨by decide, by decide⟩
          · rw [← hsp] at h2
            exact serJP_no_crlf tl x h2

end

theorem serializeValue_no_crlf (ty : Str) (v : JValue) (h : vCompatB ty v = true) :
    '\n' ∉ serializeValue v ∧ '\r' ∉ serializeValue v := by
  cases v with
  | jnull => exact ⟨by simp [serializeValue], by simp [serializeValue]⟩
  | jundefined => exact ⟨by simp [serializeValue], by simp [serializeValue]⟩
  | jbool b => cases b <;> exact ⟨by decide, by decide⟩
  | jstr s =>
    simp only [vCompatB, Bool.and_eq_true, decide_eq_true_eq, List.all_eq_true] at h
    obtain ⟨-, hall⟩ := h
    constructor
    · intro hm
      have := hall _ hm
      simp at this
    · intro hm
      have := hall _ hm
      simp at this
  | jnum n =>
    cases n with
    | finite q =>
      constructor
      · intro hm
        rcases ratToDecStr_chars q _ hm with hd | he | he
        · exact absurd hd (by decide)
        · exact absurd he (by decide)
        · exact absurd he (by decide)
      · intro hm
        rcases ratToDecStr_chars q _ hm with hd | he | he
        · exact absurd hd (by decide)
        · exact absurd he (by decide)
        · exact absurd he (by decide)
    | posInf => exact ⟨by decide, by decide⟩
    | negInf => exact ⟨by decide, by decide⟩
  | jdate d => exact absurd h (by simp [vCompatB])
  | jarr l =>
    constructor
    · intro hm
      exact (serJV_no_crlf (.jarr l) (serJ (.jarr l)) rfl '\n' hm).1 rfl
    · intro hm
      exact (serJV_no_crlf (.jarr l) (serJ (.jarr l)) rfl '\r' hm).2 rfl
  | jobj p =>
    constructor
    · intro hm
      exact (serJV_no_crlf (.jobj p) (serJ (.jobj p)) rfl '\n' hm).1 rfl
    · intro hm
      exact (serJV_no_crlf (.jobj p) (serJ (.jobj p)) rfl '\r' hm).2 rfl

theorem lineOfRow_no_crlf (cs : List (Str × Str)) (r : Row)
    (hcomp : valuesCompat cs r = true) :
    ∀ c ∈ lineOfRow r, c ≠ '\n' ∧ c ≠ '\r' := by
  intro c hc
  unfold lineOfRow at hc
  rcases mem_joinWith _ _ _ hc with h | ⟨f, hf, hcf⟩
  · simp at h
    exact ⟨h ▸ (by decide), h ▸ (by decide)⟩
  · unfold fieldsOfRow at hf
    rcases List.mem_map.1 hf with ⟨p, hp, rfl⟩
    obtain ⟨ty, hty⟩ := valuesCompat_mem cs r hcomp p hp
    obtain ⟨h1, h2⟩ := serializeValue_no_crlf ty p.2 hty
    rcases mem_escapeCsvField _ _ _ hcf with h | h
    · exact ⟨fun he => h1 (he ▸ h), fun he => h2 (he ▸ h)⟩
    · exact ⟨h ▸ (by decide), h ▸ (by decide)⟩

theorem validateAndConvert_roundtrip (k ty : Str) (i rn : Nat) (v : JValue)
    (hc : vCompatB ty v = true) :
    validateAndConvert (escapeCsvField (serializeValue v) [','])
      { name := k, type := ty, isNonNull := false, columnIndex := i } rn =
      Except.ok (roundTripVal v) := by
  cases v with
  | jnull => rfl
  | jundefined => rfl
  | jbool b =>
    have h : ty = "bool".data := by
      simp [vCompatB] at hc
      exact hc
    subst h
    cases b <;> rfl
  | jstr s =>
    have h1 : ty = "string".data := by
      simp [vCompatB] at hc
      exact hc.1
    subst h1
    by_cases hs : s = []
    · subst hs; rfl
    · have hclean : cleanCsvField (escapeCsvField s [',']) = s :=
        cleanCsvField_escapeCsvField s [',']
      simp only [serializeValue, validateAndConvert, hclean, if_neg hs, reduceIte,
        roundTripVal]
  | jnum n =>
    cases n with
    | finite q =>
      have h : ty = "number".data ∧ numTermB q = true := by
        simpa [vCompatB] using hc
      obtain ⟨rfl, hterm⟩ := h
      have hser : serializeValue (JValue.jnum (.finite q)) = ratToDecStr q := rfl
      have hclean : cleanCsvField (escapeCsvField (ratToDecStr q) [',']) = ratToDecStr q :=
        cleanCsvField_escapeCsvField _ [',']
      have hne := ratToDecStr_ne_nil q
      simp [validateAndConvert, hser, hclean, hne, jsStrToNumber_ratToDecStr q hterm,
        roundTripVal, show (("number".data : Str) = "string".data) = False by simp]
    | posInf =>
      have h : ty = "number".data := by simpa [vCompatB] using hc
      subst h
      rfl
    | negInf =>
      have h : ty = "number".data := by simpa [vCompatB] using hc
      subst h
      rfl
  | jdate d => exact absurd hc (by simp [vCompatB])
  | jarr l =>
    have h : ty = "array".data ∧ jsonOkL l = true := by
      simpa [vCompatB] using hc
    obtain ⟨rfl, hok⟩ := h
    have hser : serializeValue (JValue.jarr l) = serJ (.jarr l) := rfl
    have hclean : cleanCsvField (escapeCsvField (serJ (.jarr l)) [',']) = serJ (.jarr l) :=
      cleanCsvField_escapeCsvField _ [',']
    have hne := serJ_ne_nil (.jarr l)
    have hparse : jsonParse (serJ (.jarr l)) = some (JValue.jarr (rtJsonL l)) :=
      jsonParse_serJ (.jarr l) hok
    simp [validateAndConvert, hser, hclean, hne, hparse, roundTripVal,
      show (("array".data : Str) = "string".data) = False by simp,
      show (("array".data : Str) = "number".data) = False by simp,
      show (("array".data : Str) = "bool".data) = False by simp,
      show (("array".data : Str) = "date".data) = False by simp,
      show (("array".data : Str) = "datetime".data) = False by simp]
  | jobj p =>
    have h : ty = "object".data ∧ jsonOkP p = true := by
      simpa [vCompatB] using hc
    obtain ⟨rfl, hok⟩ := h
    have hser : serializeValue (JValue.jobj p) = serJ (.jobj p) := rfl
    have hclean : cleanCsvField (escapeCsvField (serJ (.jobj p)) [',']) = serJ (.jobj p) :=
      cleanCsvField_escapeCsvField _ [',']
    have hne := serJ_ne_nil (.jobj p)
    have hparse : jsonParse (serJ (.jobj p)) = some (JValue.jobj (rtJsonP p)) :=
      jsonParse_serJ (.jobj p) hok
    simp [validateAndConvert, hser, hclean, hne, hparse, roundTripVal,
      show (("object".data : Str) = "string".data) = False by simp,
      show (("object".data : Str) = "number".data) = False by simp,
      show (("object".data : Str) = "bool".data) = False by simp,
      show (("object".data : Str) = "date".data) = False by simp,
      show (("object".data : Str) = "datetime".data) = False by simp,
      show (("object".data : Str) = "array".data) = False by simp]

theorem processRow_roundtrip (mode : ErrorMode) :
    ∀ (cs : List (Str × Str)) (r : Row) (i rn : Nat) (errs : List CsvtError) (obj : Row),
      r.map Prod.fst = cs.map Prod.fst →
      valuesCompat cs r = true →
      processRow mode (expectedHeaders i cs) (fieldsOfRow r) rn errs obj =
        Except.ok (errs.reverse, some (obj.reverse ++ rtRow r)) := by
  intro cs
  induction cs with
  | nil =>
    intro r i rn errs obj hkeys _
    obtain rfl : r = [] := by
      cases r with
      | nil => rfl
      | cons a b => exact absurd hkeys (by simp)
    simp [processRow, expectedHeaders, fieldsOfRow, rtRow]
  | cons s cs ih =>
    intro r i rn errs obj hkeys hcomp
    obtain ⟨p, r', rfl⟩ : ∃ p r', r = p :: r' := by
      cases r with
      | nil => exact absurd hkeys (by simp)
      | cons a b => exact ⟨a, b, rfl⟩
    simp only [List.map_cons, List.cons.injEq] at hkeys
    obtain ⟨hk1, hkrest⟩ := hkeys
    simp only [valuesCompat, Bool.and_eq_true] at hcomp
    obtain ⟨hc1, hcrest⟩ := hcomp
    simp only [fieldsOfRow, List.map_cons, expectedHeaders, processRow,
      validateAndConvert_roundtrip s.1 s.2 (i + 1) rn p.2 hc1]
    have hrec := ih r' (i + 1) rn errs ((s.1, roundTripVal p.2) :: obj) hkrest hcrest
    simp only [fieldsOfRow] at hrec
    rw [hrec]
    simp [rtRow, hk1]

/-- C6 (amended): the write/parse round trip holds on the domain the two
entry points actually preserve, for inferred as well as explicit headers.
For a nonempty list of rows over a fixed nonempty duplicate-free key list
whose keys are trimmed and line-break free, a column specification (the
explicit headers when given, otherwise the first row's keys with inferred
types) whose names are exactly those keys and whose type tokens are known,
and values that fit their column types — `null` or `undefined` anywhere,
line-break-free strings in `string` columns, booleans in `bool` columns,
infinities and finite decimal-terminating numbers in `number` columns,
arrays and objects in `array`/`object` columns whose nested strings, finite
decimal-terminating numbers, booleans, nulls, arrays and objects survive
`JSON.stringify`/`JSON.parse` — and whose final row does not serialise to
an empty line, parsing the written text (default delimiter and line break,
any errorMode) succeeds with no errors, the written headers, and the input
rows with the empty string, `null` and `undefined` read back as `null`,
numbers, booleans and nonempty strings read back exactly, and arrays and
objects read back with nested `undefined` elements as `null`.  Outside
this domain the round trip can fail outright (see the counterexample: a
row whose only value is the empty string is dropped). -/
theorem writeCsvt_parseCsvt_roundtrip (mode : ErrorMode)
    (eh : Option (List ExplicitColumnHeader)) (r0 : Row) (rest : List Row)
    (hne : r0 ≠ [])
    (hspec : (colSpec eh r0).map Prod.fst = r0.map Prod.fst)
    (hkeys : ∀ p ∈ r0, goodKey p.1)
    (hnd : (r0.map Prod.fst).Nodup)
    (htys : ∀ s ∈ colSpec eh r0, s.2 ∈ knownTypes)
    (hsame : ∀ r ∈ rest, r.map Prod.fst = r0.map Prod.fst)
    (hcompat : ∀ r ∈ r0 :: rest, valuesCompat (colSpec eh r0) r = true)
    (hlast : ((r0 :: rest).map lineOfRow).getLast? ≠ some []) :
    parseCsvt mode (writeCsvt (r0 :: rest) { headers := eh }) =
      Except.ok { data := (r0 :: rest).map rtRow
                  headers := expectedHeaders 0 (colSpec eh r0)
                  errors := [] } := by
  have hallkeys : ∀ r ∈ r0 :: rest, r.map Prod.fst = r0.map Prod.fst := by
    intro r hr
    rcases List.mem_cons.1 hr with h | h
    · rw [h]
    · exact hsame r h
  have hkeysc : ∀ s ∈ colSpec eh r0, goodKey s.1 := by
    intro s hs
    have hm : s.1 ∈ (colSpec eh r0).map Prod.fst := List.mem_map_of_mem _ hs
    rw [hspec] at hm
    rcases List.mem_map.1 hm with ⟨p, hp, he⟩
    exact he ▸ hkeys p hp
  have hndc : ((colSpec eh r0).map Prod.fst).Nodup := by rw [hspec]; exact hnd
  have hcsne : colSpec eh r0 ≠ [] := by
    intro he
    apply hne
    rw [he] at hspec
    exact List.map_eq_nil_iff.1 hspec.symm
  have hrne : ∀ r ∈ r0 :: rest, r ≠ [] := by
    intro r hr he
    apply hne
    have h := hallkeys r hr
    rw [he] at h
    exact List.map_eq_nil_iff.1 h.symm
  have hfields_ne : ∀ r ∈ r0 :: rest, fieldsOfRow r ≠ [] := by
    intro r hr
    unfold fieldsOfRow
    simp [hrne r hr]
  have hsplit_r : ∀ r ∈ r0 :: rest, splitCsvLine (lineOfRow r) = some (fieldsOfRow r) := by
    intro r hr
    unfold lineOfRow
    refine splitCsvLine_joinWith ',' (by decide) _ (hfields_ne r hr) ?_
    intro f hf
    unfold fieldsOfRow at hf
    rcases List.mem_map.1 hf with ⟨p, hp, rfl⟩
    exact atomOk_escapeCsvField _ ',' (by decide)
  have hflen : ∀ r ∈ r0 :: rest,
      (fieldsOfRow r).length = (expectedHeaders 0 (colSpec eh r0)).length := by
    intro r hr
    rw [expectedHeaders_length]
    unfold fieldsOfRow
    rw [List.length_map]
    have h := congrArg List.length (hallkeys r hr)
    have h2 := congrArg List.length hspec
    simp only [List.length_map] at h h2
    omega
  have hHchars := headerLine_no_crlf (colSpec eh r0) hkeysc htys
  have hLchars : ∀ r ∈ r0 :: rest, ∀ c ∈ lineOfRow r, c ≠ '\n' ∧ c ≠ '\r' :=
    fun r hr => lineOfRow_no_crlf (colSpec eh r0) r (hcompat r hr)
  have hW0 : writeCsvt (r0 :: rest) { headers := eh } =
      joinWith ['\n'] (generateHeaderRow (determineHeaders (r0 :: rest) eh) [','] ::
        (r0 :: rest).map fun row =>
          generateDataRow row (determineHeaders (r0 :: rest) eh) [',']) := rfl
  have hW : writeCsvt (r0 :: rest) { headers := eh } =
      joinWith ['\n']
        (joinWith [','] ((colSpec eh r0).map fun s =>
            escapeHeaderName s.1 [','] ++ ':' :: s.2) ::
          (r0 :: rest).map lineOfRow) := by
    rw [hW0, generateHeaderRow_colSpec eh r0 rest,
      List.map_congr_left (fun r hr =>
        generateDataRow_colSpec eh r0 r rest hspec (hallkeys r hr) hnd)]
  have hnocr : '\r' ∉ writeCsvt (r0 :: rest) { headers := eh } := by
    rw [hW]
    intro hc
    rcases mem_joinWith _ _ _ hc with h | ⟨p, hp, hcp⟩
    · simp at h
    · rcases List.mem_cons.1 hp with h | h
      · exact (hHchars _ (h ▸ hcp)).2 rfl
      · rcases List.mem_map.1 h with ⟨r, hr, rfl⟩
        exact (hLchars r hr _ hcp).2 rfl
  have hpieces : ∀ p ∈ (joinWith [',']
      ((colSpec eh r0).map fun s => escapeHeaderName s.1 [','] ++ ':' :: s.2) ::
      (r0 :: rest).map lineOfRow), '\n' ∉ p := by
    intro p hp hc
    rcases List.mem_cons.1 hp with h | h
    · exact (hHchars _ (h ▸ hc)).1 rfl
    · rcases List.mem_map.1 h with ⟨r, hr, rfl⟩
      exact (hLchars r hr _ hc).1 rfl
  have hph1 : phase1 mode (expectedHeaders 0 (colSpec eh r0)).length
      ((r0 :: rest).map lineOfRow) 2 =
      Except.ok ([], (r0 :: rest).map fieldsOfRow) :=
    phase1_roundtrip mode _ (r0 :: rest) 2 (fun r hr => ⟨hsplit_r r hr, hflen r hr⟩) hlast
  have hph2 : phase2 mode (expectedHeaders 0 (colSpec eh r0))
      ((r0 :: rest).map fieldsOfRow) 0 =
      Except.ok ([], (r0 :: rest).map rtRow) := by
    refine phase2_roundtrip mode _ (r0 :: rest) 0 ?_
    intro r hr rn
    have h := processRow_roundtrip mode (colSpec eh r0) r 0 rn [] []
      ((hallkeys r hr).trans hspec.symm) (hcompat r hr)
    simpa using h
  unfold parseCsvt
  rw [normalizeNewlines_of_no_cr _ hnocr, hW,
    splitOnChar_joinWith '\n' _ (by simp) hpieces]
  unfold parseLines
  rw [if_neg (by simp)]
  simp only [parseHeaderLine_roundtrip (colSpec eh r0) hcsne hkeysc hndc htys, hph1, hph2]
  simp

/-- A concrete first row for the inferred-headers round-trip instance: a
plain string, a terminating decimal, an array with a nested number and a
string holding a comma, a control character and a bracket, an object with
a colon in its key, and a boolean under a quoted key containing a colon. -/
def r0Ex : Row :=
  [("a".data, JValue.jstr "x".data),
   ("num".data, JValue.jnum (.finite (mkRat 5 4))),
   ("l".data, JValue.jarr (.cons (JValue.jnum (.finite 1))
      (.cons (JValue.jstr "y,\x1a]".data) .nil))),
   ("o".data, JValue.jobj (.cons "k:1".data (JValue.jbool true) .nil)),
   ("or:d".data, JValue.jbool true)]

/-- Further rows for the inferred-headers instance: `null`, the empty
array and object, `undefined`, a negative terminating decimal. -/
def restEx : List Row :=
  [[("a".data, JValue.jstr "y,z".data), ("num".data, JValue.jnull),
    ("l".data, JValue.jarr .nil), ("o".data, JValue.jobj .nil),
    ("or:d".data, JValue.jbool false)],
   [("a".data, JValue.jundefined), ("num".data, JValue.jnum (.finite (mkRat (-3) 8))),
    ("l".data, JValue.jundefined), ("o".data, JValue.jnull),
    ("or:d".data, JValue.jbool false)]]

/-- Explicit headers for the second round-trip instance. -/
def ehEx : List ExplicitColumnHeader :=
  [{ name := "num".data, type := "number".data },
   { name := "s".data, type := "string".data }]

/-- First row of the explicit-headers instance. -/
def r0Ex2 : Row :=
  [("num".data, JValue.jnum (.finite (mkRat 1 4))), ("s".data, JValue.jstr "hi".data)]

/-- Second row of the explicit-headers instance: `Infinity` and `null`. -/
def restEx2 : List Row :=
  [[("num".data, JValue.jnum .posInf), ("s".data, JValue.jnull)]]

set_option maxRecDepth 100000 in
theorem writeCsvt_parseCsvt_roundtrip_witness :
    ((r0Ex ≠ [] ∧ (colSpec none r0Ex).map Prod.fst = r0Ex.map Prod.fst ∧
      (∀ p ∈ r0Ex, goodKey p.1) ∧ (r0Ex.map Prod.fst).Nodup ∧
      (∀ s ∈ colSpec none r0Ex, s.2 ∈ knownTypes) ∧
      (∀ r ∈ restEx, r.map Prod.fst = r0Ex.map Prod.fst) ∧
      (∀ r ∈ r0Ex :: restEx, valuesCompat (colSpec none r0Ex) r = true) ∧
      ((r0Ex :: restEx).map lineOfRow).getLast? ≠ some []) ∧
     parseCsvt .strict (writeCsvt (r0Ex :: restEx) { headers := none }) =
       Except.ok { data := (r0Ex :: restEx).map rtRow
                   headers := expectedHeaders 0 (colSpec none r0Ex)
                   errors := [] }) ∧
    ((r0Ex2 ≠ [] ∧ (colSpec (some ehEx) r0Ex2).map Prod.fst = r0Ex2.map Prod.fst ∧
      (∀ p ∈ r0Ex2, goodKey p.1) ∧ (r0Ex2.map Prod.fst).Nodup ∧
      (∀ s ∈ colSpec (some ehEx) r0Ex2, s.2 ∈ knownTypes) ∧
      (∀ r ∈ restEx2, r.map Prod.fst = r0Ex2.map Prod.fst) ∧
      (∀ r ∈ r0Ex2 :: restEx2, valuesCompat (colSpec (some ehEx) r0Ex2) r = true) ∧
      ((r0Ex2 :: restEx2).map lineOfRow).getLast? ≠ some []) ∧
     parseCsvt .collect (writeCsvt (r0Ex2 :: restEx2) { headers := some ehEx }) =
       Except.ok { data := (r0Ex2 :: restEx2).map rtRow
                   headers := expectedHeaders 0 (colSpec (some ehEx) r0Ex2)
                   errors := [] }) :=
  ⟨⟨by decide,
    writeCsvt_parseCsvt_roundtrip .strict none r0Ex restEx (by decide) (by decide)
      (by decide) (by decide) (by decide) (by decide) (by decide) (by decide)⟩,
   ⟨by decide,
    writeCsvt_parseCsvt_roundtrip .collect (some ehEx) r0Ex2 restEx2 (by decide) (by decide)
      (by decide) (by decide) (by decide) (by decide) (by decide) (by decide)⟩⟩

end Csvt
